import Mathlib

/-!
# The JAXN-like configuration example (`src/example/json/config.cpp`)

A shallow embedding of the configuration grammar, of the parse tree it builds
and of the reduction of a parse tree to a map from key paths to value
subtrees, together with the properties of these that have been checked.

The first part embeds the reducer (`key`, `add`, `process`), the second part
the grammar (`namespace rules`) with the parse-tree selector.
-/

namespace config

/-! ## Parse-tree nodes -/

/-- The rules for which `config::selector` keeps a parse-tree node.  The first
group is listed under `apply_remove_content`, the second under
`apply_store_content`.  `string`, `binary`, ... are the rules of
`config::rules`; `jaxn_string`, `jaxn_string_fragment`, `bvalue`, `number`,
`hexnum`, `infinity`, `null`, `true_`, `false_` and `nan` are rules of
`json::jaxn::internal::rules`. -/
inductive Rule
  | include_file
  | delete_keys
  | member
  | string
  | array
  | object
  | function
  | function_param
  | expression
  | rkey
  | binary
  | mkey
  | element
  | infinity (neg : Bool)
  | null
  | true_
  | false_
  | nan
  | identifier
  | bvalue
  | number (neg : Bool)
  | hexnum (neg : Bool)
  | jaxn_string
  | jaxn_string_fragment
  deriving DecidableEq, Repr

/-- How the selector treats the node of a rule: `parse_tree::apply_remove_content`
(`false`) or `parse_tree::apply_store_content` (`true`). -/
def Rule.stores_content : Rule → Bool
  | .identifier | .bvalue | .number _ | .hexnum _ | .jaxn_string | .jaxn_string_fragment => true
  | _ => false

/-- Modelled from the spec: the parse-tree node `parse_tree::node` of the PEGTL
(not in src/), as an owning handle `std::unique_ptr< parse_tree::node >` (or
the `std::shared_ptr` made from one): either empty, as a handle is after its
node has been moved out of it, or holding a node.  A node has the identity of
the rule that made it (`none` for the root), the offset in the input where the
match began, the matched text when the rule stores its content, and the
handles of its children. -/
inductive Node
  | null
  | mk (id : Option Rule) (begin_ : Nat) (content : Option String) (children : List Node)
  deriving Repr

mutual
/-- Equality of node handles is decidable. -/
def Node.decEq : (a b : Node) → Decidable (a = b)
  | .null, .null => isTrue rfl
  | .null, .mk .. => isFalse (by intro h; cases h)
  | .mk .., .null => isFalse (by intro h; cases h)
  | .mk i1 b1 c1 k1, .mk i2 b2 c2 k2 =>
    if h1 : i1 = i2 then
      if h2 : b1 = b2 then
        if h3 : c1 = c2 then
          match Node.decEqList k1 k2 with
          | isTrue h4 => isTrue (by rw [h1, h2, h3, h4])
          | isFalse h4 => isFalse (by intro h; cases h; exact h4 rfl)
        else isFalse (by intro h; cases h; exact h3 rfl)
      else isFalse (by intro h; cases h; exact h2 rfl)
    else isFalse (by intro h; cases h; exact h1 rfl)
/-- Equality of lists of node handles is decidable. -/
def Node.decEqList : (as bs : List Node) → Decidable (as = bs)
  | [], [] => isTrue rfl
  | [], _ :: _ => isFalse (by intro h; cases h)
  | _ :: _, [] => isFalse (by intro h; cases h)
  | a :: as, b :: bs =>
    match Node.decEq a b with
    | isTrue h1 =>
      match Node.decEqList as bs with
      | isTrue h2 => isTrue (by rw [h1, h2])
      | isFalse h2 => isFalse (by intro h; cases h; exact h2 rfl)
    | isFalse h1 => isFalse (by intro h; cases h; exact h1 rfl)
end

instance : DecidableEq Node := Node.decEq

/-- The test `n.is< R >()`: the node was made by rule `R`. -/
def Node.is (n : Node) (r : Rule) : Bool :=
  match n with
  | .null => false
  | .mk id _ _ _ => id == some r

/-- The children `n.children`. -/
def Node.children : Node → List Node
  | .null => []
  | .mk _ _ _ cs => cs

/-- The test `n.has_content()`. -/
def Node.has_content : Node → Bool
  | .null => false
  | .mk _ _ c _ => c.isSome

/-! ## Key paths and the document -/

/-- Modelled from the spec: the type `json::pointer` (not in src/), an ordered
sequence of string segments; two pointers are equal when their segments
are. -/
structure pointer where
  tokens : List String
  deriving DecidableEq, Repr

/-- The character codes of the tokens of a pointer. -/
def pointer.codes (p : pointer) : List (List Nat) :=
  p.tokens.map (fun s => s.data.map Char.toNat)

/-- The call `result.push_back( s )` on a `json::pointer`. -/
def pointer.push_back (p : pointer) (s : String) : pointer := ⟨p.tokens ++ [s]⟩

/-- Modelled from the spec: the order `operator<` of `json::pointer` (not in
src/) that `std::map` sorts by.  The specification fixes the equality of key
paths only; the order is the one of a `std::vector` of `std::string`s: the
segment sequences are compared lexicographically, and two segments are
compared lexicographically by character code. -/
instance : LinearOrder pointer :=
  LinearOrder.lift' pointer.codes (by
    intro a b h
    cases a with
    | mk a =>
      cases b with
      | mk b =>
        simp only [pointer.codes] at h
        congr
        refine List.map_injective_iff.mpr ?_ h
        intro s t hst
        have hdata : s.data = t.data := by
          refine List.map_injective_iff.mpr ?_ hst
          intro c d hcd
          have := congrArg Char.ofNat hcd
          simpa using this
        exact String.ext hdata)

/-- The type `node_map`, a `std::map< json::pointer, std::shared_ptr< node > >`,
as the list of its entries in iteration order. -/
abbrev node_map := List (pointer × Node)

/-- The call `m.emplace( k, v )` of `std::map`: walks the entries in ascending order;
the new entry is put before the first entry with a greater key, and nothing is
inserted when an entry with an equivalent key (neither less than the other)
is found. -/
def emplace {κ β : Type} [LinearOrder κ] (k : κ) (v : β) : List (κ × β) → List (κ × β)
  | [] => [(k, v)]
  | (k', v') :: m =>
    if k < k' then (k, v) :: (k', v') :: m
    else if k' < k then (k', v') :: emplace k v m
    else (k', v') :: m

/-- The call `m.find( k )` of `std::map`, as the value found, if any. -/
def find {κ β : Type} [LinearOrder κ] (k : κ) : List (κ × β) → Option β
  | [] => none
  | (k', v') :: m =>
    if k < k' then find k m
    else if k' < k then find k m
    else some v'

/-! ## The reducer -/

deriving instance DecidableEq for Except

/-- The ways the reducer ends other than by returning. -/
inductive Failure
  /-- The exception thrown by `throw std::logic_error( what )`. -/
  | logic_error (what : String)
  /-- A failed `assert( expr )`. -/
  | assertion (expr : String)
  /-- The exception of `json::jaxn::from_input( ... ).get_string()`. -/
  | from_input
  /-- An empty handle is dereferenced or a node without content is read. -/
  | undefined_behaviour
  deriving DecidableEq, Repr

/-- The loop of `key` over the children of a key-path node, `result` being the
pointer built so far.  `get_string` is
`json::jaxn::from_input( p->as_memory_input() ).get_string()` as a function of
the text of the node, `none` when it throws. -/
def key_loop (get_string : String → Option String) (result : pointer) :
    List Node → Except Failure pointer
  | [] => .ok result
  | .null :: _ => .error .undefined_behaviour
  | .mk id _ content _ :: ps =>
    if id = some .identifier then
      match content with
      | some s => key_loop get_string (result.push_back s) ps
      | none => .error .undefined_behaviour
    else if id = some .jaxn_string then
      match content with
      | some s =>
        match get_string s with
        | some t => key_loop get_string (result.push_back t) ps
        | none => .error .from_input
      | none => .error .undefined_behaviour
    else .error (.logic_error "code should be unreachable")

/-- The function `json::pointer key( const parse_tree::node& n )`. -/
def key (get_string : String → Option String) (n : Node) : Except Failure pointer :=
  match n with
  | .null => .error .undefined_behaviour
  | .mk _ _ _ children => key_loop get_string ⟨[]⟩ children

/-- The function `void add( node_map& m, parse_tree::node& n )`, returning the map and the
node as they are afterwards.  The key is computed first.  `std::move` is only a
cast: the handle of the last child is moved from when `emplace` builds the new
map entry.  That happens when the key is new; when the map already has the key
it depends on the library, which may build the entry before it looks the key
up and drop it then (`eager`, the handle is left empty and the subtree is
gone), or look the key up first and leave its arguments alone (the `emplace` of
libstdc++ under C++17). -/
def add (eager : Bool) (get_string : String → Option String) (m : node_map) (n : Node) :
    Except Failure (node_map × Node) :=
  match n with
  | .null => .error .undefined_behaviour
  | .mk id b c children =>
    match children with
    | [front, back] =>
      match key get_string front with
      | .ok k =>
        .ok (emplace k back m,
          .mk id b c [front, if eager || (find k m).isNone then .null else back])
      | .error e => .error e
    | _ => .error (.assertion "n.children.size() == 2")

/-- The loop of `process` over the children of the root, returning the map
and the children as they are afterwards. -/
def process_loop (eager : Bool) (get_string : String → Option String) :
    node_map → List Node → Except Failure (node_map × List Node)
  | result, [] => .ok (result, [])
  | result, e :: es =>
    if e = .null then .error .undefined_behaviour
    else if e.is .member then
      match add eager get_string result e with
      | .ok (result', e') =>
        match process_loop eager get_string result' es with
        | .ok (r, es') => .ok (r, e' :: es')
        | .error x => .error x
      | .error x => .error x
    else if e.is .delete_keys then
      match process_loop eager get_string result es with
      | .ok (r, es') => .ok (r, e :: es')
      | .error x => .error x
    else if e.is .include_file then
      match process_loop eager get_string result es with
      | .ok (r, es') => .ok (r, e :: es')
      | .error x => .error x
    else .error (.logic_error "code should be unreachable")

/-- The function `node_map process( parse_tree::node& n )`, returning the map and the tree
as it is afterwards. -/
def process (eager : Bool) (get_string : String → Option String) (n : Node) :
    Except Failure (node_map × Node) :=
  match n with
  | .null => .error .undefined_behaviour
  | .mk id b c children =>
    match process_loop eager get_string [] children with
    | .ok (r, cs) => .ok (r, .mk id b c cs)
    | .error x => .error x

/-! ## The input and the result of a match -/

/-- Modelled from the spec: the input `file_input<>` of the PEGTL (not in
src/), a cursor with lookahead and position tracking, from the current
position on: the offset of the current position and the characters from there
to the end.  The input is held in memory, so a failed match is undone by going
on from the input as it was before. -/
structure Input where
  pos : Nat
  rest : List Char
  deriving DecidableEq, Repr

/-- The test `in.empty()`. -/
def Input.empty (i : Input) : Bool := i.rest.isEmpty

/-- The call `in.size( amount )`: the number of characters that are left; an
input held in memory does not look at `amount`. -/
def Input.size (i : Input) (_amount : Nat) : Nat := i.rest.length

/-- The character that `in.peek_char( offset )` returns when the offset is inside
the input; `none` when it is not, where the call reads outside the input. -/
def Input.peek_char (i : Input) (offset : Nat) : Option Char := i.rest.get? offset

/-- The calls `in.bump( n )` and `in.bump_in_this_line( n )`. -/
def Input.bump (i : Input) (n : Nat) : Input := ⟨i.pos + min n i.rest.length, i.rest.drop n⟩

/-- The outcome of matching a rule at an input. -/
inductive Result
  /-- The rule matched: the nodes it adds to the children of the node being
  built, and the input after the match. -/
  | ok (nodes : List Node) (next : Input)
  /-- The rule did not match (`match` returns `false`). -/
  | fail
  /-- A `parse_error` with this message was thrown. -/
  | raise (what : String)
  /-- The match does not return. -/
  | diverge
  /-- The behaviour is undefined: the match reads a character outside the
  input. -/
  | undefined
  deriving DecidableEq, Repr

/-- A rule, as the function from the input to the outcome of matching it. -/
abbrev Parser := Input → Result

/-- The outcome of matching a rule none of whose parts has a node in the
selector: the number of characters matched, a local failure, or a
`parse_error`. -/
inductive Matched
  | ok (n : Nat)
  | fail
  | raise (what : String)
  deriving DecidableEq, Repr

/-- A rule that adds no nodes, as a function of the characters that are left. -/
abbrev Matcher := List Char → Matched

/-- The rules of `json::jaxn::internal::rules` (the header
`tao/json/jaxn/internal/grammar.hpp`, not part of the sources at hand) that
the configuration grammar is built from.  Only `string` and the function
`sor_value::match_number< NEG >` contain rules that the selector keeps nodes
for, so only these two can add nodes of their own. -/
structure jaxn_rules where
  ws : Matcher
  begin_array : Matcher
  end_array : Matcher
  begin_object : Matcher
  end_object : Matcher
  value_separator : Matcher
  element_separator : Matcher
  value_concat : Matcher
  null : Matcher
  true_ : Matcher
  false_ : Matcher
  string_fragment : Matcher
  bvalue : Matcher
  string : Parser
  match_number : Bool → Parser

/-! ## The combinators of the PEGTL -/

namespace pegtl

/-- A rule without nodes as a parser. -/
def lift (m : Matcher) : Parser := fun i =>
  match m i.rest with
  | .ok n => .ok [] (i.bump n)
  | .fail => .fail
  | .raise w => .raise w

/-- Modelled from the spec: the rule `one< c... >` of the PEGTL (not in src/),
which matches one character out of the given ones. -/
def one (cs : List Char) : Parser := fun i =>
  match i.rest with
  | c :: _ => if c ∈ cs then .ok [] (i.bump 1) else .fail
  | [] => .fail

/-- Modelled from the spec: the rule `ranges< ... >` of the PEGTL (not in
src/), which matches one character of a class of characters. -/
def ranges (cls : Char → Bool) : Parser := fun i =>
  match i.rest with
  | c :: _ => if cls c then .ok [] (i.bump 1) else .fail
  | [] => .fail

/-- Modelled from the spec: the rule `string< c... >` of the PEGTL (not in
src/), which matches the given characters in a row. -/
def string (cs : List Char) : Parser := fun i =>
  if cs.isPrefixOf i.rest then .ok [] (i.bump cs.length) else .fail

/-- Modelled from the spec: the rule `eof` of the PEGTL (not in src/), which
matches at the end of the input and consumes nothing. -/
def eof : Parser := fun i => if i.rest.isEmpty then .ok [] i else .fail

/-- Modelled from the spec: the sequence `seq< R, S >` of the PEGTL (not in
src/): `R`, then `S` where `R` ended; a failure of either is a failure of the
sequence. -/
def seq (p q : Parser) : Parser := fun i =>
  match p i with
  | .ok ns i' =>
    match q i' with
    | .ok ms k => .ok (ns ++ ms) k
    | r => r
  | r => r

/-- Modelled from the spec: the ordered choice `sor< R, S >` of the PEGTL (not
in src/): `R`, and `S` at the same position when `R` fails. -/
def sor (p q : Parser) : Parser := fun i =>
  match p i with
  | .fail => q i
  | r => r

/-- Modelled from the spec: the optional `opt< R >` of the PEGTL (not in
src/). -/
def opt (p : Parser) : Parser := fun i =>
  match p i with
  | .fail => .ok [] i
  | r => r

/-- Modelled from the spec: `must< R >` of the PEGTL (not in src/), which
turns a failure of `R` into a `parse_error`; `what` is the name of `R` in the
message. -/
def must (what : String) (p : Parser) : Parser := fun i =>
  match p i with
  | .fail => .raise ("parse error matching " ++ what)
  | r => r

/-- The loop of `star< R >`: `while( R::match( in ) ) {}`.  The loop goes
round at most once per character that is left; a round that matches without
consuming anything would repeat itself for ever. -/
def star_loop (p : Parser) : Nat → Input → Result
  | 0, _ => .diverge
  | n + 1, i =>
    match p i with
    | .ok ns i' =>
      if i'.rest.length < i.rest.length then
        match star_loop p n i' with
        | .ok ms k => .ok (ns ++ ms) k
        | r => r
      else .diverge
    | .fail => .ok [] i
    | r => r

/-- Modelled from the spec: the repetition `star< R >` of the PEGTL (not in
src/), zero or more times `R`. -/
def star (p : Parser) : Parser := fun i => star_loop p (i.rest.length + 1) i

/-- Modelled from the spec: the repetition `plus< R >` of the PEGTL (not in
src/), one or more times `R`. -/
def plus (p : Parser) : Parser := seq p (star p)

/-- Modelled from the spec: `if_must< C, R >` of the PEGTL (not in src/):
when `C` matches, `R` must match. -/
def if_must (c : Parser) (what : String) (r : Parser) : Parser := seq c (must what r)

/-- Modelled from the spec: `list< R, S >` of the PEGTL (not in src/), a list
of one or more `R` separated by `S`: `seq< R, star< S, R > >`. -/
def list (r s : Parser) : Parser := seq r (star (seq s r))

/-- Modelled from the spec: `list_must< R, S >` of the PEGTL (not in src/), a
list in which an `R` must follow every separator:
`seq< R, star< S, must< R > > >`. -/
def list_must (what : String) (r s : Parser) : Parser := seq r (star (seq s (must what r)))

/-- Modelled from the spec: `list_tail< R, S >` of the PEGTL (not in src/), a
list that may end with a separator: `seq< list< R, S >, opt< S > >`. -/
def list_tail (r s : Parser) : Parser := seq (list r s) (opt s)

/-- Modelled from the spec: `pad< R, P >` of the PEGTL (not in src/), `R` with
any number of `P` on both sides. -/
def pad (r p : Parser) : Parser := seq (star p) (seq r (star p))

/-- The loop of `until< C, R >`:
`while( !C::match( in ) ) { if( !R::match( in ) ) return false; }`. -/
def until_loop (c r : Parser) : Nat → Input → Result
  | 0, _ => .diverge
  | n + 1, i =>
    match c i with
    | .fail =>
      match r i with
      | .ok ns i' =>
        if i'.rest.length < i.rest.length then
          match until_loop c r n i' with
          | .ok ms k => .ok (ns ++ ms) k
          | x => x
        else .diverge
      | x => x
    | x => x

/-- Modelled from the spec: `until< C, R >` of the PEGTL (not in src/), which
matches `R` again and again until `C` matches. -/
def until_ (c r : Parser) : Parser := fun i => until_loop c r (i.rest.length + 1) i

end pegtl

/-- The text of the input between the start of a match and its end. -/
def matched_text (i i' : Input) : String := String.mk (i.rest.take (i'.pos - i.pos))

/-- Modelled from the spec: the control of `parse_tree::parse` (not in src/)
for a rule `r` that `config::selector` keeps a node for: when the rule matches, one node is added in place of the nodes the rule
added; the node has these as its children, and has the matched text as its
content when the selector stores the content of `r`. -/
def node (r : Rule) (p : Parser) : Parser := fun i =>
  match p i with
  | .ok ns i' =>
    .ok [Node.mk (some r) i.pos (if r.stores_content then some (matched_text i i') else none) ns] i'
  | x => x


/-! ## The grammar -/

namespace rules

open pegtl

/-- The rules that are declared before they are defined (`struct value;`,
`struct expression;`), as they are available to the definitions of the other
rules. -/
structure forward where
  value : Parser
  expression : Parser

/-- The padding `jaxn::padr< R >`, which is `seq< R, star< jaxn::ws > >`. -/
def padr (jaxn : jaxn_rules) (r : Parser) : Parser := seq r (star (lift jaxn.ws))

/-- The rule `rws`, `plus< jaxn::ws >`. -/
def rws (jaxn : jaxn_rules) : Parser := plus (lift jaxn.ws)

/-- The characters of `ranges< 'a', 'z', 'A', 'Z', '0', '9', '-', '-', '_', '_', '$' >`. -/
def identifier_char (c : Char) : Bool :=
  ('a'.toNat ≤ c.toNat && c.toNat ≤ 'z'.toNat) || ('A'.toNat ≤ c.toNat && c.toNat ≤ 'Z'.toNat)
    || ('0'.toNat ≤ c.toNat && c.toNat ≤ '9'.toNat) || c = '-' || c = '_' || c = '$'

/-- The rule `identifier`. -/
def identifier : Parser := node .identifier (plus (ranges identifier_char))

/-- The rule `name_separator`, `pad< one< ':', '=' >, jaxn::ws >`. -/
def name_separator (jaxn : jaxn_rules) : Parser := pad (one [':', '=']) (lift jaxn.ws)

/-- The rule `function_param`, `if_must< identifier, name_separator, value >`. -/
def function_param (jaxn : jaxn_rules) (fwd : forward) : Parser :=
  node .function_param
    (seq identifier (seq (must "name_separator" (name_separator jaxn)) (must "value" fwd.value)))

/-- The rule `function`. -/
def function (jaxn : jaxn_rules) (fwd : forward) : Parser :=
  node .function
    (seq identifier (seq (rws jaxn) (list (function_param jaxn fwd) (lift jaxn.value_separator))))

/-- The rule `string_fragment`, `sor< jaxn::string_fragment, expression >`. -/
def string_fragment (jaxn : jaxn_rules) (fwd : forward) : Parser :=
  sor (node .jaxn_string_fragment (lift jaxn.string_fragment)) fwd.expression

/-- The rule `string`. -/
def string (jaxn : jaxn_rules) (fwd : forward) : Parser :=
  node .string (list_must "string_fragment" (string_fragment jaxn fwd) (lift jaxn.value_concat))

/-- The rule `binary_fragment`, `sor< expression, jaxn::bvalue >`. -/
def binary_fragment (jaxn : jaxn_rules) (fwd : forward) : Parser :=
  sor fwd.expression (node .bvalue (lift jaxn.bvalue))

/-- The rule `binary`. -/
def binary (jaxn : jaxn_rules) (fwd : forward) : Parser :=
  node .binary (list_must "binary_fragment" (binary_fragment jaxn fwd) (lift jaxn.value_concat))

/-- The rule `element`, which is `value` with a node of its own. -/
def element (fwd : forward) : Parser := node .element fwd.value

/-- The rule `array_content`. -/
def array_content (jaxn : jaxn_rules) (fwd : forward) : Parser :=
  opt (list_tail (element fwd) (lift jaxn.element_separator))

/-- The rule `array_value`. -/
def array_value (jaxn : jaxn_rules) (fwd : forward) : Parser :=
  seq (lift jaxn.begin_array)
    (seq (array_content jaxn fwd) (must "jaxn::end_array" (lift jaxn.end_array)))

/-- The rule `array_fragment`, `sor< expression, array_value >`. -/
def array_fragment (jaxn : jaxn_rules) (fwd : forward) : Parser :=
  sor fwd.expression (array_value jaxn fwd)

/-- The rule `array`. -/
def array (jaxn : jaxn_rules) (fwd : forward) : Parser :=
  node .array (list_must "array_fragment" (array_fragment jaxn fwd) (lift jaxn.value_concat))

/-- The rule `mkey_part`, `sor< identifier, jaxn::string >`. -/
def mkey_part (jaxn : jaxn_rules) : Parser := sor identifier (node .jaxn_string jaxn.string)

/-- The rule `mkey`. -/
def mkey (jaxn : jaxn_rules) : Parser := node .mkey (list (mkey_part jaxn) (one ['.']))

/-- The rule `member`, `if_must< mkey, name_separator, value >`. -/
def member (jaxn : jaxn_rules) (fwd : forward) : Parser :=
  node .member
    (seq (mkey jaxn) (seq (must "name_separator" (name_separator jaxn)) (must "value" fwd.value)))

/-- The rule `object_content`, `star< member, opt< jaxn::value_separator > >`. -/
def object_content (jaxn : jaxn_rules) (fwd : forward) : Parser :=
  star (seq (member jaxn fwd) (opt (lift jaxn.value_separator)))

/-- The rule `object_value`. -/
def object_value (jaxn : jaxn_rules) (fwd : forward) : Parser :=
  seq (lift jaxn.begin_object)
    (seq (object_content jaxn fwd) (must "jaxn::end_object" (lift jaxn.end_object)))

/-- The rule `object_fragment`, `sor< expression, object_value >`. -/
def object_fragment (jaxn : jaxn_rules) (fwd : forward) : Parser :=
  sor fwd.expression (object_value jaxn fwd)

/-- The rule `object`. -/
def object (jaxn : jaxn_rules) (fwd : forward) : Parser :=
  node .object (list_must "object_fragment" (object_fragment jaxn fwd) (lift jaxn.value_concat))

/-- The rule `rkey_part`, `sor< string, identifier >`. -/
def rkey_part (jaxn : jaxn_rules) (fwd : forward) : Parser := sor (string jaxn fwd) identifier

/-- The rule `rkey`. -/
def rkey (jaxn : jaxn_rules) (fwd : forward) : Parser :=
  node .rkey (list (rkey_part jaxn fwd) (one ['.']))

/-- The rule `expression`,
`if_must< string< '$', '(' >, sor< function, rkey >, one< ')' > >`, with the
rules declared before it taken from `fwd`. -/
def expression (jaxn : jaxn_rules) (fwd : forward) : Parser :=
  node .expression
    (seq (pegtl.string ['$', '('])
      (seq (must "sor< function, rkey >" (sor (function jaxn fwd) (rkey jaxn fwd)))
        (must "one< 41 >" (one [')']))))

/-- The rule `expression_list`. -/
def expression_list (jaxn : jaxn_rules) (fwd : forward) : Parser :=
  seq fwd.expression
    (star (seq (lift jaxn.value_concat)
      (sor fwd.expression
        (must "sor< string, binary, object, array >"
          (sor (string jaxn fwd) (sor (binary jaxn fwd) (sor (object jaxn fwd) (array jaxn fwd))))))))

/-- The sign case of `sor_value::match_impl`: the sign is consumed
(`in.bump_in_this_line()`), and a `parse_error` is thrown when the input ends
there or `match_number< NEG >` fails. -/
def sor_value.match_signed (jaxn : jaxn_rules) (neg : Bool) : Parser := fun i =>
  let i' := i.bump 1
  if i'.empty then .raise "incomplete number"
  else
    match jaxn.match_number neg i' with
    | .fail => .raise "incomplete number"
    | r => r

/-- The function `sor_value::match_impl`: the `switch` on `in.peek_char()`, and for a
dollar sign the test of `in.peek_char( 1 )`.  A `peek_char` at an offset that is
not inside the input reads a character outside it, and the behaviour is
undefined. -/
def sor_value.match_impl (jaxn : jaxn_rules) (fwd : forward) : Parser := fun i =>
  match i.peek_char 0 with
  | none => .undefined
  | some c =>
    if c = '{' then object jaxn fwd i
    else if c = '[' then array jaxn fwd i
    else if c = 'n' then node .null (lift jaxn.null) i
    else if c = 't' then node .true_ (lift jaxn.true_) i
    else if c = 'f' then node .false_ (lift jaxn.false_) i
    else if c = Char.ofNat 34 ∨ c = Char.ofNat 39 then string jaxn fwd i
    else if c = '$' then
      match i.peek_char 1 with
      | some d => if d = '(' then expression_list jaxn fwd i else binary jaxn fwd i
      | none => .undefined
    else if c = '+' then sor_value.match_signed jaxn false i
    else if c = '-' then sor_value.match_signed jaxn true i
    else jaxn.match_number false i

/-- The function `sor_value::match`:
`if( in.size( 2 ) && match_impl( in, st... ) ) { in.discard(); return true; } return false;` -/
def sor_value.match_ (jaxn : jaxn_rules) (fwd : forward) : Parser := fun i =>
  if i.size 2 ≠ 0 then sor_value.match_impl jaxn fwd i else .fail

/-- The rule `value`, `jaxn::padr< sor_value >`, with the rules declared
before it taken from `fwd`. -/
def value (jaxn : jaxn_rules) (fwd : forward) : Parser := padr jaxn (sor_value.match_ jaxn fwd)

/-- The rules `value` and `expression` with their recursion unfolded `depth`
times; a match that needs a deeper recursion does not return. -/
def unfold (jaxn : jaxn_rules) : Nat → forward
  | 0 => ⟨fun _ => .diverge, fun _ => .diverge⟩
  | depth + 1 => ⟨value jaxn (unfold jaxn depth), expression jaxn (unfold jaxn depth)⟩

/-- The rule `kw_include`. -/
def kw_include : Parser := pegtl.string "include".data

/-- The rule `kw_delete`. -/
def kw_delete : Parser := pegtl.string "delete".data

/-- The rule `include_file`, `seq< kw_include, rws, string >`. -/
def include_file (jaxn : jaxn_rules) (fwd : forward) : Parser :=
  node .include_file (seq kw_include (seq (rws jaxn) (string jaxn fwd)))

/-- The rule `delete_keys`, `seq< kw_delete, rws, mkey >`. -/
def delete_keys (jaxn : jaxn_rules) : Parser :=
  node .delete_keys (seq kw_delete (seq (rws jaxn) (mkey jaxn)))

/-- The rule `statement`, `sor< include_file, delete_keys, member >`. -/
def statement (jaxn : jaxn_rules) (fwd : forward) : Parser :=
  sor (include_file jaxn fwd) (sor (delete_keys jaxn) (member jaxn fwd))

/-- The rule `grammar`, `until< eof, sor< jaxn::ws, must< rules::statement > > >`, with
the recursion of `value` and `expression` unfolded `depth` times. -/
def grammar (jaxn : jaxn_rules) (depth : Nat) : Parser :=
  until_ eof (sor (lift jaxn.ws) (must "rules::statement" (statement jaxn (unfold jaxn depth))))

end rules

/-- The call `parse_tree::parse< rules::grammar, selector >( in )` on the text of a
file: the root node with the nodes of the statements as its children, when the
grammar matches. -/
def parse (jaxn : jaxn_rules) (depth : Nat) (text : String) : Result :=
  match rules.grammar jaxn depth ⟨0, text.data⟩ with
  | .ok ns i => .ok [Node.mk none 0 none ns] i
  | r => r


/-! ## A model of the JAXN rules -/

namespace jaxn_model

/-- The white space characters: space, tab, line feed, carriage return. -/
def is_ws (c : Char) : Bool := c = ' ' || c = Char.ofNat 9 || c = Char.ofNat 10 || c = Char.ofNat 13

/-- The number of white space characters at the start of a text. -/
def count_ws (cs : List Char) : Nat := (cs.takeWhile is_ws).length

/-- Modelled from the spec: `jaxn::ws` (not in src/), one white space
character. -/
def ws : Matcher := fun cs =>
  match cs with
  | c :: _ => if is_ws c then .ok 1 else .fail
  | [] => .fail

/-- The character `c`, then any white space. -/
def padded_right (c : Char) : Matcher := fun cs =>
  match cs with
  | d :: ds => if d = c then .ok (1 + count_ws ds) else .fail
  | [] => .fail

/-- The character `c` alone. -/
def just (c : Char) : Matcher := fun cs =>
  match cs with
  | d :: _ => if d = c then .ok 1 else .fail
  | [] => .fail

/-- The character `c` with any white space on both sides. -/
def padded (c : Char) : Matcher := fun cs =>
  match padded_right c (cs.drop (count_ws cs)) with
  | .ok n => .ok (count_ws cs + n)
  | r => r

/-- The given word. -/
def word (w : String) : Matcher := fun cs =>
  if w.data.isPrefixOf cs then .ok w.data.length else .fail

/-- The length of the rest of a quoted text up to and with the closing quote
`q`; a backslash takes the character after it with it. -/
def quoted_rest (q : Char) : List Char → Option Nat
  | [] => none
  | c :: cs =>
    if c = q then some 1
    else if c = Char.ofNat 92 then
      match cs with
      | [] => none
      | _ :: cs' => (quoted_rest q cs').map (· + 2)
    else (quoted_rest q cs).map (· + 1)

/-- Modelled from the spec: `jaxn::string_fragment` (not in src/), a text in
double or in single quotes; a quote that is not closed is an error. -/
def string_fragment : Matcher := fun cs =>
  match cs with
  | c :: ds =>
    if c = Char.ofNat 34 ∨ c = Char.ofNat 39 then
      match quoted_rest c ds with
      | some n => .ok (1 + n)
      | none => .raise "parse error matching jaxn::string_fragment"
    else .fail
  | [] => .fail

/-- The digits `0` to `9`. -/
def is_digit (c : Char) : Bool := '0'.toNat ≤ c.toNat && c.toNat ≤ '9'.toNat

/-- The hexadecimal digits. -/
def is_hexdigit (c : Char) : Bool :=
  is_digit c || ('a'.toNat ≤ c.toNat && c.toNat ≤ 'f'.toNat)
    || ('A'.toNat ≤ c.toNat && c.toNat ≤ 'F'.toNat)

/-- The number of characters in the pairs of hexadecimal digits at the start
of a text. -/
def count_hex_pairs : List Char → Nat
  | a :: b :: cs => if is_hexdigit a && is_hexdigit b then 2 + count_hex_pairs cs else 0
  | _ => 0

/-- Modelled from the spec: `jaxn::bvalue` (not in src/), a dollar sign, then
pairs of hexadecimal digits. -/
def bvalue : Matcher := fun cs =>
  match cs with
  | c :: ds => if c = '$' then .ok (1 + count_hex_pairs ds) else .fail
  | [] => .fail

/-- The number of digits at the start of a text. -/
def count_digits (cs : List Char) : Nat := (cs.takeWhile is_digit).length

/-- The length of a fraction (a point and digits) at the start of a text, zero
when there is none. -/
def count_fraction (cs : List Char) : Nat :=
  match cs with
  | c :: ds => if c = '.' ∧ 0 < count_digits ds then 1 + count_digits ds else 0
  | [] => 0

/-- The length of an exponent at the start of a text, zero when there is
none. -/
def count_exponent (cs : List Char) : Nat :=
  match cs with
  | c :: ds =>
    if c = 'e' ∨ c = 'E' then
      match ds with
      | s :: es =>
        if (s = '+' ∨ s = '-') ∧ 0 < count_digits es then 2 + count_digits es
        else if 0 < count_digits ds then 1 + count_digits ds
        else 0
      | [] => 0
    else 0
  | [] => 0

/-- Modelled from the spec: `jaxn::number< NEG >` (not in src/), a decimal
number without sign: digits, then an optional fraction and an optional
exponent. -/
def number : Matcher := fun cs =>
  let n := count_digits cs
  if n = 0 then .fail
  else
    let f := count_fraction (cs.drop n)
    .ok (n + f + count_exponent (cs.drop (n + f)))

end jaxn_model

/-- Modelled from the spec: the rules of the JAXN grammar (the header
`tao/json/jaxn/internal/grammar.hpp`, not in src/) in the plain form the
specification speaks of: white space characters, the brackets, braces and
commas, the concatenation sign `+`, the words `null`, `true` and `false`,
quoted strings, binary values and decimal numbers, each of which matches at
least one character.  Comments, `NaN`, `Infinity` and hexadecimal numbers are
left out, and the model is used for texts without them only. -/
def jaxn_model.rules : jaxn_rules where
  ws := jaxn_model.ws
  begin_array := jaxn_model.padded_right '['
  end_array := jaxn_model.just ']'
  begin_object := jaxn_model.padded_right '{'
  end_object := jaxn_model.just '}'
  value_separator := jaxn_model.padded_right ','
  element_separator := jaxn_model.padded_right ','
  value_concat := jaxn_model.padded '+'
  null := jaxn_model.word "null"
  true_ := jaxn_model.word "true"
  false_ := jaxn_model.word "false"
  string_fragment := jaxn_model.string_fragment
  bvalue := jaxn_model.bvalue
  string :=
    pegtl.list_must "jaxn::string_fragment"
      (node .jaxn_string_fragment (pegtl.lift jaxn_model.string_fragment))
      (pegtl.lift (jaxn_model.padded '+'))
  match_number := fun neg => node (.number neg) (pegtl.lift jaxn_model.number)

/-- Modelled from the spec: `json::jaxn::from_input( ... ).get_string()` (not
in src/) for a string in quotes without escapes: the text between the
quotes. -/
def jaxn_model.get_string (s : String) : Option String :=
  match s.data with
  | q :: cs =>
    if (q = Char.ofNat 34 ∨ q = Char.ofNat 39) ∧ cs.getLast? = some q
        ∧ (cs.dropLast.all fun c => c ≠ q && c ≠ Char.ofNat 92) then
      some (String.mk cs.dropLast)
    else none
  | [] => none

/-- The model of the JAXN rules with a number rule that throws an error of its
own: at the letter `N` the number must be `NaN` (the selector of `config.cpp`
names the rule `jaxn::nan`), and a `parse_error` is thrown when it is not; on every other
input the number rule is the one of the model. -/
def jaxn_model.rules_nan : jaxn_rules :=
  { jaxn_model.rules with
    match_number := fun neg i =>
      match i.rest with
      | 'N' :: _ => node .nan (pegtl.must "jaxn::nan" (pegtl.lift (jaxn_model.word "NaN"))) i
      | _ => node (.number neg) (pegtl.lift jaxn_model.number) i }

/-! ## Notions used in the statements -/

/-- The entry that a member statement stands for: its resolved key path and
its value subtree; `none` for a node that is not a member with two children
and a key path that resolves. -/
def member_entry (get_string : String → Option String) (e : Node) : Option (pointer × Node) :=
  match e with
  | .mk (some .member) _ _ [front, back] =>
    match key get_string front with
    | .ok k => some (k, back)
    | .error _ => none
  | _ => none

/-- The entries of the member statements of a list, in statement order. -/
def member_entries (get_string : String → Option String) (stmts : List Node) :
    List (pointer × Node) :=
  stmts.filterMap (member_entry get_string)

/-- The two steps of `main` for one file: the text is parsed, and the tree is
reduced by `process`; the document, when both succeed. -/
def document (eager : Bool) (jaxn : jaxn_rules) (get_string : String → Option String) (depth : Nat)
    (text : String) : Option node_map :=
  match parse jaxn depth text with
  | .ok [root] _ =>
    match process eager get_string root with
    | .ok (m, _) => some m
    | .error _ => none
  | _ => none

/-- The text is parsed and `process` is run twice on the tree, the second time
on the tree as the first run left it; the two documents, when all succeed. -/
def document_twice (eager : Bool) (jaxn : jaxn_rules) (get_string : String → Option String) (depth : Nat)
    (text : String) : Option (node_map × node_map) :=
  match parse jaxn depth text with
  | .ok [root] _ =>
    match process eager get_string root with
    | .ok (m, root') =>
      match process eager get_string root' with
      | .ok (m', _) => some (m, m')
      | .error _ => none
    | .error _ => none
  | _ => none

/-- The segment that a child of a key-path node stands for: the stored text of
an identifier node, or the decoded content of a quoted-string node. -/
def is_segment (get_string : String → Option String) (child : Node) (seg : String) : Prop :=
  (∃ b cs, child = .mk (some .identifier) b (some seg) cs) ∨
    (∃ b t cs, child = .mk (some .jaxn_string) b (some t) cs ∧ get_string t = some seg)

/-- The statement is a `delete_keys` or an `include_file` statement. -/
def is_statement_skipped (e : Node) : Bool := e.is .delete_keys || e.is .include_file

mutual
/-- The stored contents of the leaves of a tree that have a content, one
after the other in depth-first order. -/
def leaf_text : Node → List Char
  | .null => []
  | .mk _ _ content cs =>
    match cs with
    | [] =>
      match content with
      | some s => s.data
      | none => []
    | c :: cs' => leaf_text c ++ leaf_texts cs'
/-- The stored contents of the leaves of a list of trees. -/
def leaf_texts : List Node → List Char
  | [] => []
  | n :: ns => leaf_text n ++ leaf_texts ns
end

/-- What a successful match does: it consumes a piece at the start of the
input, moves the position by the length of the piece, and the leaves of the
nodes it adds store parts of that piece, in order; a strict match consumes at
least one character. -/
def Step (strict : Bool) (i : Input) (ns : List Node) (i' : Input) : Prop :=
  ∃ consumed : List Char, i.rest = consumed ++ i'.rest ∧ i'.pos = i.pos + consumed.length ∧
    (leaf_texts ns).Sublist consumed ∧ (strict = true → consumed ≠ [])

/-- Every successful match of the rule is a step. -/
def Parser.sound (strict : Bool) (p : Parser) : Prop :=
  ∀ i ns i', p i = .ok ns i' → Step strict i ns i'

/-- The rule returns on every input with fewer than `bound` characters left. -/
def Parser.halts_below (bound : Nat) (p : Parser) : Prop :=
  ∀ i : Input, i.rest.length < bound → p i ≠ .diverge

/-- A rule without nodes matches at least one character and no more than there are. -/
def Matcher.consuming (m : Matcher) : Prop :=
  ∀ cs n, m cs = .ok n → 0 < n ∧ n ≤ cs.length

/-- What is taken for granted of the rules of the JAXN grammar: a rule without
nodes matches at least one character, and `string` and `match_number` return,
make a step when they match, and consume at least one character then. -/
structure jaxn_rules.well_formed (jaxn : jaxn_rules) : Prop where
  ws : jaxn.ws.consuming
  begin_array : jaxn.begin_array.consuming
  end_array : jaxn.end_array.consuming
  begin_object : jaxn.begin_object.consuming
  end_object : jaxn.end_object.consuming
  value_separator : jaxn.value_separator.consuming
  element_separator : jaxn.element_separator.consuming
  value_concat : jaxn.value_concat.consuming
  null : jaxn.null.consuming
  true_ : jaxn.true_.consuming
  false_ : jaxn.false_.consuming
  string_fragment : jaxn.string_fragment.consuming
  bvalue : jaxn.bvalue.consuming
  string_sound : jaxn.string.sound true
  string_halts : ∀ L, jaxn.string.halts_below L
  match_number_sound : ∀ neg, (jaxn.match_number neg).sound true
  match_number_halts : ∀ neg L, (jaxn.match_number neg).halts_below L

/-- The rules declared before they are defined make a step, consuming at
least one character, whenever they match. -/
structure rules.forward.sound (fwd : rules.forward) : Prop where
  value : fwd.value.sound true
  expression : fwd.expression.sound true

/-- The text without the white space characters of the model. -/
def strip_ws (cs : List Char) : List Char := cs.filter fun c => !jaxn_model.is_ws c

/-- The leaf contents of the tree that a text parses to. -/
def parsed_leaf_text (jaxn : jaxn_rules) (depth : Nat) (text : String) : Option (List Char) :=
  match parse jaxn depth text with
  | .ok [root] _ => some (leaf_text root)
  | _ => none

/-- The rule `q` agrees with the rule `p` wherever `p` returns. -/
def Parser.extends_to (p q : Parser) : Prop := ∀ i, p i ≠ .diverge → q i = p i

/-- The rules declared before they are defined agree, wherever the first ones return. -/
structure rules.forward.extends_to (fwd fwd' : rules.forward) : Prop where
  value : fwd.value.extends_to fwd'.value
  expression : fwd.expression.extends_to fwd'.expression

/-! ## Notions used in the statements about shapes -/

/-- A statement as `process` leaves it: a member with two children has an
empty handle in the place of its value, every other node is as it was. -/
def drained (e : Node) : Node :=
  match e with
  | .mk (some .member) b c [front, _] => .mk (some .member) b c [front, .null]
  | e => e

/-- The statements as `process` leaves them: a member loses its value when its
key path is new, that is not among `seen`, the key paths of the members before
it, and also when it is not new but `emplace` builds the entry first
(`eager`); every other node is as it was. -/
def drained_from (eager : Bool) (get_string : String → Option String) :
    List pointer → List Node → List Node
  | _, [] => []
  | seen, e :: es =>
    match member_entry get_string e with
    | some (k, _) =>
      (if eager || decide (k ∉ seen) then drained e else e) ::
        drained_from eager get_string (k :: seen) es
    | none => e :: drained_from eager get_string seen es

/-- The `$` case of `sor_value::match_impl` is reached from `sor_value::match`, so that
`in.peek_char( 1 )` is compared with `(`: the guard `in.size( 2 )` lets the
input pass and the first character is a dollar sign. -/
def rules.sor_value.reads_second (i : Input) : Bool :=
  decide (i.size 2 ≠ 0) && decide (i.peek_char 0 = some '$')

/-- The set of characters of an identifier as the specification gives it,
`[a-zA-Z0-9_$-]`. -/
def spec_identifier_set : List Char :=
  "abcdefghijklmnopqrstuvwxyzABCDEFGHIJKLMNOPQRSTUVWXYZ0123456789_$-".data

/-- The character is in the set that the specification gives. -/
def spec_identifier_char (c : Char) : Bool := decide (c ∈ spec_identifier_set)

/-- Every node that the rule adds has the property. -/
def Parser.yields (P : Node → Prop) (p : Parser) : Prop :=
  ∀ i ns i', p i = .ok ns i' → ∀ n ∈ ns, P n

/-- The node is an identifier leaf or a quoted-string node, with a stored
content. -/
def is_key_part (n : Node) : Prop :=
  (∃ b s, n = .mk (some .identifier) b (some s) []) ∨
    ∃ b s cs, n = .mk (some .jaxn_string) b (some s) cs

/-- The node is a key-path node whose children are identifier leaves or
quoted-string nodes. -/
def is_key_path (n : Node) : Prop :=
  ∃ b c cs, n = .mk (some .mkey) b c cs ∧ ∀ k ∈ cs, is_key_part k

/-- The node is a `member` node whose first child is a key path. -/
def is_member (n : Node) : Prop :=
  ∃ b c front rest, n = .mk (some .member) b c (front :: rest) ∧ is_key_path front

/-- The node is a statement as `process` expects it: a `delete_keys` node, an
`include_file` node, or a `member` node whose first child is a key path. -/
def is_statement (n : Node) : Prop :=
  n.is .delete_keys = true ∨ n.is .include_file = true ∨ is_member n

/-- The offset `n.begin()` of the position where the node starts. -/
def Node.begin_ : Node → Nat
  | .null => 0
  | .mk _ b _ _ => b

/-- The first `n` rounds of the loop of `object_content`, `n` times a member
and an optional separator in a row: the nodes added and the input after them,
when all `n` match. -/
def rules.members (jaxn : jaxn_rules) (fwd : rules.forward) : Nat → Input →
    Option (List Node × Input)
  | 0, i => some ([], i)
  | n + 1, i =>
    match pegtl.seq (rules.member jaxn fwd) (pegtl.opt (pegtl.lift jaxn.value_separator)) i with
    | .ok ms j =>
      match rules.members jaxn fwd n j with
      | some (ns, k) => some (ms ++ ns, k)
      | none => none
    | _ => none

/-- The rule reads outside the input only where the input ends with a dollar
sign. -/
def Parser.in_bounds (p : Parser) : Prop :=
  ∀ i, p i = .undefined → i.rest.getLast? = some '$'

/-- What is taken for granted of the two rules of the JAXN grammar that add
nodes of their own, `jaxn::string` and `match_number`: they read outside the input
only where the input ends with a dollar sign (where `sor_value` does). -/
structure jaxn_rules.in_bounds (jaxn : jaxn_rules) : Prop where
  string : jaxn.string.in_bounds
  match_number : ∀ neg, (jaxn.match_number neg).in_bounds

/-- The rules declared before they are defined read outside the input only
where the input ends with a dollar sign. -/
structure rules.forward.in_bounds (fwd : rules.forward) : Prop where
  value : fwd.value.in_bounds
  expression : fwd.expression.in_bounds

/-- The rules of the JAXN grammar without a node that the configuration
grammar uses outside the rules with a node: white space, the brackets and
braces, the separators and the concatenation sign. -/
def structural (jaxn : jaxn_rules) : List Matcher :=
  [jaxn.ws, jaxn.begin_array, jaxn.end_array, jaxn.begin_object, jaxn.end_object,
    jaxn.value_separator, jaxn.element_separator, jaxn.value_concat]

/-- The piece `g` of the input, with `rest` after it, is matched by a rule
without a node: one of the structural rules of the JAXN grammar, one of the
characters `:`, `=`, `.`, `)` or a sign, or one of the words `$(`, `include` and
`delete`. -/
inductive is_token (jaxn : jaxn_rules) : List Char → List Char → Prop
  /-- A structural rule of the JAXN grammar matches the piece. -/
  | rule (m : Matcher) (cs : List Char) (n : Nat) :
      m ∈ structural jaxn → m cs = .ok n → is_token jaxn (cs.take n) (cs.drop n)
  /-- A single character of the configuration grammar. -/
  | char (c : Char) (rest : List Char) :
      c ∈ [':', '=', '.', ')', '+', '-'] → is_token jaxn [c] rest
  /-- A word of the configuration grammar. -/
  | word (w : List Char) (rest : List Char) :
      w ∈ [['$', '('], "include".data, "delete".data] → is_token jaxn w rest

/-- The rules whose node has neither a content nor children: the literals that
the selector keeps without their text. -/
def Rule.is_literal : Rule → Bool
  | .null | .true_ | .false_ | .nan | .infinity _ => true
  | _ => false

/-- The piece `consumed` of the input, with `rest` after it, is woven from the
nodes `ns`: it is, in this order, the contents of the leaves that store a
content, the texts of the literals kept without content, and pieces matched by
rules without a node; an inner node stands for what its children are woven
into. -/
inductive Woven (jaxn : jaxn_rules) : List Node → List Char → List Char → Prop
  /-- Nothing is consumed and no node is added. -/
  | nil (rest : List Char) : Woven jaxn [] [] rest
  /-- A piece matched by a rule without a node comes first. -/
  | token (g cs rest : List Char) (ns : List Node) :
      is_token jaxn g (cs ++ rest) → Woven jaxn ns cs rest → Woven jaxn ns (g ++ cs) rest
  /-- A leaf comes first, and its content is the piece it stands for. -/
  | leaf (r : Rule) (b : Nat) (s : String) (cs rest : List Char) (ns : List Node) :
      Woven jaxn ns cs rest → Woven jaxn (.mk (some r) b (some s) [] :: ns) (s.data ++ cs) rest
  /-- A literal without content comes first. -/
  | literal (r : Rule) (b : Nat) (g cs rest : List Char) (ns : List Node) :
      r.is_literal = true → Woven jaxn ns cs rest →
      Woven jaxn (.mk (some r) b none [] :: ns) (g ++ cs) rest
  /-- An inner node comes first, woven from its children. -/
  | inner (r : Rule) (b : Nat) (c : Option String) (kids : List Node)
      (within cs rest : List Char) (ns : List Node) :
      (kids = [] → c = none) → Woven jaxn kids within (cs ++ rest) → Woven jaxn ns cs rest →
      Woven jaxn (.mk (some r) b c kids :: ns) (within ++ cs) rest

/-- Every successful match of the rule is woven from the nodes it adds. -/
def Parser.woven (jaxn : jaxn_rules) (p : Parser) : Prop :=
  ∀ i ns i', p i = .ok ns i' → ∃ consumed, i.rest = consumed ++ i'.rest ∧
    Woven jaxn ns consumed i'.rest

/-- What is taken for granted of the two rules of the JAXN grammar that add
nodes of their own, `jaxn::string` and `match_number`: what they match is woven from
their nodes. -/
structure jaxn_rules.keeps_content (jaxn : jaxn_rules) : Prop where
  string : jaxn.string.woven jaxn
  match_number : ∀ neg, (jaxn.match_number neg).woven jaxn

/-- The rules declared before they are defined are woven from their nodes. -/
structure rules.forward.woven (jaxn : jaxn_rules) (fwd : rules.forward) : Prop where
  value : fwd.value.woven jaxn
  expression : fwd.expression.woven jaxn

/-! ## The map -/

section map_lemmas
variable {κ β : Type} [LinearOrder κ]

theorem find_eq_none_iff (k : κ) (m : List (κ × β)) : find k m = none ↔ k ∉ m.map Prod.fst := by
  induction m with
  | nil => simp [find]
  | cons e m ih =>
    obtain ⟨k', v'⟩ := e
    simp only [find, List.map_cons, List.mem_cons, not_or]
    rcases lt_trichotomy k k' with h | h | h
    · simp [h, ih, ne_of_lt h]
    · subst h; simp
    · simp [h, not_lt_of_gt h, ih, ne_of_gt h]

theorem find_of_lt_head (k : κ) (m : List (κ × β)) (h : ∀ k' ∈ m.map Prod.fst, k < k') :
    find k m = none := by
  rw [find_eq_none_iff]
  intro hk
  exact lt_irrefl _ (h k hk)

theorem emplace_keys_sorted (k : κ) (v : β) (m : List (κ × β))
    (hm : (m.map Prod.fst).Pairwise (· < ·)) :
    ((emplace k v m).map Prod.fst).Pairwise (· < ·) ∧
      ∀ x, x ∈ (emplace k v m).map Prod.fst ↔ x = k ∨ x ∈ m.map Prod.fst := by
  induction m with
  | nil => simp [emplace]
  | cons e m ih =>
    obtain ⟨k', v'⟩ := e
    simp only [List.map_cons, List.pairwise_cons] at hm
    obtain ⟨hhead, htail⟩ := hm
    obtain ⟨ih1, ih2⟩ := ih htail
    simp only [emplace]
    split_ifs with h1 h2
    · refine ⟨?_, by simp⟩
      simp only [List.map_cons, List.pairwise_cons, List.mem_cons]
      refine ⟨?_, hhead, htail⟩
      rintro x (rfl | hx)
      · exact h1
      · exact lt_trans h1 (hhead x hx)
    · refine ⟨?_, ?_⟩
      · simp only [List.map_cons, List.pairwise_cons]
        refine ⟨?_, ih1⟩
        intro x hx
        rcases (ih2 x).1 hx with rfl | hx'
        · exact h2
        · exact hhead x hx'
      · intro x
        simp only [List.map_cons, List.mem_cons, ih2]
        tauto
    · have hk : k = k' := le_antisymm (not_lt.1 h2) (not_lt.1 h1)
      subst hk
      refine ⟨?_, by simp⟩
      simp only [List.map_cons, List.pairwise_cons]
      exact ⟨hhead, htail⟩

theorem find_cons (p k' : κ) (v' : β) (m : List (κ × β)) :
    find p ((k', v') :: m) = if p = k' then some v' else find p m := by
  simp only [find]
  rcases lt_trichotomy p k' with h | h | h
  · simp [h, ne_of_lt h]
  · subst h; simp
  · simp [h, not_lt_of_gt h, ne_of_gt h]

theorem find_emplace_ne (p k : κ) (v : β) (m : List (κ × β)) (hne : p ≠ k) :
    find p (emplace k v m) = find p m := by
  induction m with
  | nil => rw [emplace, find_cons, if_neg hne]
  | cons e m ih =>
    obtain ⟨k', v'⟩ := e
    simp only [emplace]
    split_ifs with h1 h2
    · rw [find_cons, if_neg hne]
    · rw [find_cons, find_cons, ih]
    · rfl

theorem find_emplace_self (k : κ) (v : β) (m : List (κ × β))
    (hm : (m.map Prod.fst).Pairwise (· < ·)) :
    find k (emplace k v m) = some ((find k m).getD v) := by
  induction m with
  | nil => simp [emplace, find_cons, find]
  | cons e m ih =>
    obtain ⟨k', v'⟩ := e
    simp only [List.map_cons, List.pairwise_cons] at hm
    obtain ⟨hhead, htail⟩ := hm
    simp only [emplace]
    split_ifs with h1 h2
    · have hnone : find k m = none := find_of_lt_head k m (fun x hx => lt_trans h1 (hhead x hx))
      rw [find_cons, if_pos rfl, find_cons, if_neg (ne_of_lt h1), hnone]
      rfl
    · rw [find_cons, if_neg (ne_of_gt h2), find_cons, if_neg (ne_of_gt h2), ih htail]
    · have hk : k = k' := le_antisymm (not_lt.1 h2) (not_lt.1 h1)
      subst hk
      simp [find_cons]

theorem filter_key_of_find [DecidableEq κ] (p : κ) (v : β) (m : List (κ × β))
    (hm : (m.map Prod.fst).Pairwise (· < ·)) (h : find p m = some v) :
    m.filter (fun e => e.1 = p) = [(p, v)] := by
  induction m with
  | nil => simp [find] at h
  | cons e m ih =>
    obtain ⟨k', v'⟩ := e
    simp only [List.map_cons, List.pairwise_cons] at hm
    obtain ⟨hhead, htail⟩ := hm
    simp only [find] at h
    rcases lt_trichotomy p k' with h1 | h1 | h1
    · have hnone : find p m = none := find_of_lt_head p m (fun x hx => lt_trans h1 (hhead x hx))
      simp [h1, hnone] at h
    · subst h1
      simp only [lt_irrefl, if_false, Option.some.injEq] at h
      subst h
      have : m.filter (fun e => e.1 = p) = [] := by
        rw [List.filter_eq_nil_iff]
        intro e he
        have := hhead e.1 (List.mem_map_of_mem _ he)
        simp [ne_of_gt this]
      simp [List.filter_cons, this]
    · simp only [h1, not_lt_of_gt h1, if_true, if_false] at h
      simp [List.filter_cons, ne_of_lt h1, ih htail h]

end map_lemmas

/-! ### the loop of process -/

theorem add_ok {eager : Bool} {gs : String → Option String} {m m1 : node_map} {e e1 : Node}
    (h : add eager gs m e = .ok (m1, e1)) :
    ∃ id b c front back k, e = .mk id b c [front, back] ∧ key gs front = .ok k ∧
      m1 = emplace k back m ∧
      e1 = .mk id b c [front, if eager || (find k m).isNone then .null else back] := by
  cases e with
  | null => simp [add] at h
  | mk id b c children =>
    rcases children with _ | ⟨front, _ | ⟨back, _ | ⟨x, rest⟩⟩⟩
    · simp [add] at h
    · simp [add] at h
    · simp only [add] at h
      cases hk : key gs front with
      | error x => simp [hk] at h
      | ok k =>
        simp only [hk, Except.ok.injEq, Prod.mk.injEq] at h
        exact ⟨id, b, c, front, back, k, rfl, hk, h.1.symm, h.2.symm⟩
    · simp [add] at h

theorem process_loop_cons {eager : Bool} {gs : String → Option String} {m m' : node_map} {e : Node}
    {es es'' : List Node} (h : process_loop eager gs m (e :: es) = .ok (m', es'')) :
    (e.is .member = true ∧ ∃ m1 e1 es', add eager gs m e = .ok (m1, e1) ∧
        process_loop eager gs m1 es = .ok (m', es') ∧ es'' = e1 :: es') ∨
      (e.is .member = false ∧ (e.is .delete_keys = true ∨ e.is .include_file = true) ∧
        ∃ es', process_loop eager gs m es = .ok (m', es') ∧ es'' = e :: es') := by
  unfold process_loop at h
  split_ifs at h with h0 h1 h2 h3
  · left
    refine ⟨h1, ?_⟩
    cases ha : add eager gs m e with
    | error x => simp [ha] at h
    | ok r =>
      obtain ⟨m1, e1⟩ := r
      simp only [ha] at h
      cases hp : process_loop eager gs m1 es with
      | error x => simp [hp] at h
      | ok r2 =>
        obtain ⟨r, es'⟩ := r2
        simp only [hp, Except.ok.injEq, Prod.mk.injEq] at h
        exact ⟨m1, e1, es', rfl, h.1 ▸ hp, h.2.symm⟩
  · right
    refine ⟨by simpa using h1, Or.inl h2, ?_⟩
    cases hp : process_loop eager gs m es with
    | error x => simp [hp] at h
    | ok r2 =>
      obtain ⟨r, es'⟩ := r2
      simp only [hp, Except.ok.injEq, Prod.mk.injEq] at h
      exact ⟨es', by rw [h.1], h.2.symm⟩
  · right
    refine ⟨by simpa using h1, Or.inr h3, ?_⟩
    cases hp : process_loop eager gs m es with
    | error x => simp [hp] at h
    | ok r2 =>
      obtain ⟨r, es'⟩ := r2
      simp only [hp, Except.ok.injEq, Prod.mk.injEq] at h
      exact ⟨es', by rw [h.1], h.2.symm⟩

theorem member_entry_of_not_member (gs : String → Option String) (e : Node)
    (h : e.is .member = false) : member_entry gs e = none := by
  unfold member_entry
  split
  · simp [Node.is] at h
  · rfl

theorem process_loop_spec (eager : Bool) (gs : String → Option String) (stmts : List Node) :
    ∀ (m m' : node_map) (stmts' : List Node),
      process_loop eager gs m stmts = .ok (m', stmts') →
      (m.map Prod.fst).Pairwise (· < ·) →
      (m'.map Prod.fst).Pairwise (· < ·) ∧
        (∀ p, find p m' = (find p m).orElse (fun _ => (member_entries gs stmts).lookup p)) := by
  induction stmts with
  | nil =>
    intro m m' stmts' h hm
    simp only [process_loop, Except.ok.injEq, Prod.mk.injEq] at h
    obtain ⟨rfl, -⟩ := h
    refine ⟨hm, fun p => ?_⟩
    cases find p m <;> simp [member_entries]
  | cons e es ih =>
    intro m m' stmts' h hm
    rcases process_loop_cons h with ⟨hmem, m1, e1, es', ha, hp, -⟩ | ⟨hmem, -, es', hp, -⟩
    · obtain ⟨id, b, c, front, back, k, rfl, hk, rfl, rfl⟩ := add_ok ha
      have hid : id = some .member := by simpa [Node.is] using hmem
      subst hid
      obtain ⟨hs1, -⟩ := emplace_keys_sorted k back m hm
      obtain ⟨hs', hf⟩ := ih _ _ _ hp hs1
      refine ⟨hs', fun p => ?_⟩
      rw [hf p]
      have hentry : member_entry gs (.mk (some .member) b c [front, back]) = some (k, back) := by
        simp [member_entry, hk]
      simp only [member_entries, List.filterMap_cons, hentry, List.lookup_cons]
      by_cases hpk : p = k
      · subst hpk
        rw [find_emplace_self p back m hm]
        cases find p m <;> simp
      · rw [find_emplace_ne p k back m hpk]
        have : (p == k) = false := by simpa using hpk
        simp [this]
    · obtain ⟨hs', hf⟩ := ih _ _ _ hp hm
      refine ⟨hs', fun p => ?_⟩
      rw [hf p]
      simp [member_entries, List.filterMap_cons, member_entry_of_not_member gs e hmem]

/-! ### key -/

theorem key_loop_segments (gs : String → Option String) (children : List Node) (segs : List String)
    (h : List.Forall₂ (is_segment gs) children segs) (result : pointer) :
    key_loop gs result children = .ok ⟨result.tokens ++ segs⟩ := by
  induction h generalizing result with
  | nil => simp [key_loop]
  | cons hseg _ ih =>
    rcases hseg with ⟨b, cs, rfl⟩ | ⟨b, t, cs, rfl, ht⟩
    · simp [key_loop, ih, pointer.push_back]
    · simp [key_loop, ih, pointer.push_back, ht]

/-- C3: for a key-path node each of whose children is an identifier node with
a stored text or a quoted-string node whose text `get_string` decodes, `key`
returns the pointer that has exactly one segment per child, in child order:
the stored text of an identifier verbatim, and the decoded content of a
quoted string as one segment, whatever characters it holds. -/
theorem key_resolves (gs : String → Option String) (id : Option Rule) (b : Nat)
    (c : Option String) (children : List Node) (segs : List String)
    (h : List.Forall₂ (is_segment gs) children segs) :
    key gs (.mk id b c children) = .ok ⟨segs⟩ ∧ segs.length = children.length := by
  refine ⟨?_, h.length_eq.symm⟩
  simpa [key] using key_loop_segments gs children segs h ⟨[]⟩

/-- The key path `"x.y".z` parses to a key-path node with a quoted-string child
and an identifier child, which resolves to the two segments `x.y` and `z`. -/
theorem key_resolves_witness :
    rules.mkey jaxn_model.rules ⟨0, "\x22x.y\x22.z: 1".data⟩ =
        .ok [.mk (some .mkey) 0 none
          [.mk (some .jaxn_string) 0 (some "\x22x.y\x22")
              [.mk (some .jaxn_string_fragment) 0 (some "\x22x.y\x22") []],
            .mk (some .identifier) 6 (some "z") []]] ⟨7, ": 1".data⟩ ∧
      List.Forall₂ (is_segment jaxn_model.get_string)
        [.mk (some .jaxn_string) 0 (some "\x22x.y\x22")
            [.mk (some .jaxn_string_fragment) 0 (some "\x22x.y\x22") []],
          .mk (some .identifier) 6 (some "z") []]
        ["x.y", "z"] ∧
      (key jaxn_model.get_string (.mk (some .mkey) 0 none
        [.mk (some .jaxn_string) 0 (some "\x22x.y\x22")
            [.mk (some .jaxn_string_fragment) 0 (some "\x22x.y\x22") []],
          .mk (some .identifier) 6 (some "z") []]) = .ok ⟨["x.y", "z"]⟩ ∧
        ["x.y", "z"].length =
          [Node.mk (some .jaxn_string) 0 (some "\x22x.y\x22")
            [.mk (some .jaxn_string_fragment) 0 (some "\x22x.y\x22") []],
          .mk (some .identifier) 6 (some "z") []].length) :=
  have h : List.Forall₂ (is_segment jaxn_model.get_string)
        [.mk (some .jaxn_string) 0 (some "\x22x.y\x22")
            [.mk (some .jaxn_string_fragment) 0 (some "\x22x.y\x22") []],
          .mk (some .identifier) 6 (some "z") []]
        ["x.y", "z"] :=
    List.Forall₂.cons (Or.inr ⟨0, "\x22x.y\x22", _, rfl, by decide⟩)
      (List.Forall₂.cons (Or.inl ⟨6, [], rfl⟩) List.Forall₂.nil)
  ⟨by decide, h, key_resolves jaxn_model.get_string (some .mkey) 0 none _ _ h⟩

/-! ### the first statement wins -/

theorem process_ok {eager : Bool} {gs : String → Option String} {id : Option Rule} {b : Nat} {c : Option String}
    {stmts : List Node} {doc : node_map} {root' : Node}
    (h : process eager gs (.mk id b c stmts) = .ok (doc, root')) :
    ∃ stmts', process_loop eager gs [] stmts = .ok (doc, stmts') ∧ root' = .mk id b c stmts' := by
  simp only [process] at h
  cases hp : process_loop eager gs [] stmts with
  | error x => simp [hp] at h
  | ok r =>
    obtain ⟨r, cs⟩ := r
    simp only [hp, Except.ok.injEq, Prod.mk.injEq] at h
    exact ⟨cs, by rw [h.1], h.2.symm⟩

theorem lookup_append_of_none {α β : Type} [BEq α] (p : α) (l₁ l₂ : List (α × β))
    (h : l₁.lookup p = none) : (l₁ ++ l₂).lookup p = l₂.lookup p := by
  induction l₁ with
  | nil => rfl
  | cons e l ih =>
    obtain ⟨k, v⟩ := e
    simp only [List.cons_append, List.lookup_cons] at h ⊢
    cases hk : p == k with
    | true => simp [hk] at h
    | false =>
      simp only [hk] at h ⊢
      exact ih h

theorem lookup_member_entries_none (gs : String → Option String) (p : pointer) (pre : List Node)
    (hpre : ∀ e ∈ pre, ∀ v, member_entry gs e ≠ some (p, v)) :
    (member_entries gs pre).lookup p = none := by
  induction pre with
  | nil => rfl
  | cons e es ih =>
    have ih' := ih (fun e he v => hpre e (List.mem_cons_of_mem _ he) v)
    simp only [member_entries, List.filterMap_cons]
    cases he : member_entry gs e with
    | none => simpa [member_entries] using ih'
    | some kv =>
      obtain ⟨k, v⟩ := kv
      have hne : k ≠ p := by
        rintro rfl
        exact hpre e (List.mem_cons_self _ _) v he
      have hb : (p == k) = false := by
        simp only [beq_eq_false_iff_ne, ne_eq]
        exact fun h => hne h.symm
      simp only [List.lookup_cons, hb]
      simpa [member_entries] using ih'

/-- C1 (amended): when two member statements of a statement list resolve to
the same key path `p`, and no member statement before the first of the two
resolves to `p`, then the document returned by `process` has exactly one entry
at `p` and its value is the value subtree of the EARLIER statement: `emplace`
keeps the entry that is already in the map. -/
theorem first_write_wins (eager : Bool) (gs : String → Option String) (b : Nat) (c : Option String)
    (pre mid post : List Node) (b₁ b₂ : Nat) (c₁ c₂ : Option String) (k₁ v₁ k₂ v₂ : Node)
    (p : pointer) (doc : node_map) (root' : Node)
    (h₁ : key gs k₁ = .ok p) (_h₂ : key gs k₂ = .ok p)
    (hpre : ∀ e ∈ pre, ∀ v, member_entry gs e ≠ some (p, v))
    (h : process eager gs (.mk none b c (pre ++ [.mk (some .member) b₁ c₁ [k₁, v₁]] ++ mid ++
        [.mk (some .member) b₂ c₂ [k₂, v₂]] ++ post)) = .ok (doc, root')) :
    doc.filter (fun e => e.1 = p) = [(p, v₁)] := by
  obtain ⟨stmts', hp, -⟩ := process_ok h
  obtain ⟨hs, hf⟩ := process_loop_spec eager gs _ _ _ _ hp (by simp)
  apply filter_key_of_find p v₁ doc hs
  rw [hf p]
  have hentry : member_entry gs (.mk (some .member) b₁ c₁ [k₁, v₁]) = some (p, v₁) := by
    simp [member_entry, h₁]
  simp only [find, Option.orElse, List.append_assoc, member_entries, List.filterMap_append]
  have hnone := lookup_member_entries_none gs p pre hpre
  simp only [member_entries] at hnone
  rw [lookup_append_of_none p _ _ hnone]
  simp [List.filterMap_cons, hentry, List.lookup_cons]

/-- C1 as stated fails: `a.b: 1` followed by `a.b: 2` reduces to a document
whose one entry at `a.b` has the node of `1` (at offset 5) as its value, not
the node of `2` (at offset 12). -/
theorem last_write_wins_refuted :
    (document false jaxn_model.rules jaxn_model.get_string 1 "a.b: 1\na.b: 2" =
        some [(⟨["a", "b"]⟩, Node.mk (some (.number false)) 5 (some "1") [])] ∧
      document false jaxn_model.rules jaxn_model.get_string 1 "a.b: 1\na.b: 2" ≠
        some [(⟨["a", "b"]⟩, Node.mk (some (.number false)) 12 (some "2") [])]) ∧
    (document true jaxn_model.rules jaxn_model.get_string 1 "a.b: 1\na.b: 2" =
        some [(⟨["a", "b"]⟩, Node.mk (some (.number false)) 5 (some "1") [])] ∧
      document true jaxn_model.rules jaxn_model.get_string 1 "a.b: 1\na.b: 2" ≠
        some [(⟨["a", "b"]⟩, Node.mk (some (.number false)) 12 (some "2") [])]) := by
  decide

/-- For `a.b: 1` followed by `a.b: 2` the one entry at `a.b` is the node of `1`. -/
theorem first_write_wins_witness :
    key jaxn_model.get_string (.mk (some .mkey) 0 none
        [.mk (some .identifier) 0 (some "a") [], .mk (some .identifier) 2 (some "b") []]) =
        .ok ⟨["a", "b"]⟩ ∧
      [((⟨["a", "b"]⟩ : pointer), Node.mk (some (.number false)) 5 (some "1") [])].filter
          (fun e => e.1 = ⟨["a", "b"]⟩) =
        [(⟨["a", "b"]⟩, Node.mk (some (.number false)) 5 (some "1") [])] :=
  ⟨by decide,
    first_write_wins false jaxn_model.get_string 0 none [] [] [] 0 7 none none
      (.mk (some .mkey) 0 none
        [.mk (some .identifier) 0 (some "a") [], .mk (some .identifier) 2 (some "b") []])
      (.mk (some (.number false)) 5 (some "1") [])
      (.mk (some .mkey) 7 none
        [.mk (some .identifier) 7 (some "a") [], .mk (some .identifier) 9 (some "b") []])
      (.mk (some (.number false)) 12 (some "2") [])
      ⟨["a", "b"]⟩
      [(⟨["a", "b"]⟩, Node.mk (some (.number false)) 5 (some "1") [])]
      (.mk none 0 none
        [.mk (some .member) 0 none
          [.mk (some .mkey) 0 none
            [.mk (some .identifier) 0 (some "a") [], .mk (some .identifier) 2 (some "b") []],
           .null],
         .mk (some .member) 7 none
          [.mk (some .mkey) 7 none
            [.mk (some .identifier) 7 (some "a") [], .mk (some .identifier) 9 (some "b") []],
           .mk (some (.number false)) 12 (some "2") []]])
      (by decide) (by decide) (by simp) (by decide)⟩

/-! ### order -/

theorem lookup_eq_none_iff_not_mem {α β : Type} [DecidableEq α] (p : α) (l : List (α × β)) :
    l.lookup p = none ↔ p ∉ l.map Prod.fst := by
  induction l with
  | nil => simp
  | cons e l ih =>
    obtain ⟨k, v⟩ := e
    simp only [List.lookup_cons, List.map_cons, List.mem_cons, not_or]
    by_cases h : p = k
    · subst h; simp
    · have hb : (p == k) = false := by simpa using h
      simp [hb, ih, h]

/-- C2 (amended): for a statement list whose member statements resolve to
pairwise distinct key paths, iterating the document returned by `process`
yields the key paths in ascending order of `json::pointer` (the paths of the
member statements, sorted), whatever the order of the statements. -/
theorem document_order_sorted (eager : Bool) (gs : String → Option String) (id : Option Rule) (b : Nat)
    (c : Option String) (stmts : List Node) (doc : node_map) (root' : Node)
    (h : process eager gs (.mk id b c stmts) = .ok (doc, root'))
    (hd : ((member_entries gs stmts).map Prod.fst).Nodup) :
    doc.map Prod.fst = ((member_entries gs stmts).map Prod.fst).insertionSort (· ≤ ·) := by
  obtain ⟨stmts', hp, -⟩ := process_ok h
  obtain ⟨hs, hf⟩ := process_loop_spec eager gs _ _ _ _ hp (by simp)
  have hmem : ∀ p, p ∈ doc.map Prod.fst ↔ p ∈ (member_entries gs stmts).map Prod.fst := by
    intro p
    have h1 := find_eq_none_iff p doc
    have h2 := lookup_eq_none_iff_not_mem p (member_entries gs stmts)
    have h3 := hf p
    simp only [find, Option.orElse] at h3
    rw [h3] at h1
    rw [← not_iff_not, ← h1, ← h2]
  have hnd : (doc.map Prod.fst).Nodup := hs.imp (fun h => ne_of_lt h)
  have hperm : (doc.map Prod.fst).Perm
      (((member_entries gs stmts).map Prod.fst).insertionSort (· ≤ ·)) :=
    ((List.perm_ext_iff_of_nodup hnd hd).2 hmem).trans (List.perm_insertionSort _ _).symm
  exact List.eq_of_perm_of_sorted hperm (hs.imp le_of_lt) (List.sorted_insertionSort _ _)

/-- C2 as stated fails: for `b: 1` followed by `a: 2` the document iterates
as `a`, `b`, which is not the order of the statements. -/
theorem statement_order_refuted :
    (document false jaxn_model.rules jaxn_model.get_string 1 "b: 1 a: 2").map
        (List.map Prod.fst) = some [⟨["a"]⟩, ⟨["b"]⟩] ∧
      (document true jaxn_model.rules jaxn_model.get_string 1 "b: 1 a: 2").map
        (List.map Prod.fst) = some [⟨["a"]⟩, ⟨["b"]⟩] := by
  decide

/-- For `b: 1` followed by `a: 2` the document iterates as `a`, `b`. -/
theorem document_order_sorted_witness :
    process false jaxn_model.get_string (.mk none 0 none
        [.mk (some .member) 0 none
          [.mk (some .mkey) 0 none [.mk (some .identifier) 0 (some "b") []],
           .mk (some (.number false)) 3 (some "1") []],
         .mk (some .member) 5 none
          [.mk (some .mkey) 5 none [.mk (some .identifier) 5 (some "a") []],
           .mk (some (.number false)) 8 (some "2") []]]) =
        .ok ([(⟨["a"]⟩, .mk (some (.number false)) 8 (some "2") []),
              (⟨["b"]⟩, .mk (some (.number false)) 3 (some "1") [])],
          .mk none 0 none
            [.mk (some .member) 0 none
              [.mk (some .mkey) 0 none [.mk (some .identifier) 0 (some "b") []], .null],
             .mk (some .member) 5 none
              [.mk (some .mkey) 5 none [.mk (some .identifier) 5 (some "a") []], .null]]) ∧
      [(⟨["a"]⟩ : pointer), ⟨["b"]⟩] = [(⟨["b"]⟩ : pointer), ⟨["a"]⟩].insertionSort (· ≤ ·) :=
  ⟨by decide,
    document_order_sorted false jaxn_model.get_string none 0 none
      [.mk (some .member) 0 none
        [.mk (some .mkey) 0 none [.mk (some .identifier) 0 (some "b") []],
         .mk (some (.number false)) 3 (some "1") []],
       .mk (some .member) 5 none
        [.mk (some .mkey) 5 none [.mk (some .identifier) 5 (some "a") []],
         .mk (some (.number false)) 8 (some "2") []]]
      [(⟨["a"]⟩, .mk (some (.number false)) 8 (some "2") []),
        (⟨["b"]⟩, .mk (some (.number false)) 3 (some "1") [])]
      (.mk none 0 none
        [.mk (some .member) 0 none
          [.mk (some .mkey) 0 none [.mk (some .identifier) 0 (some "b") []], .null],
         .mk (some .member) 5 none
          [.mk (some .mkey) 5 none [.mk (some .identifier) 5 (some "a") []], .null]])
      (by decide) (by decide)⟩

/-! ### a second run -/

theorem find_map_null_isNone {κ : Type} [LinearOrder κ] (k : κ) (m : List (κ × Node)) :
    (find k (m.map fun e => (e.1, Node.null))).isNone = (find k m).isNone := by
  induction m with
  | nil => rfl
  | cons e m ih =>
    obtain ⟨k', v'⟩ := e
    simp only [List.map_cons, find]
    split_ifs
    · exact ih
    · exact ih
    · rfl

theorem emplace_map_null {κ : Type} [LinearOrder κ] (k : κ) (v w : Node) (m : List (κ × Node))
    (hm : (m.map Prod.fst).Pairwise (· < ·))
    (hw : (find k m).isNone = true → w = Node.null) :
    emplace k w (m.map fun e => (e.1, Node.null)) =
      (emplace k v m).map fun e => (e.1, Node.null) := by
  induction m with
  | nil =>
    have : w = Node.null := hw rfl
    simp [emplace, this]
  | cons e m ih =>
    obtain ⟨k', v'⟩ := e
    simp only [List.map_cons, List.pairwise_cons] at hm
    obtain ⟨hhead, htail⟩ := hm
    simp only [List.map_cons, emplace]
    split_ifs with h1 h2
    · have hnone : find k m = none := find_of_lt_head k m (fun x hx => lt_trans h1 (hhead x hx))
      have : w = Node.null := hw (by rw [find, if_pos h1, hnone]; rfl)
      simp [this]
    · have := ih htail (fun h => hw (by rw [find, if_neg h1, if_pos h2]; exact h))
      simp [this]
    · rfl

theorem process_loop_again (eager : Bool) (gs : String → Option String) (stmts : List Node) :
    ∀ (m m' : node_map) (stmts' : List Node),
      process_loop eager gs m stmts = .ok (m', stmts') →
      (m.map Prod.fst).Pairwise (· < ·) →
      process_loop eager gs (m.map fun e => (e.1, Node.null)) stmts' =
        .ok (m'.map fun e => (e.1, Node.null), stmts') := by
  induction stmts with
  | nil =>
    intro m m' stmts' h _
    simp only [process_loop, Except.ok.injEq, Prod.mk.injEq] at h
    obtain ⟨rfl, rfl⟩ := h
    rfl
  | cons e es ih =>
    intro m m' stmts' h hm
    rcases process_loop_cons h with ⟨hmem, m1, e1, es', ha, hp, rfl⟩ | ⟨hmem, hskip, es', hp, rfl⟩
    · obtain ⟨id, b, c, front, back, k, rfl, hk, rfl, rfl⟩ := add_ok ha
      have hid : id = some .member := by simpa [Node.is] using hmem
      subst hid
      have ih' := ih _ _ _ hp (emplace_keys_sorted k back m hm).1
      rw [← emplace_map_null k back
        (if eager || (find k m).isNone then Node.null else back) m hm
        (fun hn => by simp [hn])] at ih'
      have hslot : (if eager || (find k (m.map fun e => (e.1, Node.null))).isNone then Node.null
          else if eager || (find k m).isNone then Node.null else back) =
          if eager || (find k m).isNone then Node.null else back := by
        rw [find_map_null_isNone]
        split_ifs <;> rfl
      simp only [process_loop, Node.is, beq_self_eq_true, if_true, add, hk, hslot, ih']
      simp
    · have ih' := ih _ _ _ hp hm
      have hnull : e ≠ .null := by
        rintro rfl
        simp [Node.is] at hskip
      rcases hskip with hskip | hskip
      · simp [process_loop, hnull, hmem, hskip, ih']
      · by_cases hdel : e.is .delete_keys = true
        · simp [process_loop, hnull, hmem, hdel, ih']
        · simp [process_loop, hnull, hmem, hdel, hskip, ih']

/-- C5 (amended): when `process` returns a document for a tree, a second run
of `process` on the tree as the first run left it returns a document with the
same key paths in the same order, but with an empty handle as the value of
every entry, and leaves the tree as it is. -/
theorem second_run_empties (eager : Bool) (gs : String → Option String) (root : Node) (doc : node_map)
    (root' : Node) (h : process eager gs root = .ok (doc, root')) :
    process eager gs root' = .ok (doc.map fun e => (e.1, Node.null), root') := by
  cases root with
  | null => simp [process] at h
  | mk id b c stmts =>
    obtain ⟨stmts', hp, rfl⟩ := process_ok h
    have := process_loop_again eager gs stmts [] doc stmts' hp (by simp)
    simp only [List.map_nil] at this
    simp [process, this]

/-- C5 as stated fails: for the tree of `a:1` the first run of `process` maps
`a` to the node of `1`, the second run on the same tree maps `a` to an empty
handle. -/
theorem reducer_idempotence_refuted :
    document_twice false jaxn_model.rules jaxn_model.get_string 1 "a:1" =
        some ([(⟨["a"]⟩, Node.mk (some (.number false)) 2 (some "1") [])],
          [(⟨["a"]⟩, Node.null)]) ∧
      document_twice true jaxn_model.rules jaxn_model.get_string 1 "a:1" =
        some ([(⟨["a"]⟩, Node.mk (some (.number false)) 2 (some "1") [])],
          [(⟨["a"]⟩, Node.null)]) := by
  decide

/-- The second run on the tree of `a:1` maps `a` to an empty handle. -/
theorem second_run_empties_witness :
    process false jaxn_model.get_string (.mk none 0 none
        [.mk (some .member) 0 none
          [.mk (some .mkey) 0 none [.mk (some .identifier) 0 (some "a") []], .null]]) =
      .ok ([((⟨["a"]⟩ : pointer), Node.mk (some (.number false)) 2 (some "1") [])].map
          fun e => (e.1, Node.null),
        .mk none 0 none
          [.mk (some .member) 0 none
            [.mk (some .mkey) 0 none [.mk (some .identifier) 0 (some "a") []], .null]]) :=
  second_run_empties false jaxn_model.get_string
    (.mk none 0 none
      [.mk (some .member) 0 none
        [.mk (some .mkey) 0 none [.mk (some .identifier) 0 (some "a") []],
         .mk (some (.number false)) 2 (some "1") []]])
    [(⟨["a"]⟩, .mk (some (.number false)) 2 (some "1") [])]
    (.mk none 0 none
      [.mk (some .member) 0 none
        [.mk (some .mkey) 0 none [.mk (some .identifier) 0 (some "a") []], .null]])
    (by decide)

/-! ### delete and include -/

theorem process_loop_filter (eager : Bool) (gs : String → Option String) (stmts : List Node) :
    ∀ (m : node_map),
      (process_loop eager gs m stmts).map Prod.fst =
        (process_loop eager gs m (stmts.filter fun e => !is_statement_skipped e)).map Prod.fst := by
  induction stmts with
  | nil => intro m; rfl
  | cons e es ih =>
    intro m
    by_cases hnull : e = .null
    · subst hnull
      simp [process_loop, is_statement_skipped, Node.is, List.filter_cons, Except.map]
    by_cases hmem : e.is .member = true
    · have hskip : is_statement_skipped e = false := by
        cases e with
        | null => exact absurd rfl hnull
        | mk id b c cs =>
          have hid : id = some .member := by simpa [Node.is] using hmem
          subst hid
          simp [is_statement_skipped, Node.is]
      simp only [List.filter_cons, hskip, Bool.not_false, if_true]
      simp only [process_loop, hnull, hmem, if_true, if_false]
      cases ha : add eager gs m e with
      | error x => simp [Except.map]
      | ok r =>
        obtain ⟨m1, e1⟩ := r
        simp only
        have := ih m1
        cases h1 : process_loop eager gs m1 es with
        | error x =>
          cases h2 : process_loop eager gs m1 (es.filter fun e => !is_statement_skipped e) with
          | error y => simpa [h1, h2, Except.map] using this
          | ok r2 => simp [h1, h2, Except.map] at this
        | ok r1 =>
          cases h2 : process_loop eager gs m1 (es.filter fun e => !is_statement_skipped e) with
          | error y => simp [h1, h2, Except.map] at this
          | ok r2 => simpa [h1, h2, Except.map] using this
    · by_cases hskip : is_statement_skipped e = true
      · simp only [List.filter_cons, hskip, Bool.not_true, Bool.false_eq_true, if_false]
        rw [← ih m]
        have hor : e.is .delete_keys = true ∨ e.is .include_file = true := by
          simpa [is_statement_skipped] using hskip
        rcases hor with hdel | hinc
        · simp only [process_loop, hnull, hmem, hdel, if_true, if_false]
          cases process_loop eager gs m es <;> simp [Except.map]
        · by_cases hdel : e.is .delete_keys = true
          · simp only [process_loop, hnull, hmem, hdel, if_true, if_false]
            cases process_loop eager gs m es <;> simp [Except.map]
          · simp only [process_loop, hnull, hmem, hdel, hinc, if_true, if_false]
            cases process_loop eager gs m es <;> simp [Except.map]
      · have hor : e.is .delete_keys = false ∧ e.is .include_file = false := by
          simpa [is_statement_skipped] using hskip
        have hskip' : is_statement_skipped e = false := by simpa using hskip
        simp only [List.filter_cons, hskip', Bool.not_false, if_true]
        simp [process_loop, hnull, hmem, hor.1, hor.2, Except.map]

/-- C6: for every list of top-level statement nodes `process` returns the same
document (or ends with the same failure) as for the list without its
`delete_keys` and `include_file` statements; and `a.b: 1` followed by
`delete a.b` reduces to a document with an entry at `a.b`. -/
theorem delete_and_include_are_ignored :
    (∀ (eager : Bool) (gs : String → Option String) (id : Option Rule) (b : Nat) (c : Option String)
        (stmts : List Node),
        (process eager gs (.mk id b c stmts)).map Prod.fst =
          (process eager gs (.mk id b c (stmts.filter fun e => !is_statement_skipped e))).map
            Prod.fst) ∧
      (document false jaxn_model.rules jaxn_model.get_string 1 "a.b: 1 delete a.b").map
          (List.map Prod.fst) = some [⟨["a", "b"]⟩] ∧
      (document true jaxn_model.rules jaxn_model.get_string 1 "a.b: 1 delete a.b").map
          (List.map Prod.fst) = some [⟨["a", "b"]⟩] := by
  refine ⟨?_, by decide, by decide⟩
  intro eager gs id b c stmts
  have := process_loop_filter eager gs stmts []
  simp only [process]
  cases h1 : process_loop eager gs [] stmts with
  | error x =>
    cases h2 : process_loop eager gs [] (stmts.filter fun e => !is_statement_skipped e) with
    | error y => simpa [h1, h2, Except.map] using this
    | ok r2 => simp [h1, h2, Except.map] at this
  | ok r1 =>
    cases h2 : process_loop eager gs [] (stmts.filter fun e => !is_statement_skipped e) with
    | error y => simp [h1, h2, Except.map] at this
    | ok r2 => simpa [h1, h2, Except.map] using this

/-! ## The grammar makes steps and returns -/

theorem leaf_texts_append (ns ms : List Node) :
    leaf_texts (ns ++ ms) = leaf_texts ns ++ leaf_texts ms := by
  induction ns with
  | nil => simp [leaf_texts]
  | cons n ns ih => simp [leaf_texts, ih]

theorem Step.weaken {s : Bool} {i i' : Input} {ns : List Node} (h : Step s i ns i') :
    Step false i ns i' := by
  obtain ⟨c, h1, h2, h3, -⟩ := h
  exact ⟨c, h1, h2, h3, by simp⟩

theorem Step.refl (i : Input) : Step false i [] i :=
  ⟨[], by simp, by simp, by simp [leaf_texts], by simp⟩

theorem Step.trans {a b : Bool} {i i' i2 : Input} {ns ms : List Node}
    (h : Step a i ns i') (h' : Step b i' ms i2) : Step (a || b) i (ns ++ ms) i2 := by
  obtain ⟨c, h1, h2, h3, h4⟩ := h
  obtain ⟨c', h1', h2', h3', h4'⟩ := h'
  refine ⟨c ++ c', ?_, ?_, ?_, ?_⟩
  · rw [h1, h1', List.append_assoc]
  · rw [h2', h2, List.length_append, Nat.add_assoc]
  · rw [leaf_texts_append]
    exact h3.append h3'
  · intro hs
    simp only [Bool.or_eq_true] at hs
    rcases hs with hs | hs
    · have := h4 hs
      simp [this]
    · have := h4' hs
      simp [this]

theorem Step.length_le {s : Bool} {i i' : Input} {ns : List Node} (h : Step s i ns i') :
    i'.rest.length ≤ i.rest.length := by
  obtain ⟨c, h1, -⟩ := h
  rw [h1, List.length_append]
  omega

theorem Step.length_lt {i i' : Input} {ns : List Node} (h : Step true i ns i') :
    i'.rest.length < i.rest.length := by
  obtain ⟨c, h1, -, -, h4⟩ := h
  have : 0 < c.length := List.length_pos.2 (h4 rfl)
  rw [h1, List.length_append]
  omega

namespace pegtl

theorem step_bump (i : Input) (n : Nat) : Step false i [] (i.bump n) := by
  refine ⟨i.rest.take n, ?_, ?_, by simp [leaf_texts], by simp⟩
  · simp [Input.bump]
  · simp [Input.bump, List.length_take]

theorem step_bump_strict (i : Input) (n : Nat) (h0 : 0 < n) (hi : i.rest ≠ []) :
    Step true i [] (i.bump n) := by
  refine ⟨i.rest.take n, ?_, ?_, by simp [leaf_texts], ?_⟩
  · simp [Input.bump]
  · simp [Input.bump, List.length_take]
  · intro _ h
    have := congrArg List.length h
    simp only [List.length_take, List.length_nil] at this
    have hpos : 0 < i.rest.length := List.length_pos.2 hi
    omega

theorem lift_sound (m : Matcher) : (lift m).sound false := by
  intro i ns i' h
  simp only [lift] at h
  split at h <;> try cases h
  exact step_bump _ _

theorem lift_sound_strict (m : Matcher) (hm : m.consuming) : (lift m).sound true := by
  intro i ns i' h
  simp only [lift] at h
  split at h <;> try cases h
  rename_i n hn
  obtain ⟨h0, hle⟩ := hm _ _ hn
  refine step_bump_strict _ _ h0 ?_
  intro hnil
  rw [hnil] at hle
  simp at hle
  omega

theorem one_sound (cs : List Char) : (one cs).sound true := by
  intro i ns i' h
  simp only [one] at h
  split at h
  · rename_i c rest hc
    split at h <;> try cases h
    exact step_bump_strict _ _ (by decide) (by simp [hc])
  · cases h

theorem ranges_sound (cls : Char → Bool) : (ranges cls).sound true := by
  intro i ns i' h
  simp only [ranges] at h
  split at h
  · rename_i c rest hc
    split at h <;> try cases h
    exact step_bump_strict _ _ (by decide) (by simp [hc])
  · cases h

theorem chars_sound (cs : List Char) (hcs : cs ≠ []) : (pegtl.string cs).sound true := by
  intro i ns i' h
  simp only [pegtl.string] at h
  split at h <;> try cases h
  rename_i hp
  refine step_bump_strict _ _ (List.length_pos.2 hcs) ?_
  intro hnil
  rw [hnil] at hp
  cases cs with
  | nil => exact hcs rfl
  | cons c cs => simp [List.isPrefixOf] at hp

theorem eof_sound : eof.sound false := by
  intro i ns i' h
  simp only [eof] at h
  split at h <;> try cases h
  exact Step.refl _

theorem seq_sound {a b : Bool} {p q : Parser} (hp : p.sound a) (hq : q.sound b) :
    (seq p q).sound (a || b) := by
  intro i ns i' h
  simp only [seq] at h
  cases h1 : p i with
  | ok ms j =>
    simp only [h1] at h
    cases h2 : q j with
    | ok ks j' =>
      simp only [h2, Result.ok.injEq] at h
      obtain ⟨rfl, rfl⟩ := h
      exact (hp _ _ _ h1).trans (hq _ _ _ h2)
    | fail => simp [h2] at h
    | raise w => simp [h2] at h
    | diverge => simp [h2] at h
    | undefined => simp [h2] at h
  | fail => simp [h1] at h
  | raise w => simp [h1] at h
  | diverge => simp [h1] at h
  | undefined => simp [h1] at h

theorem sor_sound {a b : Bool} {p q : Parser} (hp : p.sound a) (hq : q.sound b) :
    (sor p q).sound (a && b) := by
  intro i ns i' h
  simp only [sor] at h
  cases h1 : p i with
  | ok ms j =>
    simp only [h1, Result.ok.injEq] at h
    obtain ⟨rfl, rfl⟩ := h
    obtain ⟨c, e1, e2, e3, e4⟩ := hp _ _ _ h1
    exact ⟨c, e1, e2, e3, fun hs => e4 (by simp only [Bool.and_eq_true] at hs; exact hs.1)⟩
  | fail =>
    simp only [h1] at h
    obtain ⟨c, e1, e2, e3, e4⟩ := hq _ _ _ h
    exact ⟨c, e1, e2, e3, fun hs => e4 (by simp only [Bool.and_eq_true] at hs; exact hs.2)⟩
  | raise w => simp [h1] at h
  | diverge => simp [h1] at h
  | undefined => simp [h1] at h

theorem opt_sound {a : Bool} {p : Parser} (hp : p.sound a) : (opt p).sound false := by
  intro i ns i' h
  simp only [opt] at h
  cases h1 : p i with
  | ok ms j =>
    simp only [h1, Result.ok.injEq] at h
    obtain ⟨rfl, rfl⟩ := h
    exact (hp _ _ _ h1).weaken
  | fail =>
    simp only [h1, Result.ok.injEq] at h
    obtain ⟨rfl, rfl⟩ := h
    exact Step.refl _
  | raise w => simp [h1] at h
  | diverge => simp [h1] at h
  | undefined => simp [h1] at h

theorem must_sound {a : Bool} {p : Parser} (what : String) (hp : p.sound a) :
    (must what p).sound a := by
  intro i ns i' h
  simp only [must] at h
  cases h1 : p i with
  | ok ms j =>
    simp only [h1, Result.ok.injEq] at h
    obtain ⟨rfl, rfl⟩ := h
    exact hp _ _ _ h1
  | fail => simp [h1] at h
  | raise w => simp [h1] at h
  | diverge => simp [h1] at h
  | undefined => simp [h1] at h

theorem star_loop_sound {a : Bool} {p : Parser} (hp : p.sound a) (n : Nat) :
    ∀ i ns i', star_loop p n i = .ok ns i' → Step false i ns i' := by
  induction n with
  | zero => intro i ns i' h; simp [star_loop] at h
  | succ n ih =>
    intro i ns i' h
    simp only [star_loop] at h
    cases h1 : p i with
    | ok ms j =>
      simp only [h1] at h
      split_ifs at h with hlt
      cases h2 : star_loop p n j with
      | ok ks j' =>
        simp only [h2, Result.ok.injEq] at h
        obtain ⟨rfl, rfl⟩ := h
        exact ((hp _ _ _ h1).weaken).trans (ih _ _ _ h2)
      | fail => simp [h2] at h
      | raise w => simp [h2] at h
      | diverge => simp [h2] at h
      | undefined => simp [h2] at h
    | fail =>
      simp only [h1, Result.ok.injEq] at h
      obtain ⟨rfl, rfl⟩ := h
      exact Step.refl _
    | raise w => simp [h1] at h
    | diverge => simp [h1] at h
    | undefined => simp [h1] at h

theorem star_sound {a : Bool} {p : Parser} (hp : p.sound a) : (star p).sound false :=
  fun i ns i' h => star_loop_sound hp _ i ns i' h

theorem plus_sound {a : Bool} {p : Parser} (hp : p.sound a) : (plus p).sound a := by
  have := seq_sound hp (star_sound hp)
  simpa [plus] using this

theorem node_sound {a : Bool} {p : Parser} (r : Rule) (hp : p.sound a) : (node r p).sound a := by
  intro i ns i' h
  simp only [node] at h
  cases h1 : p i with
  | ok ms j =>
    simp only [h1, Result.ok.injEq] at h
    obtain ⟨rfl, rfl⟩ := h
    obtain ⟨c, e1, e2, e3, e4⟩ := hp _ _ _ h1
    refine ⟨c, e1, e2, ?_, e4⟩
    cases ms with
    | nil =>
      by_cases hr : r.stores_content = true
      · have : matched_text i j = String.mk c := by
          simp [matched_text, e1, e2]
        simp [leaf_texts, leaf_text, hr, this]
      · simp [leaf_texts, leaf_text, hr]
    | cons m ms => simpa [leaf_texts, leaf_text] using e3
  | fail => simp [h1] at h
  | raise w => simp [h1] at h
  | diverge => simp [h1] at h
  | undefined => simp [h1] at h

theorem until_loop_sound {a b : Bool} {c r : Parser} (hc : c.sound a) (hr : r.sound b) (n : Nat) :
    ∀ i ns i', until_loop c r n i = .ok ns i' → Step false i ns i' := by
  induction n with
  | zero => intro i ns i' h; simp [until_loop] at h
  | succ n ih =>
    intro i ns i' h
    simp only [until_loop] at h
    cases h0 : c i with
    | ok ms j =>
      simp only [h0, Result.ok.injEq] at h
      obtain ⟨rfl, rfl⟩ := h
      exact (hc _ _ _ h0).weaken
    | fail =>
      simp only [h0] at h
      cases h1 : r i with
      | ok ms j =>
        simp only [h1] at h
        split_ifs at h with hlt
        cases h2 : until_loop c r n j with
        | ok ks j' =>
          simp only [h2, Result.ok.injEq] at h
          obtain ⟨rfl, rfl⟩ := h
          exact ((hr _ _ _ h1).weaken).trans (ih _ _ _ h2)
        | fail => simp [h2] at h
        | raise w => simp [h2] at h
        | diverge => simp [h2] at h
        | undefined => simp [h2] at h
      | fail => simp [h1] at h
      | raise w => simp [h1] at h
      | diverge => simp [h1] at h
      | undefined => simp [h1] at h
    | raise w => simp [h0] at h
    | diverge => simp [h0] at h
    | undefined => simp [h0] at h

theorem until_sound {a b : Bool} {c r : Parser} (hc : c.sound a) (hr : r.sound b) :
    (until_ c r).sound false :=
  fun i ns i' h => until_loop_sound hc hr _ i ns i' h

/-! ### the combinators return -/

theorem lift_halts (m : Matcher) (L : Nat) : (lift m).halts_below L := by
  intro i _ h
  simp only [lift] at h
  split at h <;> cases h

theorem seq_halts {a : Bool} {p q : Parser} {L : Nat} (hp : p.halts_below L) (hps : p.sound a)
    (hq : q.halts_below L) : (seq p q).halts_below L := by
  intro i hi h
  simp only [seq] at h
  cases h1 : p i with
  | ok ms j =>
    simp only [h1] at h
    have hj : j.rest.length < L := lt_of_le_of_lt (hps _ _ _ h1).length_le hi
    cases h2 : q j with
    | ok ks j' => simp [h2] at h
    | fail => simp [h2] at h
    | raise w => simp [h2] at h
    | diverge => exact hq j hj h2
    | undefined => simp [h2] at h
  | fail => simp [h1] at h
  | raise w => simp [h1] at h
  | diverge => exact hp i hi h1
  | undefined => simp [h1] at h

theorem sor_halts {p q : Parser} {L : Nat} (hp : p.halts_below L) (hq : q.halts_below L) :
    (sor p q).halts_below L := by
  intro i hi h
  simp only [sor] at h
  cases h1 : p i with
  | ok ms j => simp [h1] at h
  | fail => simp only [h1] at h; exact hq i hi h
  | raise w => simp [h1] at h
  | diverge => exact hp i hi h1
  | undefined => simp [h1] at h

theorem must_halts {p : Parser} {L : Nat} (what : String) (hp : p.halts_below L) :
    (must what p).halts_below L := by
  intro i hi h
  simp only [must] at h
  cases h1 : p i with
  | ok ms j => simp [h1] at h
  | fail => simp [h1] at h
  | raise w => simp [h1] at h
  | diverge => exact hp i hi h1
  | undefined => simp [h1] at h

theorem node_halts {p : Parser} {L : Nat} (r : Rule) (hp : p.halts_below L) :
    (node r p).halts_below L := by
  intro i hi h
  simp only [node] at h
  cases h1 : p i with
  | ok ms j => simp [h1] at h
  | fail => simp [h1] at h
  | raise w => simp [h1] at h
  | diverge => exact hp i hi h1
  | undefined => simp [h1] at h

theorem star_loop_halts {p : Parser} {L : Nat} (hp : p.halts_below L) (hps : p.sound true)
    (n : Nat) : ∀ i : Input, i.rest.length < n → i.rest.length < L →
      star_loop p n i ≠ .diverge := by
  induction n with
  | zero => intro i hn; omega
  | succ n ih =>
    intro i hn hL h
    simp only [star_loop] at h
    cases h1 : p i with
    | ok ms j =>
      simp only [h1] at h
      have hlt := (hps _ _ _ h1).length_lt
      rw [if_pos hlt] at h
      cases h2 : star_loop p n j with
      | ok ks j' => simp [h2] at h
      | fail => simp [h2] at h
      | raise w => simp [h2] at h
      | diverge => exact ih j (by omega) (by omega) h2
      | undefined => simp [h2] at h
    | fail => simp [h1] at h
    | raise w => simp [h1] at h
    | diverge => exact hp i hL h1
    | undefined => simp [h1] at h

theorem star_halts {p : Parser} {L : Nat} (hp : p.halts_below L) (hps : p.sound true) :
    (star p).halts_below L :=
  fun i hi => star_loop_halts hp hps _ i (Nat.lt_succ_self _) hi

theorem list_sound {b : Bool} {r s : Parser} (hr : r.sound true) (hs : s.sound b) :
    (list r s).sound true :=
  seq_sound hr (star_sound (seq_sound hs hr))

theorem list_must_sound {b : Bool} {r s : Parser} (what : String) (hr : r.sound true)
    (hs : s.sound b) : (list_must what r s).sound true :=
  seq_sound hr (star_sound (seq_sound hs (must_sound what hr)))

theorem list_must_halts {r s : Parser} {L : Nat} (what : String) (hr : r.halts_below L)
    (hrs : r.sound true) (hs : s.halts_below L) (hss : s.sound true) :
    (list_must what r s).halts_below L :=
  seq_halts hr hrs
    (star_halts (seq_halts hs hss (must_halts what hr)) (seq_sound hss (must_sound what hrs)))

theorem list_tail_sound {r s : Parser} (hr : r.sound true) (hs : s.sound true) :
    (list_tail r s).sound true :=
  seq_sound (list_sound hr hs) (opt_sound hs)

theorem pad_sound {r p : Parser} (hr : r.sound true) (hp : p.sound true) :
    (pad r p).sound true :=
  seq_sound (star_sound hp) (seq_sound hr (star_sound hp))

end pegtl

namespace rules

open pegtl

section
variable {jaxn : jaxn_rules} {fwd : forward}

/-! ### every rule makes a step -/

theorem ws_sound (hj : jaxn.well_formed) : (lift jaxn.ws).sound true :=
  lift_sound_strict _ hj.ws

theorem value_concat_sound (hj : jaxn.well_formed) : (lift jaxn.value_concat).sound true :=
  lift_sound_strict _ hj.value_concat

theorem padr_sound (hj : jaxn.well_formed) {r : Parser} (hr : r.sound true) :
    (padr jaxn r).sound true :=
  seq_sound hr (star_sound (ws_sound hj))

theorem rws_sound (hj : jaxn.well_formed) : (rws jaxn).sound true :=
  plus_sound (ws_sound hj)

theorem identifier_sound : identifier.sound true :=
  node_sound _ (plus_sound (ranges_sound _))

theorem name_separator_sound (hj : jaxn.well_formed) : (name_separator jaxn).sound true :=
  pad_sound (one_sound _) (ws_sound hj)

theorem function_param_sound (hj : jaxn.well_formed) (hf : fwd.sound) :
    (function_param jaxn fwd).sound true :=
  node_sound _ (seq_sound identifier_sound
    (seq_sound (must_sound _ (name_separator_sound hj)) (must_sound _ hf.value)))

theorem function_sound (hj : jaxn.well_formed) (hf : fwd.sound) :
    (function jaxn fwd).sound true :=
  node_sound _ (seq_sound identifier_sound (seq_sound (rws_sound hj)
    (list_sound (function_param_sound hj hf) (lift_sound_strict _ hj.value_separator))))

theorem string_fragment_sound (hj : jaxn.well_formed) (hf : fwd.sound) :
    (string_fragment jaxn fwd).sound true :=
  sor_sound (node_sound _ (lift_sound_strict _ hj.string_fragment)) hf.expression

theorem string_sound (hj : jaxn.well_formed) (hf : fwd.sound) : (string jaxn fwd).sound true :=
  node_sound _ (list_must_sound _ (string_fragment_sound hj hf) (value_concat_sound hj))

theorem binary_fragment_sound (hj : jaxn.well_formed) (hf : fwd.sound) :
    (binary_fragment jaxn fwd).sound true :=
  sor_sound hf.expression (node_sound _ (lift_sound_strict _ hj.bvalue))

theorem binary_sound (hj : jaxn.well_formed) (hf : fwd.sound) : (binary jaxn fwd).sound true :=
  node_sound _ (list_must_sound _ (binary_fragment_sound hj hf) (value_concat_sound hj))

theorem element_sound (hf : fwd.sound) : (element fwd).sound true :=
  node_sound _ hf.value

theorem array_content_sound (hj : jaxn.well_formed) (hf : fwd.sound) :
    (array_content jaxn fwd).sound false :=
  opt_sound (list_tail_sound (element_sound hf) (lift_sound_strict _ hj.element_separator))

theorem array_value_sound (hj : jaxn.well_formed) (hf : fwd.sound) :
    (array_value jaxn fwd).sound true :=
  seq_sound (lift_sound_strict _ hj.begin_array)
    (seq_sound (array_content_sound hj hf) (must_sound _ (lift_sound_strict _ hj.end_array)))

theorem array_fragment_sound (hj : jaxn.well_formed) (hf : fwd.sound) :
    (array_fragment jaxn fwd).sound true :=
  sor_sound hf.expression (array_value_sound hj hf)

theorem array_sound (hj : jaxn.well_formed) (hf : fwd.sound) : (array jaxn fwd).sound true :=
  node_sound _ (list_must_sound _ (array_fragment_sound hj hf) (value_concat_sound hj))

theorem mkey_part_sound (hj : jaxn.well_formed) : (mkey_part jaxn).sound true :=
  sor_sound identifier_sound (node_sound _ hj.string_sound)

theorem mkey_sound (hj : jaxn.well_formed) : (mkey jaxn).sound true :=
  node_sound _ (list_sound (mkey_part_sound hj) (one_sound _))

theorem member_sound (hj : jaxn.well_formed) (hf : fwd.sound) : (member jaxn fwd).sound true :=
  node_sound _ (seq_sound (mkey_sound hj)
    (seq_sound (must_sound _ (name_separator_sound hj)) (must_sound _ hf.value)))

theorem object_content_sound (hj : jaxn.well_formed) (hf : fwd.sound) :
    (object_content jaxn fwd).sound false :=
  star_sound (seq_sound (member_sound hj hf) (opt_sound (lift_sound_strict _ hj.value_separator)))

theorem object_value_sound (hj : jaxn.well_formed) (hf : fwd.sound) :
    (object_value jaxn fwd).sound true :=
  seq_sound (lift_sound_strict _ hj.begin_object)
    (seq_sound (object_content_sound hj hf) (must_sound _ (lift_sound_strict _ hj.end_object)))

theorem object_fragment_sound (hj : jaxn.well_formed) (hf : fwd.sound) :
    (object_fragment jaxn fwd).sound true :=
  sor_sound hf.expression (object_value_sound hj hf)

theorem object_sound (hj : jaxn.well_formed) (hf : fwd.sound) : (object jaxn fwd).sound true :=
  node_sound _ (list_must_sound _ (object_fragment_sound hj hf) (value_concat_sound hj))

theorem rkey_part_sound (hj : jaxn.well_formed) (hf : fwd.sound) :
    (rkey_part jaxn fwd).sound true :=
  sor_sound (string_sound hj hf) identifier_sound

theorem rkey_sound (hj : jaxn.well_formed) (hf : fwd.sound) : (rkey jaxn fwd).sound true :=
  node_sound _ (list_sound (rkey_part_sound hj hf) (one_sound _))

theorem expression_sound (hj : jaxn.well_formed) (hf : fwd.sound) :
    (expression jaxn fwd).sound true :=
  node_sound _ (seq_sound (pegtl.chars_sound _ (by simp))
    (seq_sound (must_sound _ (sor_sound (function_sound hj hf) (rkey_sound hj hf)))
      (must_sound _ (one_sound _))))

theorem expression_list_sound (hj : jaxn.well_formed) (hf : fwd.sound) :
    (expression_list jaxn fwd).sound true :=
  seq_sound hf.expression
    (star_sound (seq_sound (value_concat_sound hj)
      (sor_sound hf.expression
        (must_sound _ (sor_sound (string_sound hj hf) (sor_sound (binary_sound hj hf)
          (sor_sound (object_sound hj hf) (array_sound hj hf))))))))

theorem match_signed_sound (hj : jaxn.well_formed) (neg : Bool) :
    (sor_value.match_signed jaxn neg).sound true := by
  intro i ns i' h
  simp only [sor_value.match_signed] at h
  split_ifs at h with he
  cases h1 : jaxn.match_number neg (i.bump 1) with
  | ok ms j =>
    simp only [h1, Result.ok.injEq] at h
    obtain ⟨rfl, rfl⟩ := h
    have := (step_bump i 1).trans (hj.match_number_sound neg _ _ _ h1)
    simpa using this
  | fail => simp [h1] at h
  | raise w => simp [h1] at h
  | diverge => simp [h1] at h
  | undefined => simp [h1] at h

theorem match_impl_sound (hj : jaxn.well_formed) (hf : fwd.sound) :
    (sor_value.match_impl jaxn fwd).sound true := by
  intro i ns i' h
  simp only [sor_value.match_impl] at h
  split at h
  · cases h
  · split_ifs at h
    · exact object_sound hj hf _ _ _ h
    · exact array_sound hj hf _ _ _ h
    · exact node_sound _ (lift_sound_strict _ hj.null) _ _ _ h
    · exact node_sound _ (lift_sound_strict _ hj.true_) _ _ _ h
    · exact node_sound _ (lift_sound_strict _ hj.false_) _ _ _ h
    · exact string_sound hj hf _ _ _ h
    · split at h
      · split_ifs at h
        · exact expression_list_sound hj hf _ _ _ h
        · exact binary_sound hj hf _ _ _ h
      · cases h
    · exact match_signed_sound hj false _ _ _ h
    · exact match_signed_sound hj true _ _ _ h
    · exact hj.match_number_sound false _ _ _ h

theorem match_sound (hj : jaxn.well_formed) (hf : fwd.sound) :
    (sor_value.match_ jaxn fwd).sound true := by
  intro i ns i' h
  simp only [sor_value.match_] at h
  split_ifs at h
  exact match_impl_sound hj hf _ _ _ h

theorem value_sound (hj : jaxn.well_formed) (hf : fwd.sound) : (value jaxn fwd).sound true :=
  padr_sound hj (match_sound hj hf)

theorem unfold_sound (hj : jaxn.well_formed) (depth : Nat) : (unfold jaxn depth).sound := by
  induction depth with
  | zero => exact ⟨fun i ns i' h => by simp [unfold] at h, fun i ns i' h => by simp [unfold] at h⟩
  | succ d ih => exact ⟨value_sound hj ih, expression_sound hj ih⟩

theorem include_file_sound (hj : jaxn.well_formed) (hf : fwd.sound) :
    (include_file jaxn fwd).sound true :=
  node_sound _ (seq_sound (pegtl.chars_sound _ (by decide))
    (seq_sound (rws_sound hj) (string_sound hj hf)))

theorem delete_keys_sound (hj : jaxn.well_formed) : (delete_keys jaxn).sound true :=
  node_sound _ (seq_sound (pegtl.chars_sound _ (by decide))
    (seq_sound (rws_sound hj) (mkey_sound hj)))

theorem statement_sound (hj : jaxn.well_formed) (hf : fwd.sound) :
    (statement jaxn fwd).sound true :=
  sor_sound (include_file_sound hj hf) (sor_sound (delete_keys_sound hj) (member_sound hj hf))

theorem grammar_step_sound (hj : jaxn.well_formed) (depth : Nat) :
    (sor (lift jaxn.ws) (must "rules::statement" (statement jaxn (unfold jaxn depth)))).sound
      true :=
  sor_sound (ws_sound hj) (must_sound _ (statement_sound hj (unfold_sound hj depth)))

theorem grammar_sound (hj : jaxn.well_formed) (depth : Nat) :
    (grammar jaxn depth).sound false :=
  until_sound eof_sound (grammar_step_sound hj depth)

/-! ### every rule returns -/

theorem string_fragment_halts {L : Nat} (he : fwd.expression.halts_below L) :
    (string_fragment jaxn fwd).halts_below L :=
  sor_halts (node_halts _ (lift_halts _ L)) he

theorem string_halts (hj : jaxn.well_formed) (hf : fwd.sound) {L : Nat}
    (he : fwd.expression.halts_below L) : (string jaxn fwd).halts_below L :=
  node_halts _ (list_must_halts _ (string_fragment_halts he) (string_fragment_sound hj hf)
    (lift_halts _ L) (value_concat_sound hj))

end

end rules

/-! ### the model of the JAXN rules is well formed -/

namespace jaxn_model

theorem count_ws_le (cs : List Char) : count_ws cs ≤ cs.length :=
  (List.takeWhile_sublist _).length_le

theorem count_digits_le (cs : List Char) : count_digits cs ≤ cs.length :=
  (List.takeWhile_sublist _).length_le

theorem ws_consuming : Matcher.consuming ws := by
  intro cs n h
  cases cs with
  | nil => simp [ws] at h
  | cons c cs =>
    simp only [ws] at h
    split_ifs at h
    cases h
    simp

theorem padded_right_consuming (c : Char) : Matcher.consuming (padded_right c) := by
  intro cs n h
  cases cs with
  | nil => simp [padded_right] at h
  | cons d ds =>
    simp only [padded_right] at h
    split_ifs at h
    cases h
    have := count_ws_le ds
    simp only [List.length_cons]
    omega

theorem just_consuming (c : Char) : Matcher.consuming (just c) := by
  intro cs n h
  cases cs with
  | nil => simp [just] at h
  | cons d ds =>
    simp only [just] at h
    split_ifs at h
    cases h
    simp

theorem padded_consuming (c : Char) : Matcher.consuming (padded c) := by
  intro cs n h
  simp only [padded] at h
  cases h1 : padded_right c (cs.drop (count_ws cs)) with
  | ok m =>
    simp only [h1, Matched.ok.injEq] at h
    obtain ⟨h0, hle⟩ := padded_right_consuming c _ _ h1
    have := count_ws_le cs
    simp only [List.length_drop] at hle
    omega
  | fail => simp [h1] at h
  | raise w => simp [h1] at h

theorem word_consuming (w : String) (hw : 0 < w.data.length) : Matcher.consuming (word w) := by
  intro cs n h
  simp only [word] at h
  split_ifs at h with hp
  cases h
  refine ⟨hw, ?_⟩
  have : w.data <+: cs := List.isPrefixOf_iff_prefix.1 hp
  exact this.length_le

theorem quoted_rest_le_aux (q : Char) (k : Nat) : ∀ (cs : List Char), cs.length ≤ k →
    ∀ n, quoted_rest q cs = some n → n ≤ cs.length := by
  induction k using Nat.strong_induction_on with
  | _ k ih =>
    intro cs hk n h
    match cs with
    | [] => simp [quoted_rest] at h
    | [c] =>
      simp only [quoted_rest] at h
      split_ifs at h with hc hb
      · cases h
        simp
      · simp at h
    | c :: d :: cs' =>
      simp only [List.length_cons] at hk ⊢
      simp only [quoted_rest] at h
      split_ifs at h with hc hb
      · cases h
        omega
      · simp only [Option.map_eq_some'] at h
        obtain ⟨m, hm, rfl⟩ := h
        have := ih cs'.length (by omega) cs' le_rfl m hm
        omega
      · simp only [Option.map_eq_some'] at h
        obtain ⟨m, hm, rfl⟩ := h
        have := ih (d :: cs').length (by simp only [List.length_cons]; omega) (d :: cs') le_rfl m hm
        simp only [List.length_cons] at this
        omega

theorem quoted_rest_le (q : Char) (cs : List Char) (n : Nat) (h : quoted_rest q cs = some n) :
    n ≤ cs.length :=
  quoted_rest_le_aux q cs.length cs le_rfl n h

theorem string_fragment_consuming : Matcher.consuming string_fragment := by
  intro cs n h
  cases cs with
  | nil => simp [string_fragment] at h
  | cons c ds =>
    simp only [string_fragment] at h
    split_ifs at h
    cases h1 : quoted_rest c ds with
    | none => simp [h1] at h
    | some m =>
      simp only [h1, Matched.ok.injEq] at h
      subst h
      have := quoted_rest_le c ds m h1
      simp only [List.length_cons]
      omega

theorem count_hex_pairs_le_aux (k : Nat) : ∀ cs : List Char, cs.length ≤ k →
    count_hex_pairs cs ≤ cs.length := by
  induction k using Nat.strong_induction_on with
  | _ k ih =>
    intro cs hk
    match cs with
    | [] => simp [count_hex_pairs]
    | [a] => simp [count_hex_pairs]
    | a :: b :: cs' =>
      simp only [count_hex_pairs, List.length_cons] at hk ⊢
      split_ifs
      · have := ih cs'.length (by omega) cs' le_rfl
        omega
      · omega

theorem count_hex_pairs_le (cs : List Char) : count_hex_pairs cs ≤ cs.length :=
  count_hex_pairs_le_aux cs.length cs le_rfl

theorem bvalue_consuming : Matcher.consuming bvalue := by
  intro cs n h
  cases cs with
  | nil => simp [bvalue] at h
  | cons c ds =>
    simp only [bvalue] at h
    split_ifs at h
    cases h
    have := count_hex_pairs_le ds
    simp only [List.length_cons]
    omega

theorem count_fraction_le (cs : List Char) : count_fraction cs ≤ cs.length := by
  cases cs with
  | nil => simp [count_fraction]
  | cons c ds =>
    simp only [count_fraction]
    have := count_digits_le ds
    split_ifs <;> simp only [List.length_cons] <;> omega

theorem count_exponent_le (cs : List Char) : count_exponent cs ≤ cs.length := by
  match cs with
  | [] => simp [count_exponent]
  | [c] =>
    simp only [count_exponent]
    split_ifs <;> simp
  | c :: s :: es =>
    have h1 := count_digits_le es
    have h2 := count_digits_le (s :: es)
    simp only [count_exponent, List.length_cons] at h2 ⊢
    split_ifs <;> omega

theorem number_consuming : Matcher.consuming number := by
  intro cs n h
  simp only [number] at h
  split_ifs at h with h0
  cases h
  have h1 := count_digits_le cs
  have h2 := count_fraction_le (cs.drop (count_digits cs))
  have h3 := count_exponent_le
    (cs.drop (count_digits cs + count_fraction (cs.drop (count_digits cs))))
  simp only [List.length_drop] at h2 h3
  omega

theorem rules_well_formed : rules.well_formed where
  ws := ws_consuming
  begin_array := padded_right_consuming _
  end_array := just_consuming _
  begin_object := padded_right_consuming _
  end_object := just_consuming _
  value_separator := padded_right_consuming _
  element_separator := padded_right_consuming _
  value_concat := padded_consuming _
  null := word_consuming _ (by decide)
  true_ := word_consuming _ (by decide)
  false_ := word_consuming _ (by decide)
  string_fragment := string_fragment_consuming
  bvalue := bvalue_consuming
  string_sound :=
    pegtl.list_must_sound _ (pegtl.node_sound _ (pegtl.lift_sound_strict _ string_fragment_consuming))
      (pegtl.lift_sound_strict _ (padded_consuming _))
  string_halts := fun L =>
    pegtl.list_must_halts _ (pegtl.node_halts _ (pegtl.lift_halts _ L))
      (pegtl.node_sound _ (pegtl.lift_sound_strict _ string_fragment_consuming))
      (pegtl.lift_halts _ L) (pegtl.lift_sound_strict _ (padded_consuming _))
  match_number_sound := fun _ => pegtl.node_sound _ (pegtl.lift_sound_strict _ number_consuming)
  match_number_halts := fun _ L => pegtl.node_halts _ (pegtl.lift_halts _ L)

end jaxn_model

/-! ### values, strings and leaves -/

/-- C4 (amended): on an input that starts with `+` or `-` at a value
position, `sor_value` never fails softly and never succeeds on the sign alone.
It throws the parse error `incomplete number` when the sign is the last
character and when the number rule fails after the sign; in every other case
its outcome is the outcome of the number rule after the sign: a success with
what the number rule matched (more than nothing, for a number rule that
consumes when it matches), or the parse error that the number rule itself
throws, with that rule's message. -/
theorem sign_without_number_is_an_error (jaxn : jaxn_rules) (fwd : rules.forward) (pos : Nat)
    (sign : Char) (t : List Char) (hs : sign = '+' ∨ sign = '-') :
    rules.sor_value.match_ jaxn fwd ⟨pos, sign :: t⟩ ≠ .fail ∧
      (t = [] ∨ jaxn.match_number (decide (sign = '-')) ⟨pos + 1, t⟩ = .fail →
        rules.sor_value.match_ jaxn fwd ⟨pos, sign :: t⟩ = .raise "incomplete number") ∧
      (t ≠ [] → jaxn.match_number (decide (sign = '-')) ⟨pos + 1, t⟩ ≠ .fail →
        rules.sor_value.match_ jaxn fwd ⟨pos, sign :: t⟩ =
          jaxn.match_number (decide (sign = '-')) ⟨pos + 1, t⟩) ∧
      (∀ ns i', rules.sor_value.match_ jaxn fwd ⟨pos, sign :: t⟩ = .ok ns i' →
        t ≠ [] ∧ jaxn.match_number (decide (sign = '-')) ⟨pos + 1, t⟩ = .ok ns i' ∧
          ((jaxn.match_number (decide (sign = '-'))).sound true →
            i'.rest.length < t.length)) ∧
      (∀ w, rules.sor_value.match_ jaxn fwd ⟨pos, sign :: t⟩ = .raise w →
        w = "incomplete number" ∨
          jaxn.match_number (decide (sign = '-')) ⟨pos + 1, t⟩ = .raise w) := by
  have hbump : (⟨pos, sign :: t⟩ : Input).bump 1 = ⟨pos + 1, t⟩ := by
    simp [Input.bump]
  have hmatch : rules.sor_value.match_ jaxn fwd ⟨pos, sign :: t⟩ =
      rules.sor_value.match_signed jaxn (decide (sign = '-')) ⟨pos, sign :: t⟩ := by
    rcases hs with rfl | rfl
    · simp [rules.sor_value.match_, rules.sor_value.match_impl, Input.size, Input.peek_char]
    · simp [rules.sor_value.match_, rules.sor_value.match_impl, Input.size, Input.peek_char]
  rw [hmatch]
  simp only [rules.sor_value.match_signed, hbump, Input.empty]
  cases t with
  | nil => simp
  | cons c t' =>
    cases hn : jaxn.match_number (decide (sign = '-')) ⟨pos + 1, c :: t'⟩ with
    | ok ns i' =>
      refine ⟨by simp, by simp, by simp, ?_, by simp⟩
      intro ms j hj
      simp only [List.isEmpty_cons, Bool.false_eq_true, if_false, Result.ok.injEq] at hj
      obtain ⟨rfl, rfl⟩ := hj
      refine ⟨by simp, rfl, fun hsound => ?_⟩
      exact Step.length_lt (hsound _ _ _ hn)
    | fail => simp
    | raise w => simp
    | diverge => simp
    | undefined => simp

/-- C4 as stated fails for a number rule that throws: on `+Nx` the number rule
throws its own parse error after the sign, and that is what `sor_value` ends
with, neither a success nor the error `incomplete number`. -/
theorem incomplete_number_refuted :
    rules.sor_value.match_ jaxn_model.rules_nan (rules.unfold jaxn_model.rules_nan 0)
        ⟨0, ['+', 'N', 'x']⟩ = .raise "parse error matching jaxn::nan" ∧
      "parse error matching jaxn::nan" ≠ "incomplete number" := by
  decide

/-- On `+x` the number rule fails after the sign and `incomplete number` is
thrown; on `+12` the outcome is the number leaf of `12`. -/
theorem sign_without_number_is_an_error_witness :
    rules.sor_value.match_ jaxn_model.rules (rules.unfold jaxn_model.rules 0)
        ⟨3, ['+', 'x']⟩ = .raise "incomplete number" ∧
      rules.sor_value.match_ jaxn_model.rules (rules.unfold jaxn_model.rules 0)
        ⟨3, ['+', '1', '2']⟩ =
          .ok [.mk (some (.number false)) 4 (some "12") []] ⟨6, []⟩ :=
  ⟨(sign_without_number_is_an_error jaxn_model.rules (rules.unfold jaxn_model.rules 0) 3
      '+' ['x'] (Or.inl rfl)).2.1 (Or.inr (by decide)),
    ((sign_without_number_is_an_error jaxn_model.rules (rules.unfold jaxn_model.rules 0) 3
      '+' ['1', '2'] (Or.inl rfl)).2.2.1 (by decide) (by decide)).trans (by decide)⟩

/-- C8 as stated fails: on the text `"a" $(f(x:1)) "b"` the value rule matches
a string node with ONE fragment and stops before the dollar sign, since a
concatenation needs the sign `+`; and with the sign in place, `$(f(x:1))` is a
parse error, since a function name is followed by white space, not by a
bracket. -/
theorem string_of_three_fragments_refuted :
    (rules.unfold jaxn_model.rules 3).value ⟨0, "\x22a\x22 $(f(x:1)) \x22b\x22".data⟩ =
        .ok [.mk (some .string) 0 none [.mk (some .jaxn_string_fragment) 0 (some "\x22a\x22") []]]
          ⟨4, "$(f(x:1)) \x22b\x22".data⟩ ∧
      ∃ what,
        (rules.unfold jaxn_model.rules 3).value ⟨0, "\x22a\x22 + $(f(x:1)) + \x22b\x22".data⟩ =
          .raise what :=
  ⟨by decide, "parse error matching one< 41 >", by decide⟩

/-- C8 (amended): the value text `"a" + $(f x:1) + "b"` parses as a single
string node with exactly three children in order: a literal string fragment,
an expression node holding a function node, and a literal string fragment. -/
theorem string_of_three_fragments :
    (rules.unfold jaxn_model.rules 3).value ⟨0, "\x22a\x22 + $(f x:1) + \x22b\x22".data⟩ =
      .ok [.mk (some .string) 0 none
          [.mk (some .jaxn_string_fragment) 0 (some "\x22a\x22") [],
           .mk (some .expression) 6 none
            [.mk (some .function) 8 none
              [.mk (some .identifier) 8 (some "f") [],
               .mk (some .function_param) 10 none
                [.mk (some .identifier) 10 (some "x") [],
                 .mk (some (.number false)) 12 (some "1") []]]],
           .mk (some .jaxn_string_fragment) 17 (some "\x22b\x22") []]]
        ⟨20, []⟩ := by
  decide

/-- C9 as stated fails: the leaves of the tree of `a:1` store `a` and `1`, which
make `a1`; the input `a:1` has no white space, and the colon is in no leaf. -/
theorem leaf_round_trip_refuted :
    parsed_leaf_text jaxn_model.rules 1 "a:1" = some "a1".data ∧
      strip_ws "a1".data ≠ strip_ws "a:1".data := by
  decide

theorem leaf_text_root (ns : List Node) : leaf_text (.mk none 0 none ns) = leaf_texts ns := by
  cases ns <;> simp [leaf_text, leaf_texts]

theorem parse_ok {jaxn : jaxn_rules} {depth : Nat} {text : String} {roots : List Node}
    {i' : Input} (h : parse jaxn depth text = .ok roots i') :
    ∃ ns, rules.grammar jaxn depth ⟨0, text.data⟩ = .ok ns i' ∧ roots = [.mk none 0 none ns] := by
  simp only [parse] at h
  cases hg : rules.grammar jaxn depth ⟨0, text.data⟩ with
  | ok ns i =>
    simp only [hg, Result.ok.injEq] at h
    exact ⟨ns, by rw [h.2], h.1.symm⟩
  | fail => simp [hg] at h
  | raise w => simp [hg] at h
  | diverge => simp [hg] at h
  | undefined => simp [hg] at h

/-! ### the whole input -/

theorem eof_of_nil {i : Input} (h : i.rest = []) : pegtl.eof i = .ok [] i := by
  simp [pegtl.eof, h]

theorem eof_of_ne_nil {i : Input} (h : i.rest ≠ []) : pegtl.eof i = .fail := by
  cases hr : i.rest with
  | nil => exact absurd hr h
  | cons c cs => simp [pegtl.eof, hr]

theorem until_loop_eof_ok {r : Parser} (n : Nat) :
    ∀ (i : Input) (ns : List Node) (i' : Input),
      pegtl.until_loop pegtl.eof r n i = .ok ns i' → i'.rest = [] := by
  induction n with
  | zero => intro i ns i' h; simp [pegtl.until_loop] at h
  | succ n ih =>
    intro i ns i' h
    simp only [pegtl.until_loop] at h
    by_cases he : i.rest = []
    · simp only [eof_of_nil he, Result.ok.injEq] at h
      obtain ⟨-, rfl⟩ := h
      exact he
    · simp only [eof_of_ne_nil he] at h
      cases h1 : r i with
      | ok ms j =>
        simp only [h1] at h
        split_ifs at h with hlt
        cases h2 : pegtl.until_loop pegtl.eof r n j with
        | ok ks j' =>
          simp only [h2, Result.ok.injEq] at h
          obtain ⟨-, rfl⟩ := h
          exact ih _ _ _ h2
        | fail => simp [h2] at h
        | raise w => simp [h2] at h
        | diverge => simp [h2] at h
        | undefined => simp [h2] at h
      | fail => simp [h1] at h
      | raise w => simp [h1] at h
      | diverge => simp [h1] at h
      | undefined => simp [h1] at h

namespace pegtl

theorem extends_refl (p : Parser) : p.extends_to p := fun _ _ => rfl

theorem seq_extends {p p' q q' : Parser} (hp : p.extends_to p') (hq : q.extends_to q') :
    (seq p q).extends_to (seq p' q') := by
  intro i h
  simp only [seq] at h ⊢
  cases h1 : p i with
  | ok ns j =>
    rw [hp i (by rw [h1]; simp), h1]
    simp only [h1] at h ⊢
    cases h2 : q j with
    | diverge => simp [h2] at h
    | undefined => rw [hq j (by rw [h2]; simp), h2]
    | ok ms k => rw [hq j (by rw [h2]; simp), h2]
    | fail => rw [hq j (by rw [h2]; simp), h2]
    | raise w => rw [hq j (by rw [h2]; simp), h2]
  | fail => rw [hp i (by rw [h1]; simp), h1]
  | raise w => rw [hp i (by rw [h1]; simp), h1]
  | diverge => simp [h1] at h
  | undefined => rw [hp i (by rw [h1]; simp), h1]

theorem sor_extends {p p' q q' : Parser} (hp : p.extends_to p') (hq : q.extends_to q') :
    (sor p q).extends_to (sor p' q') := by
  intro i h
  simp only [sor] at h ⊢
  cases h1 : p i with
  | ok ns j => rw [hp i (by rw [h1]; simp), h1]
  | fail =>
    rw [hp i (by rw [h1]; simp), h1]
    simp only [h1] at h ⊢
    exact hq i h
  | raise w => rw [hp i (by rw [h1]; simp), h1]
  | diverge => simp [h1] at h
  | undefined => rw [hp i (by rw [h1]; simp), h1]

theorem opt_extends {p p' : Parser} (hp : p.extends_to p') : (opt p).extends_to (opt p') := by
  intro i h
  simp only [opt] at h ⊢
  cases h1 : p i with
  | diverge => simp [h1] at h
  | undefined => rw [hp i (by rw [h1]; simp), h1]
  | ok ns j => rw [hp i (by rw [h1]; simp), h1]
  | fail => rw [hp i (by rw [h1]; simp), h1]
  | raise w => rw [hp i (by rw [h1]; simp), h1]

theorem must_extends {p p' : Parser} (what : String) (hp : p.extends_to p') :
    (must what p).extends_to (must what p') := by
  intro i h
  simp only [must] at h ⊢
  cases h1 : p i with
  | diverge => simp [h1] at h
  | undefined => rw [hp i (by rw [h1]; simp), h1]
  | ok ns j => rw [hp i (by rw [h1]; simp), h1]
  | fail => rw [hp i (by rw [h1]; simp), h1]
  | raise w => rw [hp i (by rw [h1]; simp), h1]

theorem node_extends {p p' : Parser} (r : Rule) (hp : p.extends_to p') :
    (node r p).extends_to (node r p') := by
  intro i h
  simp only [node] at h ⊢
  cases h1 : p i with
  | diverge => simp [h1] at h
  | undefined => rw [hp i (by rw [h1]; simp), h1]
  | ok ns j => rw [hp i (by rw [h1]; simp), h1]
  | fail => rw [hp i (by rw [h1]; simp), h1]
  | raise w => rw [hp i (by rw [h1]; simp), h1]

theorem star_loop_extends {p p' : Parser} (hp : p.extends_to p') (n : Nat) :
    ∀ i, star_loop p n i ≠ .diverge → star_loop p' n i = star_loop p n i := by
  induction n with
  | zero => intro i h; simp [star_loop] at h
  | succ n ih =>
    intro i h
    simp only [star_loop] at h ⊢
    cases h1 : p i with
    | diverge => simp [h1] at h
    | undefined => rw [hp i (by rw [h1]; simp), h1]
    | ok ns j =>
      rw [hp i (by rw [h1]; simp), h1]
      simp only [h1] at h ⊢
      split_ifs at h ⊢ with hlt
      · cases h2 : star_loop p n j with
        | diverge => simp [h2] at h
        | undefined => rw [ih j (by rw [h2]; simp), h2]
        | ok ms k => rw [ih j (by rw [h2]; simp), h2]
        | fail => rw [ih j (by rw [h2]; simp), h2]
        | raise w => rw [ih j (by rw [h2]; simp), h2]
      · exact absurd rfl h
    | fail => rw [hp i (by rw [h1]; simp), h1]
    | raise w => rw [hp i (by rw [h1]; simp), h1]

theorem star_extends {p p' : Parser} (hp : p.extends_to p') : (star p).extends_to (star p') :=
  fun i h => star_loop_extends hp _ i h

theorem until_loop_extends {c r r' : Parser} (hr : r.extends_to r') (n : Nat) :
    ∀ i, until_loop c r n i ≠ .diverge → until_loop c r' n i = until_loop c r n i := by
  induction n with
  | zero => intro i h; simp [until_loop] at h
  | succ n ih =>
    intro i h
    simp only [until_loop] at h ⊢
    cases h0 : c i with
    | fail =>
      simp only [h0] at h ⊢
      cases h1 : r i with
      | diverge => simp [h1] at h
      | undefined => rw [hr i (by rw [h1]; simp), h1]
      | ok ns j =>
        rw [hr i (by rw [h1]; simp), h1]
        simp only [h1] at h ⊢
        split_ifs at h ⊢ with hlt
        · cases h2 : until_loop c r n j with
          | diverge => simp [h2] at h
          | undefined => rw [ih j (by rw [h2]; simp), h2]
          | ok ms k => rw [ih j (by rw [h2]; simp), h2]
          | fail => rw [ih j (by rw [h2]; simp), h2]
          | raise w => rw [ih j (by rw [h2]; simp), h2]
        · exact absurd rfl h
      | fail => rw [hr i (by rw [h1]; simp), h1]
      | raise w => rw [hr i (by rw [h1]; simp), h1]
    | ok ns j => rfl
    | raise w => rfl
    | diverge => rfl
    | undefined => rfl

theorem until_extends {c r r' : Parser} (hr : r.extends_to r') :
    (until_ c r).extends_to (until_ c r') :=
  fun i h => until_loop_extends hr _ i h

theorem list_extends {r r' s : Parser} (hr : r.extends_to r') :
    (list r s).extends_to (list r' s) :=
  seq_extends hr (star_extends (seq_extends (extends_refl s) hr))

theorem list_must_extends {r r' s : Parser} (what : String) (hr : r.extends_to r') :
    (list_must what r s).extends_to (list_must what r' s) :=
  seq_extends hr (star_extends (seq_extends (extends_refl s) (must_extends what hr)))

theorem list_tail_extends {r r' s : Parser} (hr : r.extends_to r') :
    (list_tail r s).extends_to (list_tail r' s) :=
  seq_extends (list_extends hr) (extends_refl _)

end pegtl

namespace rules

open pegtl

section
variable {jaxn : jaxn_rules} {fwd fwd' : forward}

theorem function_param_extends (hf : fwd.extends_to fwd') :
    (function_param jaxn fwd).extends_to (function_param jaxn fwd') :=
  node_extends _ (seq_extends (extends_refl _)
    (seq_extends (extends_refl _) (must_extends _ hf.value)))

theorem function_extends (hf : fwd.extends_to fwd') :
    (function jaxn fwd).extends_to (function jaxn fwd') :=
  node_extends _ (seq_extends (extends_refl _) (seq_extends (extends_refl _)
    (list_extends (function_param_extends hf))))

theorem string_fragment_extends (hf : fwd.extends_to fwd') :
    (string_fragment jaxn fwd).extends_to (string_fragment jaxn fwd') :=
  sor_extends (extends_refl _) hf.expression

theorem string_extends (hf : fwd.extends_to fwd') :
    (string jaxn fwd).extends_to (string jaxn fwd') :=
  node_extends _ (list_must_extends _ (string_fragment_extends hf))

theorem binary_fragment_extends (hf : fwd.extends_to fwd') :
    (binary_fragment jaxn fwd).extends_to (binary_fragment jaxn fwd') :=
  sor_extends hf.expression (extends_refl _)

theorem binary_extends (hf : fwd.extends_to fwd') :
    (binary jaxn fwd).extends_to (binary jaxn fwd') :=
  node_extends _ (list_must_extends _ (binary_fragment_extends hf))

theorem element_extends (hf : fwd.extends_to fwd') : (element fwd).extends_to (element fwd') :=
  node_extends _ hf.value

theorem array_content_extends (hf : fwd.extends_to fwd') :
    (array_content jaxn fwd).extends_to (array_content jaxn fwd') :=
  opt_extends (list_tail_extends (element_extends hf))

theorem array_value_extends (hf : fwd.extends_to fwd') :
    (array_value jaxn fwd).extends_to (array_value jaxn fwd') :=
  seq_extends (extends_refl _) (seq_extends (array_content_extends hf) (extends_refl _))

theorem array_fragment_extends (hf : fwd.extends_to fwd') :
    (array_fragment jaxn fwd).extends_to (array_fragment jaxn fwd') :=
  sor_extends hf.expression (array_value_extends hf)

theorem array_extends (hf : fwd.extends_to fwd') :
    (array jaxn fwd).extends_to (array jaxn fwd') :=
  node_extends _ (list_must_extends _ (array_fragment_extends hf))

theorem member_extends (hf : fwd.extends_to fwd') :
    (member jaxn fwd).extends_to (member jaxn fwd') :=
  node_extends _ (seq_extends (extends_refl _)
    (seq_extends (extends_refl _) (must_extends _ hf.value)))

theorem object_content_extends (hf : fwd.extends_to fwd') :
    (object_content jaxn fwd).extends_to (object_content jaxn fwd') :=
  star_extends (seq_extends (member_extends hf) (extends_refl _))

theorem object_value_extends (hf : fwd.extends_to fwd') :
    (object_value jaxn fwd).extends_to (object_value jaxn fwd') :=
  seq_extends (extends_refl _) (seq_extends (object_content_extends hf) (extends_refl _))

theorem object_fragment_extends (hf : fwd.extends_to fwd') :
    (object_fragment jaxn fwd).extends_to (object_fragment jaxn fwd') :=
  sor_extends hf.expression (object_value_extends hf)

theorem object_extends (hf : fwd.extends_to fwd') :
    (object jaxn fwd).extends_to (object jaxn fwd') :=
  node_extends _ (list_must_extends _ (object_fragment_extends hf))

theorem rkey_part_extends (hf : fwd.extends_to fwd') :
    (rkey_part jaxn fwd).extends_to (rkey_part jaxn fwd') :=
  sor_extends (string_extends hf) (extends_refl _)

theorem rkey_extends (hf : fwd.extends_to fwd') : (rkey jaxn fwd).extends_to (rkey jaxn fwd') :=
  node_extends _ (list_extends (rkey_part_extends hf))

theorem expression_extends (hf : fwd.extends_to fwd') :
    (expression jaxn fwd).extends_to (expression jaxn fwd') :=
  node_extends _ (seq_extends (extends_refl _)
    (seq_extends (must_extends _ (sor_extends (function_extends hf) (rkey_extends hf)))
      (extends_refl _)))

theorem expression_list_extends (hf : fwd.extends_to fwd') :
    (expression_list jaxn fwd).extends_to (expression_list jaxn fwd') :=
  seq_extends hf.expression
    (star_extends (seq_extends (extends_refl _)
      (sor_extends hf.expression
        (must_extends _ (sor_extends (string_extends hf) (sor_extends (binary_extends hf)
          (sor_extends (object_extends hf) (array_extends hf))))))))

theorem match_impl_extends (hf : fwd.extends_to fwd') :
    (sor_value.match_impl jaxn fwd).extends_to (sor_value.match_impl jaxn fwd') := by
  intro i h
  unfold sor_value.match_impl at h ⊢
  cases hpk : i.peek_char 0 with
  | none => rfl
  | some c =>
    rw [hpk] at h
    simp only at h ⊢
    by_cases h0 : c = '{'
    · rw [if_pos h0] at h
      rw [if_pos h0, if_pos h0]
      exact object_extends hf i h
    rw [if_neg h0] at h
    rw [if_neg h0, if_neg h0]
    by_cases h1 : c = '['
    · rw [if_pos h1] at h
      rw [if_pos h1, if_pos h1]
      exact array_extends hf i h
    rw [if_neg h1] at h
    rw [if_neg h1, if_neg h1]
    by_cases h2 : c = 'n'
    · rw [if_pos h2, if_pos h2]
    rw [if_neg h2] at h
    rw [if_neg h2, if_neg h2]
    by_cases h3 : c = 't'
    · rw [if_pos h3, if_pos h3]
    rw [if_neg h3] at h
    rw [if_neg h3, if_neg h3]
    by_cases h4 : c = 'f'
    · rw [if_pos h4, if_pos h4]
    rw [if_neg h4] at h
    rw [if_neg h4, if_neg h4]
    by_cases h5 : c = Char.ofNat 34 ∨ c = Char.ofNat 39
    · rw [if_pos h5] at h
      rw [if_pos h5, if_pos h5]
      exact string_extends hf i h
    rw [if_neg h5] at h
    rw [if_neg h5, if_neg h5]
    by_cases h6 : c = '$'
    · rw [if_pos h6] at h
      rw [if_pos h6, if_pos h6]
      cases h7 : i.peek_char 1 with
      | none => rfl
      | some d =>
        rw [h7] at h
        simp only at h ⊢
        by_cases h8 : d = '('
        · rw [if_pos h8] at h
          rw [if_pos h8, if_pos h8]
          exact expression_list_extends hf i h
        · rw [if_neg h8] at h
          rw [if_neg h8, if_neg h8]
          exact binary_extends hf i h
    rw [if_neg h6] at h
    rw [if_neg h6, if_neg h6]

theorem match_extends (hf : fwd.extends_to fwd') :
    (sor_value.match_ jaxn fwd).extends_to (sor_value.match_ jaxn fwd') := by
  intro i h
  simp only [sor_value.match_] at h ⊢
  split_ifs at h ⊢
  · exact match_impl_extends hf i h
  · rfl

theorem value_extends (hf : fwd.extends_to fwd') :
    (value jaxn fwd).extends_to (value jaxn fwd') :=
  seq_extends (match_extends hf) (extends_refl _)

theorem unfold_extends (jaxn : jaxn_rules) (depth : Nat) :
    (unfold jaxn depth).extends_to (unfold jaxn (depth + 1)) := by
  induction depth with
  | zero => exact ⟨fun i h => absurd rfl h, fun i h => absurd rfl h⟩
  | succ d ih => exact ⟨value_extends ih, expression_extends ih⟩

theorem unfold_extends_le (jaxn : jaxn_rules) {d d' : Nat} (hle : d ≤ d') :
    (unfold jaxn d).extends_to (unfold jaxn d') := by
  induction hle with
  | refl => exact ⟨extends_refl _, extends_refl _⟩
  | step _ ih =>
    refine ⟨fun i h => ?_, fun i h => ?_⟩
    · rw [← ih.value i h]
      exact (unfold_extends jaxn _).value i (by rw [ih.value i h]; exact h)
    · rw [← ih.expression i h]
      exact (unfold_extends jaxn _).expression i (by rw [ih.expression i h]; exact h)

theorem statement_extends (hf : fwd.extends_to fwd') :
    (statement jaxn fwd).extends_to (statement jaxn fwd') :=
  sor_extends (node_extends _ (seq_extends (extends_refl _) (seq_extends (extends_refl _)
    (string_extends hf)))) (sor_extends (extends_refl _) (member_extends hf))

theorem grammar_extends (jaxn : jaxn_rules) {d d' : Nat} (hle : d ≤ d') :
    (grammar jaxn d).extends_to (grammar jaxn d') :=
  until_extends (sor_extends (extends_refl _)
    (must_extends _ (statement_extends (unfold_extends_le jaxn hle))))

end

end rules

/-- The depth is fuel only: when the parse returns with the recursion unfolded
`depth` times, it returns the same with every greater depth. -/
theorem parse_depth_irrelevant (jaxn : jaxn_rules) (text : String) (depth depth' : Nat)
    (hle : depth ≤ depth') (h : parse jaxn depth text ≠ .diverge) :
    parse jaxn depth' text = parse jaxn depth text := by
  have hg : rules.grammar jaxn depth ⟨0, text.data⟩ ≠ .diverge := by
    intro hd
    simp [parse, hd] at h
  simp only [parse, rules.grammar_extends jaxn hle _ hg]

/-! ### statements of one kind -/

/-- C12: the text `include "other.conf"` parses to a root whose only child is
an `include_file` node without content with one `string` child, and the text
`delete a.b` parses to a root whose only child is a `delete_keys` node without
content whose only child is a key path with the identifier leaves `a` and `b`
in that order. -/
theorem include_and_delete_shape :
    parse jaxn_model.rules 1 "include \x22other.conf\x22" =
        .ok [.mk none 0 none
          [.mk (some .include_file) 0 none
            [.mk (some .string) 8 none
              [.mk (some .jaxn_string_fragment) 8 (some "\x22other.conf\x22") []]]]]
          ⟨20, []⟩ ∧
      parse jaxn_model.rules 1 "delete a.b" =
        .ok [.mk none 0 none
          [.mk (some .delete_keys) 0 none
            [.mk (some .mkey) 7 none
              [.mk (some .identifier) 7 (some "a") [],
               .mk (some .identifier) 9 (some "b") []]]]]
          ⟨10, []⟩ := by
  decide

/-- C17: the text `a: $(b) + $(c)` is accepted by the grammar, its member
node has three children (the key path and the two expressions, as
`expression_list` has no node of its own), and `process` stops at the
assertion `n.children.size() == 2` of `add` on it. -/
theorem member_with_three_children :
    parse jaxn_model.rules 3 "a: $(b) + $(c)" =
        .ok [.mk none 0 none
          [.mk (some .member) 0 none
            [.mk (some .mkey) 0 none [.mk (some .identifier) 0 (some "a") []],
             .mk (some .expression) 3 none
              [.mk (some .rkey) 5 none [.mk (some .identifier) 5 (some "b") []]],
             .mk (some .expression) 10 none
              [.mk (some .rkey) 12 none [.mk (some .identifier) 12 (some "c") []]]]]]
          ⟨14, []⟩ ∧
      ∀ eager : Bool, process eager jaxn_model.get_string (.mk none 0 none
          [.mk (some .member) 0 none
            [.mk (some .mkey) 0 none [.mk (some .identifier) 0 (some "a") []],
             .mk (some .expression) 3 none
              [.mk (some .rkey) 5 none [.mk (some .identifier) 5 (some "b") []]],
             .mk (some .expression) 10 none
              [.mk (some .rkey) 12 none [.mk (some .identifier) 12 (some "c") []]]]]) =
        .error (.assertion "n.children.size() == 2") := by
  exact ⟨by decide, fun eager => rfl⟩

/-- C18: in the text `a: $` the value is matched where the dollar sign is
the last character: `sor_value::match` lets the input pass, the `$` case
compares `in.peek_char( 1 )` while only one character is left and offset 1 is
not inside the input, so the match, and with it the parse, reads outside the
input. -/
theorem lookahead_past_the_end :
    parse jaxn_model.rules 2 "a: $" = .undefined ∧
      rules.name_separator jaxn_model.rules ⟨1, [':', ' ', '$']⟩ = .ok [] ⟨3, ['$']⟩ ∧
      rules.sor_value.reads_second ⟨3, ['$']⟩ = true ∧
      (⟨3, ['$']⟩ : Input).rest.length = 1 ∧
      (⟨3, ['$']⟩ : Input).peek_char 1 = none ∧
      ∀ (jaxn : jaxn_rules) (fwd : rules.forward),
        rules.sor_value.match_ jaxn fwd ⟨3, ['$']⟩ = .undefined := by
  refine ⟨by decide, by decide, by decide, by decide, by decide, fun jaxn fwd => ?_⟩
  simp [rules.sor_value.match_, rules.sor_value.match_impl, Input.size, Input.peek_char]

/-! ### what process leaves behind -/

theorem drained_of_not_member (e : Node) (h : e.is .member = false) : drained e = e := by
  unfold drained
  split
  · simp [Node.is] at h
  · rfl

theorem member_entry_eq_some {gs : String → Option String} {e : Node} {p : pointer} {v : Node}
    (h : member_entry gs e = some (p, v)) :
    ∃ b c front, e = .mk (some .member) b c [front, v] ∧ key gs front = .ok p := by
  unfold member_entry at h
  split at h
  · rename_i b c front back
    cases hk : key gs front with
    | ok k =>
      simp only [hk, Option.some.injEq, Prod.mk.injEq] at h
      obtain ⟨rfl, rfl⟩ := h
      exact ⟨b, c, front, rfl, hk⟩
    | error x => simp [hk] at h
  · cases h

theorem drained_from_congr (eager : Bool) (gs : String → Option String) (l : List Node) :
    ∀ (s t : List pointer), (∀ x, x ∈ s ↔ x ∈ t) →
      drained_from eager gs s l = drained_from eager gs t l := by
  induction l with
  | nil => intro s t _; rfl
  | cons e es ih =>
    intro s t hst
    simp only [drained_from]
    cases hentry : member_entry gs e with
    | none => simp only [ih s t hst]
    | some kv =>
      obtain ⟨k, v⟩ := kv
      simp only
      rw [ih (k :: s) (k :: t) (fun x => by simp [hst x])]
      simp only [hst k]

theorem drained_from_append (eager : Bool) (gs : String → Option String) (pre post : List Node) :
    ∀ seen : List pointer,
      drained_from eager gs seen (pre ++ post) =
        drained_from eager gs seen pre ++
          drained_from eager gs ((member_entries gs pre).map Prod.fst ++ seen) post := by
  induction pre with
  | nil => intro seen; simp [drained_from, member_entries]
  | cons e es ih =>
    intro seen
    rw [List.cons_append]
    cases hentry : member_entry gs e with
    | none =>
      have hme : member_entries gs (e :: es) = member_entries gs es := by
        simp [member_entries, List.filterMap_cons, hentry]
      simp only [drained_from, hentry, hme]
      rw [ih seen, List.cons_append]
    | some kv =>
      obtain ⟨k, v⟩ := kv
      have hme : member_entries gs (e :: es) = (k, v) :: member_entries gs es := by
        simp [member_entries, List.filterMap_cons, hentry]
      simp only [drained_from, hentry, hme]
      rw [ih (k :: seen), List.cons_append]
      rw [drained_from_congr eager gs post
        ((member_entries gs es).map Prod.fst ++ k :: seen)
        (((k, v) :: member_entries gs es).map Prod.fst ++ seen)
        (fun x => by
          simp only [List.map_cons, List.mem_append, List.mem_cons]
          tauto)]

theorem drained_from_length (eager : Bool) (gs : String → Option String) (l : List Node) :
    ∀ seen : List pointer, (drained_from eager gs seen l).length = l.length := by
  induction l with
  | nil => intro seen; rfl
  | cons e es ih =>
    intro seen
    simp only [drained_from]
    cases hentry : member_entry gs e with
    | none => simp [ih seen]
    | some kv =>
      obtain ⟨k, v⟩ := kv
      simp [ih (k :: seen)]

theorem process_loop_drains (eager : Bool) (gs : String → Option String) (stmts : List Node) :
    ∀ (m m' : node_map) (stmts' : List Node) (seen : List pointer),
      process_loop eager gs m stmts = .ok (m', stmts') →
      (m.map Prod.fst).Pairwise (· < ·) → (∀ x, x ∈ seen ↔ x ∈ m.map Prod.fst) →
      stmts' = drained_from eager gs seen stmts := by
  induction stmts with
  | nil =>
    intro m m' stmts' seen h _ _
    simp only [process_loop, Except.ok.injEq, Prod.mk.injEq] at h
    simp [h.2.symm, drained_from]
  | cons e es ih =>
    intro m m' stmts' seen h hm hseen
    rcases process_loop_cons h with ⟨hmem, m1, e1, es', ha, hp, rfl⟩ | ⟨hmem, -, es', hp, rfl⟩
    · obtain ⟨id, b, c, front, back, k, rfl, hk, rfl, rfl⟩ := add_ok ha
      have hid : id = some .member := by simpa [Node.is] using hmem
      subst hid
      obtain ⟨hs1, hkeys⟩ := emplace_keys_sorted k back m hm
      have hentry : member_entry gs (.mk (some .member) b c [front, back]) = some (k, back) := by
        simp [member_entry, hk]
      have hfind : (find k m).isNone = decide (k ∉ seen) := by
        have h1 := find_eq_none_iff k m
        rw [← hseen k] at h1
        by_cases hin : k ∈ seen
        · have : find k m ≠ none := fun hn => (h1.1 hn) hin
          cases hf : find k m with
          | none => exact absurd hf this
          | some x => simp [hin]
        · rw [h1.2 hin]
          simp [hin]
      simp only [drained_from, hentry]
      rw [← ih _ _ _ (k :: seen) hp hs1 (fun x => by
        rw [hkeys x, List.mem_cons, hseen x])]
      rw [hfind]
      by_cases hc : (eager || decide (k ∉ seen)) = true
      · simp only [hc, if_true, drained]
      · simp only [hc]
        rfl
    · simp only [drained_from, member_entry_of_not_member gs e hmem]
      rw [← ih _ _ _ seen hp hm hseen]

/-- C16 (amended): when `process` returns, the root has the same statements,
as many and in the same order, each as `drained_from` leaves it: a node that
is not a member (so every `delete_keys` and `include_file` statement) is
unchanged; a member keeps its key-path child; a member whose key path no
earlier member resolves to has an empty handle in the place of its value; and
a member whose key path repeats an earlier one has an empty handle there when
`emplace` builds the entry before it looks the key up, and keeps its value
when `emplace` looks the key up first. -/
theorem process_drains_values (eager : Bool) (gs : String → Option String) (id : Option Rule)
    (b : Nat) (c : Option String) (stmts : List Node) (doc : node_map) (root' : Node)
    (h : process eager gs (.mk id b c stmts) = .ok (doc, root')) :
    root' = .mk id b c (drained_from eager gs [] stmts) ∧
      (drained_from eager gs [] stmts).length = stmts.length ∧
      (∀ pre e post, stmts = pre ++ e :: post →
        (drained_from eager gs [] stmts).get? pre.length =
          some (match member_entry gs e with
            | some (k, _) =>
              if eager || decide (k ∉ (member_entries gs pre).map Prod.fst) then drained e
              else e
            | none => e)) ∧
      (∀ e ∈ stmts, e.is .member = false → member_entry gs e = none) ∧
      (∀ e ∈ stmts, e.is .member = true →
        ∃ b' c' front back k, e = .mk (some .member) b' c' [front, back] ∧
          member_entry gs e = some (k, back) ∧
          drained e = .mk (some .member) b' c' [front, .null]) := by
  obtain ⟨stmts', hp, rfl⟩ := process_ok h
  have hd := process_loop_drains eager gs stmts [] doc stmts' [] hp (by simp) (by simp)
  refine ⟨by rw [hd], drained_from_length eager gs stmts [], ?_,
    fun e _ he => member_entry_of_not_member gs e he, ?_⟩
  · intro pre e post hsplit
    rw [hsplit, drained_from_append]
    have hlen := drained_from_length eager gs pre []
    rw [List.get?_eq_getElem?, List.getElem?_append_right (by omega), hlen, Nat.sub_self]
    simp only [drained_from, List.append_nil]
    cases hentry : member_entry gs e with
    | none => simp
    | some kv =>
      obtain ⟨k, v⟩ := kv
      simp
  · clear h hd
    revert doc stmts'
    generalize ([] : node_map) = m
    induction stmts generalizing m with
    | nil => intro doc stmts' _ e he; simp at he
    | cons e0 es ih =>
      intro doc stmts' hp e he hmem
      rcases process_loop_cons hp with ⟨hmem0, m1, e1, es', ha, hp', -⟩ | ⟨hmem0, -, es', hp', -⟩
      · rcases List.mem_cons.1 he with rfl | he'
        · obtain ⟨id, b', c', front, back, k, rfl, hk, -, -⟩ := add_ok ha
          have hid : id = some .member := by simpa [Node.is] using hmem0
          subst hid
          exact ⟨b', c', front, back, k, rfl, by simp [member_entry, hk], rfl⟩
        · exact ih m1 _ _ hp' e he' hmem
      · rcases List.mem_cons.1 he with rfl | he'
        · rw [hmem0] at hmem
          cases hmem
        · exact ih m _ _ hp' e he' hmem

/-- C16 as stated fails: on the tree of `a:1 a:2`, with an `emplace` that looks
the key up first, `process` returns and the second member still has the node
of `2` as its value. -/
theorem value_slot_emptied_refuted :
    parse jaxn_model.rules 1 "a:1 a:2" =
        .ok [.mk none 0 none
          [.mk (some .member) 0 none
            [.mk (some .mkey) 0 none [.mk (some .identifier) 0 (some "a") []],
             .mk (some (.number false)) 2 (some "1") []],
           .mk (some .member) 4 none
            [.mk (some .mkey) 4 none [.mk (some .identifier) 4 (some "a") []],
             .mk (some (.number false)) 6 (some "2") []]]] ⟨7, []⟩ ∧
      process false jaxn_model.get_string (.mk none 0 none
          [.mk (some .member) 0 none
            [.mk (some .mkey) 0 none [.mk (some .identifier) 0 (some "a") []],
             .mk (some (.number false)) 2 (some "1") []],
           .mk (some .member) 4 none
            [.mk (some .mkey) 4 none [.mk (some .identifier) 4 (some "a") []],
             .mk (some (.number false)) 6 (some "2") []]]) =
        .ok ([(⟨["a"]⟩, .mk (some (.number false)) 2 (some "1") [])],
          .mk none 0 none
            [.mk (some .member) 0 none
              [.mk (some .mkey) 0 none [.mk (some .identifier) 0 (some "a") []], .null],
             .mk (some .member) 4 none
              [.mk (some .mkey) 4 none [.mk (some .identifier) 4 (some "a") []],
               .mk (some (.number false)) 6 (some "2") []]]) := by
  decide

/-- The tree of `a:1 delete a a:2` with an `emplace` that looks the key up
first: the first member has lost its value, the `delete_keys` statement is as
it was, and the second member keeps its value. -/
theorem process_drains_values_witness :
    Node.mk none 0 none
        [.mk (some .member) 0 none
          [.mk (some .mkey) 0 none [.mk (some .identifier) 0 (some "a") []], .null],
         .mk (some .delete_keys) 4 none
          [.mk (some .mkey) 11 none [.mk (some .identifier) 11 (some "a") []]],
         .mk (some .member) 13 none
          [.mk (some .mkey) 13 none [.mk (some .identifier) 13 (some "a") []],
           .mk (some (.number false)) 15 (some "2") []]] =
      .mk none 0 none
        (drained_from false jaxn_model.get_string []
          [.mk (some .member) 0 none
            [.mk (some .mkey) 0 none [.mk (some .identifier) 0 (some "a") []],
             .mk (some (.number false)) 2 (some "1") []],
           .mk (some .delete_keys) 4 none
            [.mk (some .mkey) 11 none [.mk (some .identifier) 11 (some "a") []]],
           .mk (some .member) 13 none
            [.mk (some .mkey) 13 none [.mk (some .identifier) 13 (some "a") []],
             .mk (some (.number false)) 15 (some "2") []]]) :=
  (process_drains_values false jaxn_model.get_string none 0 none
    [.mk (some .member) 0 none
      [.mk (some .mkey) 0 none [.mk (some .identifier) 0 (some "a") []],
       .mk (some (.number false)) 2 (some "1") []],
     .mk (some .delete_keys) 4 none
      [.mk (some .mkey) 11 none [.mk (some .identifier) 11 (some "a") []]],
     .mk (some .member) 13 none
      [.mk (some .mkey) 13 none [.mk (some .identifier) 13 (some "a") []],
       .mk (some (.number false)) 15 (some "2") []]]
    [(⟨["a"]⟩, .mk (some (.number false)) 2 (some "1") [])]
    (.mk none 0 none
      [.mk (some .member) 0 none
        [.mk (some .mkey) 0 none [.mk (some .identifier) 0 (some "a") []], .null],
       .mk (some .delete_keys) 4 none
        [.mk (some .mkey) 11 none [.mk (some .identifier) 11 (some "a") []]],
       .mk (some .member) 13 none
        [.mk (some .mkey) 13 none [.mk (some .identifier) 13 (some "a") []],
         .mk (some (.number false)) 15 (some "2") []]])
    (by decide)).1

/-! ### the keys of the document -/

theorem mem_member_paths (gs : String → Option String) (stmts : List Node) (p : pointer) :
    p ∈ (member_entries gs stmts).map Prod.fst ↔
      ∃ b c front back, Node.mk (some .member) b c [front, back] ∈ stmts ∧
        key gs front = .ok p := by
  constructor
  · intro h
    obtain ⟨⟨q, v⟩, hmem, rfl⟩ := List.mem_map.1 h
    obtain ⟨e, he, hentry⟩ := List.mem_filterMap.1 hmem
    obtain ⟨b, c, front, rfl, hk⟩ := member_entry_eq_some hentry
    exact ⟨b, c, front, v, he, hk⟩
  · rintro ⟨b, c, front, back, he, hk⟩
    refine List.mem_map.2 ⟨(p, back), List.mem_filterMap.2 ⟨_, he, ?_⟩, rfl⟩
    simp only [member_entry]
    rw [hk]

theorem member_entries_length_le (gs : String → Option String) (stmts : List Node) :
    (member_entries gs stmts).length ≤ (stmts.filter fun e => e.is .member).length := by
  induction stmts with
  | nil => simp [member_entries]
  | cons e es ih =>
    cases he : member_entry gs e with
    | none =>
      have h1 : member_entries gs (e :: es) = member_entries gs es := by
        simp [member_entries, List.filterMap_cons, he]
      rw [h1]
      refine le_trans ih ?_
      rw [List.filter_cons]
      split_ifs
      · rw [List.length_cons]
        omega
      · exact le_refl _
    | some kv =>
      obtain ⟨p, v⟩ := kv
      obtain ⟨b, c, front, rfl, -⟩ := member_entry_eq_some he
      have h1 : member_entries gs (Node.mk (some .member) b c [front, v] :: es) =
          (p, v) :: member_entries gs es := by
        simp [member_entries, List.filterMap_cons, he]
      have h2 : (Node.mk (some .member) b c [front, v]).is .member = true := by simp [Node.is]
      rw [h1, List.filter_cons, if_pos h2, List.length_cons, List.length_cons]
      omega

/-- C19: when `process` returns, a key path is a key of the document iff it
is the resolved key path of a member statement of the list; the document has
as many entries as there are distinct resolved member paths, and no more than
there are member statements. -/
theorem document_key_set (eager : Bool) (gs : String → Option String) (id : Option Rule) (b : Nat)
    (c : Option String) (stmts : List Node) (doc : node_map) (root' : Node)
    (h : process eager gs (.mk id b c stmts) = .ok (doc, root')) :
    (∀ p, p ∈ doc.map Prod.fst ↔
        ∃ b' c' front back, Node.mk (some .member) b' c' [front, back] ∈ stmts ∧
          key gs front = .ok p) ∧
      doc.length = ((member_entries gs stmts).map Prod.fst).dedup.length ∧
      doc.length ≤ (stmts.filter fun e => e.is .member).length := by
  obtain ⟨stmts', hp, -⟩ := process_ok h
  obtain ⟨hs, hf⟩ := process_loop_spec eager gs _ _ _ _ hp (by simp)
  have hmem : ∀ p, p ∈ doc.map Prod.fst ↔ p ∈ (member_entries gs stmts).map Prod.fst := by
    intro p
    have h1 := find_eq_none_iff p doc
    have h2 := lookup_eq_none_iff_not_mem p (member_entries gs stmts)
    have h3 := hf p
    simp only [find, Option.orElse] at h3
    rw [h3] at h1
    rw [← not_iff_not, ← h1, ← h2]
  have hnd : (doc.map Prod.fst).Nodup := hs.imp (fun h => ne_of_lt h)
  have hperm : (doc.map Prod.fst).Perm ((member_entries gs stmts).map Prod.fst).dedup :=
    (List.perm_ext_iff_of_nodup hnd (List.nodup_dedup _)).2
      (fun p => by rw [hmem p, List.mem_dedup])
  have hlen : doc.length = ((member_entries gs stmts).map Prod.fst).dedup.length := by
    rw [← hperm.length_eq, List.length_map]
  refine ⟨fun p => (hmem p).trans (mem_member_paths gs stmts p), hlen, ?_⟩
  rw [hlen]
  calc ((member_entries gs stmts).map Prod.fst).dedup.length
      ≤ ((member_entries gs stmts).map Prod.fst).length := (List.dedup_sublist _).length_le
    _ = (member_entries gs stmts).length := List.length_map _ _
    _ ≤ _ := member_entries_length_le gs stmts

/-- Two members with the key `a` give a document with the one key `a`. -/
theorem document_key_set_witness :
    (∀ p, p ∈ [((⟨["a"]⟩ : pointer), Node.mk (some (.number false)) 2 (some "1") [])].map
          Prod.fst ↔
        ∃ b' c' front back, Node.mk (some .member) b' c' [front, back] ∈
            [Node.mk (some .member) 0 none
              [.mk (some .mkey) 0 none [.mk (some .identifier) 0 (some "a") []],
               .mk (some (.number false)) 2 (some "1") []],
             .mk (some .member) 4 none
              [.mk (some .mkey) 4 none [.mk (some .identifier) 4 (some "a") []],
               .mk (some (.number false)) 6 (some "2") []]] ∧
          key jaxn_model.get_string front = .ok p) ∧
      [((⟨["a"]⟩ : pointer), Node.mk (some (.number false)) 2 (some "1") [])].length =
        ((member_entries jaxn_model.get_string
          [Node.mk (some .member) 0 none
            [.mk (some .mkey) 0 none [.mk (some .identifier) 0 (some "a") []],
             .mk (some (.number false)) 2 (some "1") []],
           .mk (some .member) 4 none
            [.mk (some .mkey) 4 none [.mk (some .identifier) 4 (some "a") []],
             .mk (some (.number false)) 6 (some "2") []]]).map Prod.fst).dedup.length ∧
      [((⟨["a"]⟩ : pointer), Node.mk (some (.number false)) 2 (some "1") [])].length ≤
        ([Node.mk (some .member) 0 none
            [.mk (some .mkey) 0 none [.mk (some .identifier) 0 (some "a") []],
             .mk (some (.number false)) 2 (some "1") []],
           .mk (some .member) 4 none
            [.mk (some .mkey) 4 none [.mk (some .identifier) 4 (some "a") []],
             .mk (some (.number false)) 6 (some "2") []]].filter
          fun e => e.is .member).length :=
  document_key_set false jaxn_model.get_string none 0 none _ _
    (.mk none 0 none
      [.mk (some .member) 0 none
        [.mk (some .mkey) 0 none [.mk (some .identifier) 0 (some "a") []], .null],
       .mk (some .member) 4 none
        [.mk (some .mkey) 4 none [.mk (some .identifier) 4 (some "a") []],
         .mk (some (.number false)) 6 (some "2") []]])
    (by decide)

/-! ### identifiers -/

set_option maxRecDepth 100000 in
theorem identifier_char_eq_spec (c : Char) :
    rules.identifier_char c = spec_identifier_char c := by
  have hsmall : ∀ n : Fin 128,
      rules.identifier_char (Char.ofNat n.val) = spec_identifier_char (Char.ofNat n.val) := by
    decide
  by_cases hc : c.toNat < 128
  · have := hsmall ⟨c.toNat, hc⟩
    simpa [Char.ofNat_toNat] using this
  · have hset : ∀ d ∈ spec_identifier_set, d.toNat < 128 := by decide
    have h1 : spec_identifier_char c = false := by
      simp only [spec_identifier_char, decide_eq_false_iff_not]
      exact fun hmem => hc (hset c hmem)
    have h2 : rules.identifier_char c = false := by
      have e1 : c ≠ '-' := fun h => hc (by rw [h]; decide)
      have e2 : c ≠ '_' := fun h => hc (by rw [h]; decide)
      have e3 : c ≠ '$' := fun h => hc (by rw [h]; decide)
      have z : 'z'.toNat = 122 := rfl
      have Z : 'Z'.toNat = 90 := rfl
      have n9 : '9'.toNat = 57 := rfl
      simp only [rules.identifier_char, e1, e2, e3, decide_False, Bool.or_false, z, Z, n9,
        Bool.or_eq_false_iff, Bool.and_eq_false_iff, decide_eq_false_iff_not]
      omega
    rw [h1, h2]

theorem take_length_takeWhile (cls : Char → Bool) (cs : List Char) :
    cs.take (cs.takeWhile cls).length = cs.takeWhile cls := by
  induction cs with
  | nil => rfl
  | cons c cs ih =>
    by_cases h : cls c = true
    · simp [List.takeWhile_cons, h, ih]
    · simp [List.takeWhile_cons, h]

theorem pegtl.star_loop_ranges (cls : Char → Bool) (cs : List Char) :
    ∀ (pos n : Nat), cs.length < n →
      pegtl.star_loop (pegtl.ranges cls) n ⟨pos, cs⟩ =
        .ok [] ⟨pos + (cs.takeWhile cls).length, cs.dropWhile cls⟩ := by
  induction cs with
  | nil =>
    intro pos n hn
    obtain ⟨n, rfl⟩ : ∃ k, n = k + 1 := ⟨n - 1, by have := hn; simp at this; omega⟩
    simp [pegtl.star_loop, pegtl.ranges]
  | cons c cs ih =>
    intro pos n hn
    obtain ⟨n, rfl⟩ : ∃ k, n = k + 1 := ⟨n - 1, by have := hn; simp at this; omega⟩
    by_cases h : cls c = true
    · have hlen : cs.length < n := by simpa using hn
      simp only [pegtl.star_loop, pegtl.ranges, h, if_true, Input.bump, List.drop_one,
        List.tail_cons, List.length_cons, Nat.lt_add_one, List.nil_append]
      rw [ih _ _ hlen]
      simp only [List.takeWhile_cons, h, if_true, List.dropWhile_cons, List.length_cons,
        Result.ok.injEq, Input.mk.injEq, true_and, and_true]
      omega
    · simp [pegtl.star_loop, pegtl.ranges, h, List.takeWhile_cons, List.dropWhile_cons]

/-- The rule `identifier` on any input, by the longest piece of identifier
characters at its start. -/
theorem rules.identifier_eq (i : Input) :
    rules.identifier i =
      if i.rest.takeWhile rules.identifier_char = [] then .fail
      else .ok [.mk (some .identifier) i.pos
            (some (String.mk (i.rest.takeWhile rules.identifier_char))) []]
          ⟨i.pos + (i.rest.takeWhile rules.identifier_char).length,
            i.rest.dropWhile rules.identifier_char⟩ := by
  obtain ⟨pos, cs⟩ := i
  cases cs with
  | nil => simp [rules.identifier, node, pegtl.plus, pegtl.seq, pegtl.ranges]
  | cons c cs =>
    by_cases h : rules.identifier_char c = true
    · have hstar := pegtl.star_loop_ranges rules.identifier_char cs
        (pos + min 1 (cs.length + 1)) (cs.length + 1) (Nat.lt_succ_self _)
      have hmin : min 1 (cs.length + 1) = 1 := by omega
      rw [hmin] at hstar
      have htext : matched_text ⟨pos, c :: cs⟩
          ⟨pos + 1 + (cs.takeWhile rules.identifier_char).length,
            cs.dropWhile rules.identifier_char⟩ =
          String.mk (c :: cs.takeWhile rules.identifier_char) := by
        simp only [matched_text]
        have : pos + 1 + (cs.takeWhile rules.identifier_char).length - pos =
            (cs.takeWhile rules.identifier_char).length + 1 := by omega
        rw [this, List.take_succ_cons, take_length_takeWhile]
      simp only [rules.identifier, node, pegtl.plus, pegtl.seq, pegtl.ranges, h, if_true,
        pegtl.star, Input.bump, List.drop_one, List.tail_cons, List.length_cons, hmin, hstar,
        List.nil_append, Rule.stores_content, htext, List.takeWhile_cons, List.dropWhile_cons]
      simp
      omega
    · simp [rules.identifier, node, pegtl.plus, pegtl.seq, pegtl.ranges, h, List.takeWhile_cons]

/-- C15: on every input the rule `identifier` is decided by the longest piece
of characters of `[a-zA-Z0-9_$-]` at the start of the input: it fails when that piece is
empty, and otherwise it adds one identifier leaf whose content is exactly that
piece and goes on after it; so it matches iff the first character is in the
set. -/
theorem identifier_lexing (i : Input) :
    (rules.identifier i =
        if i.rest.takeWhile spec_identifier_char = [] then .fail
        else .ok [.mk (some .identifier) i.pos
              (some (String.mk (i.rest.takeWhile spec_identifier_char))) []]
            ⟨i.pos + (i.rest.takeWhile spec_identifier_char).length,
              i.rest.dropWhile spec_identifier_char⟩) ∧
      ((∃ ns i', rules.identifier i = .ok ns i') ↔
        ∃ c, i.rest.head? = some c ∧ c ∈ spec_identifier_set) := by
  have hfun : rules.identifier_char = spec_identifier_char := funext identifier_char_eq_spec
  have heq := rules.identifier_eq i
  rw [hfun] at heq
  refine ⟨heq, ?_⟩
  rw [heq]
  obtain ⟨pos, cs⟩ := i
  cases cs with
  | nil => simp
  | cons c cs =>
    by_cases h : c ∈ spec_identifier_set
    · simp [List.takeWhile_cons, spec_identifier_char, h]
    · simp [List.takeWhile_cons, spec_identifier_char, h]

/-! ### numbers with a sign -/

namespace pegtl

theorem seq_inv {p q : Parser} {i i' : Input} {ns : List Node} (h : seq p q i = .ok ns i') :
    ∃ ms j ks, p i = .ok ms j ∧ q j = .ok ks i' ∧ ns = ms ++ ks := by
  simp only [seq] at h
  cases h1 : p i with
  | ok ms j =>
    simp only [h1] at h
    cases h2 : q j with
    | ok ks j' =>
      simp only [h2, Result.ok.injEq] at h
      obtain ⟨rfl, rfl⟩ := h
      exact ⟨ms, j, ks, rfl, h2, rfl⟩
    | fail => simp [h2] at h
    | raise w => simp [h2] at h
    | diverge => simp [h2] at h
    | undefined => simp [h2] at h
  | fail => simp [h1] at h
  | raise w => simp [h1] at h
  | diverge => simp [h1] at h
  | undefined => simp [h1] at h

theorem sor_inv {p q : Parser} {i i' : Input} {ns : List Node} (h : sor p q i = .ok ns i') :
    p i = .ok ns i' ∨ (p i = .fail ∧ q i = .ok ns i') := by
  simp only [sor] at h
  cases h1 : p i with
  | ok ms j =>
    simp only [h1] at h
    exact Or.inl h
  | fail =>
    simp only [h1] at h
    exact Or.inr ⟨rfl, h⟩
  | raise w => simp [h1] at h
  | diverge => simp [h1] at h
  | undefined => simp [h1] at h

theorem must_inv {p : Parser} {what : String} {i i' : Input} {ns : List Node}
    (h : must what p i = .ok ns i') : p i = .ok ns i' := by
  simp only [must] at h
  cases h1 : p i with
  | ok ms j =>
    simp only [h1] at h
    exact h
  | fail => simp [h1] at h
  | raise w => simp [h1] at h
  | diverge => simp [h1] at h
  | undefined => simp [h1] at h

theorem lift_inv {m : Matcher} {i i' : Input} {ns : List Node} (h : lift m i = .ok ns i') :
    ns = [] := by
  simp only [lift] at h
  split at h <;> try cases h
  rfl

theorem one_inv {cs : List Char} {i i' : Input} {ns : List Node} (h : one cs i = .ok ns i') :
    ns = [] := by
  simp only [one] at h
  split at h
  · split at h <;> try cases h
    rfl
  · cases h

theorem chars_inv {cs : List Char} {i i' : Input} {ns : List Node}
    (h : pegtl.string cs i = .ok ns i') : ns = [] := by
  simp only [pegtl.string] at h
  split at h <;> try cases h
  rfl

theorem eof_inv {i i' : Input} {ns : List Node} (h : eof i = .ok ns i') : ns = [] := by
  simp only [eof] at h
  split at h <;> try cases h
  rfl

theorem lift_yields (P : Node → Prop) (m : Matcher) : (lift m).yields P := by
  intro i ns i' h n hn
  rw [lift_inv h] at hn
  cases hn

theorem one_yields (P : Node → Prop) (cs : List Char) : (one cs).yields P := by
  intro i ns i' h n hn
  rw [one_inv h] at hn
  cases hn

theorem chars_yields (P : Node → Prop) (cs : List Char) : (pegtl.string cs).yields P := by
  intro i ns i' h n hn
  rw [chars_inv h] at hn
  cases hn

theorem eof_yields (P : Node → Prop) : eof.yields P := by
  intro i ns i' h n hn
  rw [eof_inv h] at hn
  cases hn

theorem seq_yields {P : Node → Prop} {p q : Parser} (hp : p.yields P) (hq : q.yields P) :
    (seq p q).yields P := by
  intro i ns i' h n hn
  obtain ⟨ms, j, ks, h1, h2, rfl⟩ := seq_inv h
  rcases List.mem_append.1 hn with hm | hk
  · exact hp _ _ _ h1 n hm
  · exact hq _ _ _ h2 n hk

theorem sor_yields {P : Node → Prop} {p q : Parser} (hp : p.yields P) (hq : q.yields P) :
    (sor p q).yields P := by
  intro i ns i' h n hn
  rcases sor_inv h with h1 | ⟨-, h2⟩
  · exact hp _ _ _ h1 n hn
  · exact hq _ _ _ h2 n hn

theorem must_yields {P : Node → Prop} {p : Parser} (what : String) (hp : p.yields P) :
    (must what p).yields P :=
  fun _ _ _ h n hn => hp _ _ _ (must_inv h) n hn

theorem star_loop_yields {P : Node → Prop} {p : Parser} (hp : p.yields P) (n : Nat) :
    ∀ i ns i', star_loop p n i = .ok ns i' → ∀ k ∈ ns, P k := by
  induction n with
  | zero => intro _ _ _ h; simp [star_loop] at h
  | succ n ih =>
    intro i ns i' h
    simp only [star_loop] at h
    cases h1 : p i with
    | ok ms j =>
      simp only [h1] at h
      split_ifs at h with hlt
      cases h2 : star_loop p n j with
      | ok ks j' =>
        simp only [h2, Result.ok.injEq] at h
        obtain ⟨rfl, rfl⟩ := h
        intro k hk
        rcases List.mem_append.1 hk with hm | hk'
        · exact hp _ _ _ h1 k hm
        · exact ih _ _ _ h2 k hk'
      | fail => simp [h2] at h
      | raise w => simp [h2] at h
      | diverge => simp [h2] at h
      | undefined => simp [h2] at h
    | fail =>
      simp only [h1, Result.ok.injEq] at h
      obtain ⟨rfl, rfl⟩ := h
      intro k hk
      cases hk
    | raise w => simp [h1] at h
    | diverge => simp [h1] at h
    | undefined => simp [h1] at h

theorem star_yields {P : Node → Prop} {p : Parser} (hp : p.yields P) : (star p).yields P :=
  fun i ns i' h => star_loop_yields hp _ i ns i' h

theorem list_yields {P : Node → Prop} {r s : Parser} (hr : r.yields P) (hs : s.yields P) :
    (list r s).yields P :=
  seq_yields hr (star_yields (seq_yields hs hr))

theorem until_loop_yields {P : Node → Prop} {c r : Parser} (hc : c.yields P) (hr : r.yields P)
    (n : Nat) : ∀ i ns i', until_loop c r n i = .ok ns i' → ∀ k ∈ ns, P k := by
  induction n with
  | zero => intro _ _ _ h; simp [until_loop] at h
  | succ n ih =>
    intro i ns i' h
    simp only [until_loop] at h
    cases h0 : c i with
    | ok ms j =>
      simp only [h0, Result.ok.injEq] at h
      obtain ⟨rfl, rfl⟩ := h
      exact hc _ _ _ h0
    | fail =>
      simp only [h0] at h
      cases h1 : r i with
      | ok ms j =>
        simp only [h1] at h
        split_ifs at h with hlt
        cases h2 : until_loop c r n j with
        | ok ks j' =>
          simp only [h2, Result.ok.injEq] at h
          obtain ⟨rfl, rfl⟩ := h
          intro k hk
          rcases List.mem_append.1 hk with hm | hk'
          · exact hr _ _ _ h1 k hm
          · exact ih _ _ _ h2 k hk'
        | fail => simp [h2] at h
        | raise w => simp [h2] at h
        | diverge => simp [h2] at h
        | undefined => simp [h2] at h
      | fail => simp [h1] at h
      | raise w => simp [h1] at h
      | diverge => simp [h1] at h
      | undefined => simp [h1] at h
    | raise w => simp [h0] at h
    | diverge => simp [h0] at h
    | undefined => simp [h0] at h

theorem until_yields {P : Node → Prop} {c r : Parser} (hc : c.yields P) (hr : r.yields P) :
    (until_ c r).yields P :=
  fun i ns i' h => until_loop_yields hc hr _ i ns i' h

end pegtl

theorem node_inv {r : Rule} {p : Parser} {i i' : Input} {ns : List Node}
    (h : node r p i = .ok ns i') :
    ∃ cs, p i = .ok cs i' ∧
      ns = [.mk (some r) i.pos
        (if r.stores_content then some (matched_text i i') else none) cs] := by
  simp only [node] at h
  cases h1 : p i with
  | ok ms j =>
    simp only [h1, Result.ok.injEq] at h
    obtain ⟨rfl, rfl⟩ := h
    exact ⟨ms, rfl, rfl⟩
  | fail => simp [h1] at h
  | raise w => simp [h1] at h
  | diverge => simp [h1] at h
  | undefined => simp [h1] at h

namespace rules

open pegtl

theorem mkey_part_yields (jaxn : jaxn_rules) : (mkey_part jaxn).yields is_key_part := by
  intro i ns i' h n hn
  rcases sor_inv h with h1 | ⟨-, h2⟩
  · rw [identifier_eq] at h1
    split_ifs at h1
    simp only [Result.ok.injEq] at h1
    obtain ⟨rfl, -⟩ := h1
    rw [List.mem_singleton] at hn
    exact Or.inl ⟨_, _, hn⟩
  · obtain ⟨cs, -, rfl⟩ := node_inv h2
    rw [List.mem_singleton] at hn
    exact Or.inr ⟨_, _, cs, by rw [hn]; rfl⟩

theorem mkey_inv {jaxn : jaxn_rules} {i i' : Input} {ns : List Node}
    (h : mkey jaxn i = .ok ns i') : ∃ k, ns = [k] ∧ is_key_path k := by
  obtain ⟨cs, hcs, rfl⟩ := node_inv h
  refine ⟨_, rfl, _, _, cs, rfl, ?_⟩
  exact list_yields (mkey_part_yields jaxn) (one_yields _ _) _ _ _ hcs

theorem member_inv {jaxn : jaxn_rules} {fwd : forward} {i i' : Input} {ns : List Node}
    (h : member jaxn fwd i = .ok ns i') :
    ∃ front rest, ns = [.mk (some .member) i.pos none (front :: rest)] ∧ is_key_path front := by
  obtain ⟨cs, hcs, rfl⟩ := node_inv h
  obtain ⟨ms, j, ks, h1, -, rfl⟩ := seq_inv hcs
  obtain ⟨k, rfl, hk⟩ := mkey_inv h1
  exact ⟨k, ks, rfl, hk⟩

theorem member_yields (jaxn : jaxn_rules) (fwd : forward) :
    (member jaxn fwd).yields is_statement := by
  intro i ns i' h n hn
  obtain ⟨front, rest, rfl, hk⟩ := member_inv h
  rw [List.mem_singleton] at hn
  exact Or.inr (Or.inr ⟨_, _, front, rest, hn, hk⟩)

theorem include_file_yields (jaxn : jaxn_rules) (fwd : forward) :
    (include_file jaxn fwd).yields is_statement := by
  intro i ns i' h n hn
  obtain ⟨cs, -, rfl⟩ := node_inv h
  rw [List.mem_singleton] at hn
  exact Or.inr (Or.inl (by rw [hn]; rfl))

theorem delete_keys_yields (jaxn : jaxn_rules) : (delete_keys jaxn).yields is_statement := by
  intro i ns i' h n hn
  obtain ⟨cs, -, rfl⟩ := node_inv h
  rw [List.mem_singleton] at hn
  exact Or.inl (by rw [hn]; rfl)

theorem statement_yields (jaxn : jaxn_rules) (fwd : forward) :
    (statement jaxn fwd).yields is_statement :=
  sor_yields (include_file_yields jaxn fwd)
    (sor_yields (delete_keys_yields jaxn) (member_yields jaxn fwd))

theorem grammar_yields (jaxn : jaxn_rules) (depth : Nat) :
    (grammar jaxn depth).yields is_statement :=
  until_yields (eof_yields _)
    (sor_yields (lift_yields _ _) (must_yields _ (statement_yields jaxn _)))

end rules

/-! ### the errors of the reducer that are never reached -/

theorem key_loop_no_logic_error (gs : String → Option String) (cs : List Node) :
    (∀ k ∈ cs, is_key_part k) →
      ∀ (r : pointer) (what : String), key_loop gs r cs ≠ .error (.logic_error what) := by
  induction cs with
  | nil => intro _ r what h; simp [key_loop] at h
  | cons k ks ih =>
    intro hall r what
    have hks : ∀ k ∈ ks, is_key_part k := fun x hx => hall x (List.mem_cons_of_mem _ hx)
    rcases hall k (List.mem_cons_self _ _) with ⟨b, s, rfl⟩ | ⟨b, s, cs', rfl⟩
    · simp only [key_loop, if_true]
      exact ih hks _ what
    · have hne : (some Rule.jaxn_string) ≠ some Rule.identifier := by decide
      simp only [key_loop, if_neg hne, if_true]
      cases hg : gs s with
      | some t => exact ih hks _ what
      | none => simp
 
theorem key_no_logic_error (gs : String → Option String) (front : Node)
    (h : is_key_path front) (what : String) : key gs front ≠ .error (.logic_error what) := by
  obtain ⟨b, c, cs, rfl, hcs⟩ := h
  exact key_loop_no_logic_error gs cs hcs _ what

theorem process_loop_no_logic_error (eager : Bool) (gs : String → Option String) (stmts : List Node) :
    (∀ e ∈ stmts, is_statement e) →
      ∀ (m : node_map) (what : String),
        process_loop eager gs m stmts ≠ .error (.logic_error what) := by
  induction stmts with
  | nil => intro _ m what h; simp [process_loop] at h
  | cons e es ih =>
    intro hall m what
    have hes : ∀ e ∈ es, is_statement e := fun x hx => hall x (List.mem_cons_of_mem _ hx)
    have hrec : ∀ (m1 : node_map) (f : node_map × List Node → node_map × List Node),
        (match process_loop eager gs m1 es with
          | .ok (r, es') => (.ok (f (r, es')) : Except Failure (node_map × List Node))
          | .error x => .error x) ≠ .error (.logic_error what) := by
      intro m1 f
      cases hp : process_loop eager gs m1 es with
      | ok v => obtain ⟨r, es'⟩ := v; simp
      | error x =>
        intro hx
        simp only [Except.error.injEq] at hx
        exact ih hes m1 what (by rw [hp, hx])
    rcases hall e (List.mem_cons_self _ _) with hd | hi | ⟨b, c, front, rest, rfl, hfront⟩
    · cases e with
      | null => simp [Node.is] at hd
      | mk id b c cs =>
        have hid : id = some .delete_keys := by simpa [Node.is] using hd
        subst hid
        simp only [process_loop, Node.is]
        rw [if_neg (fun h => Node.noConfusion h), if_neg (by decide), if_pos (by decide)]
        exact hrec m (fun v => (v.1, _ :: v.2))
    · cases e with
      | null => simp [Node.is] at hi
      | mk id b c cs =>
        have hid : id = some .include_file := by simpa [Node.is] using hi
        subst hid
        simp only [process_loop, Node.is]
        rw [if_neg (fun h => Node.noConfusion h), if_neg (by decide), if_neg (by decide),
          if_pos (by decide)]
        exact hrec m (fun v => (v.1, _ :: v.2))
    · simp only [process_loop, Node.is, beq_self_eq_true, if_true]
      cases ha : add eager gs m (.mk (some .member) b c (front :: rest)) with
      | ok v =>
        obtain ⟨m1, e1⟩ := v
        rw [if_neg (fun h => Node.noConfusion h)]
        exact hrec m1 (fun v => (v.1, e1 :: v.2))
      | error x =>
        rw [if_neg (fun h => Node.noConfusion h)]
        simp only [ne_eq, Except.error.injEq]
        rintro rfl
        have hk := key_no_logic_error gs front hfront what
        cases rest with
        | nil => simp [add] at ha
        | cons back rest' =>
          cases rest' with
          | nil =>
            simp only [add] at ha
            cases hkey : key gs front with
            | ok k => simp [hkey] at ha
            | error y =>
              rw [hkey] at ha
              simp only [Except.error.injEq] at ha
              exact hk (by rw [hkey, ha])
          | cons _ _ => simp [add] at ha

/-- C13: after a successful parse every child of the root is a `member`, a
`delete_keys` or an `include_file` node, the first child of every member is a
key path whose children are identifier leaves or quoted-string nodes with a
content, and so neither `process` on the root nor `key` on such a key path
ends in the logic error `code should be unreachable`. -/
theorem logic_errors_are_unreachable (eager : Bool) (jaxn : jaxn_rules)
    (gs : String → Option String) (depth : Nat) (text : String) (root : Node) (i' : Input)
    (h : parse jaxn depth text = .ok [root] i') :
    (∀ e ∈ root.children, is_statement e) ∧
      (∀ what, process eager gs root ≠ .error (.logic_error what)) ∧
      (∀ e ∈ root.children, e.is .member = true →
        ∃ front, e.children.head? = some front ∧ is_key_path front ∧
          ∀ what, key gs front ≠ .error (.logic_error what)) := by
  obtain ⟨ns, hg, hroot⟩ := parse_ok h
  simp only [List.cons.injEq, and_true] at hroot
  subst hroot
  have hall : ∀ e ∈ ns, is_statement e := rules.grammar_yields jaxn depth _ _ _ hg
  refine ⟨hall, ?_, ?_⟩
  · intro what hp
    simp only [process] at hp
    cases hl : process_loop eager gs [] ns with
    | ok v =>
      obtain ⟨r, cs⟩ := v
      simp [hl] at hp
    | error x =>
      rw [hl] at hp
      simp only [Except.error.injEq] at hp
      exact process_loop_no_logic_error eager gs ns hall [] what (by rw [hl, hp])
  · intro e he hmem
    rcases hall e he with hd | hi | ⟨b, c, front, rest, rfl, hfront⟩
    · cases e with
      | null => simp [Node.is] at hd
      | mk id b c cs =>
        simp only [Node.is, beq_iff_eq] at hd hmem
        rw [hd] at hmem
        cases hmem
    · cases e with
      | null => simp [Node.is] at hi
      | mk id b c cs =>
        simp only [Node.is, beq_iff_eq] at hi hmem
        rw [hi] at hmem
        cases hmem
    · exact ⟨front, rfl, hfront, key_no_logic_error gs front hfront⟩

/-- The tree of `delete b a: 1` has a `delete_keys` and a `member` statement,
and neither `process` nor `key` ends in the logic error on it. -/
theorem logic_errors_are_unreachable_witness :
    (∀ e ∈ (Node.mk none 0 none
          [.mk (some .delete_keys) 0 none
            [.mk (some .mkey) 7 none [.mk (some .identifier) 7 (some "b") []]],
           .mk (some .member) 9 none
            [.mk (some .mkey) 9 none [.mk (some .identifier) 9 (some "a") []],
             .mk (some (.number false)) 12 (some "1") []]]).children, is_statement e) ∧
      (∀ what, process false jaxn_model.get_string (Node.mk none 0 none
          [.mk (some .delete_keys) 0 none
            [.mk (some .mkey) 7 none [.mk (some .identifier) 7 (some "b") []]],
           .mk (some .member) 9 none
            [.mk (some .mkey) 9 none [.mk (some .identifier) 9 (some "a") []],
             .mk (some (.number false)) 12 (some "1") []]]) ≠ .error (.logic_error what)) ∧
      (∀ e ∈ (Node.mk none 0 none
          [.mk (some .delete_keys) 0 none
            [.mk (some .mkey) 7 none [.mk (some .identifier) 7 (some "b") []]],
           .mk (some .member) 9 none
            [.mk (some .mkey) 9 none [.mk (some .identifier) 9 (some "a") []],
             .mk (some (.number false)) 12 (some "1") []]]).children, e.is .member = true →
        ∃ front, e.children.head? = some front ∧ is_key_path front ∧
          ∀ what, key jaxn_model.get_string front ≠ .error (.logic_error what)) :=
  logic_errors_are_unreachable false jaxn_model.rules jaxn_model.get_string 2 "delete b a: 1" _
    ⟨13, []⟩ (by decide)

/-! ### keywords as keys -/

namespace pegtl

theorem star_loop_fuel (p : Parser) (n : Nat) :
    ∀ (m : Nat) (i : Input), i.rest.length < n → i.rest.length < m →
      star_loop p n i = star_loop p m i := by
  induction n with
  | zero => intro m i hn; omega
  | succ n ih =>
    intro m i hn hm
    obtain ⟨m, rfl⟩ : ∃ k, m = k + 1 := ⟨m - 1, by omega⟩
    simp only [star_loop]
    cases h1 : p i with
    | ok ms j =>
      simp only
      by_cases hlt : j.rest.length < i.rest.length
      · rw [if_pos hlt, if_pos hlt, ih m j (by omega) (by omega)]
      · rw [if_neg hlt, if_neg hlt]
    | fail => rfl
    | raise w => rfl
    | diverge => rfl
    | undefined => rfl

theorem plus_eq_star {p : Parser} {i j : Input} {ms : List Node} (h1 : p i = .ok ms j)
    (hlt : j.rest.length < i.rest.length) : plus p i = star p i := by
  simp only [plus, seq, h1, star]
  rw [star_loop_fuel p (j.rest.length + 1) i.rest.length j (Nat.lt_succ_self _) hlt]
  conv_rhs => rw [star_loop]
  simp only [h1, if_pos hlt]

theorem star_no_nodes {m : Matcher} {i j : Input} {ms : List Node}
    (h : star (lift m) i = .ok ms j) : ms = [] := by
  have hy := star_yields (lift_yields (fun _ => False) m) _ _ _ h
  cases ms with
  | nil => rfl
  | cons k ks => exact (hy k (List.mem_cons_self _ _)).elim

theorem chars_append (cs t : List Char) (pos : Nat) :
    pegtl.string cs ⟨pos, cs ++ t⟩ = .ok [] ⟨pos + cs.length, t⟩ := by
  have hp : cs.isPrefixOf (cs ++ t) = true := by
    induction cs with
    | nil => simp [List.isPrefixOf]
    | cons c cs ih => simp [List.isPrefixOf, ih]
  simp [pegtl.string, hp, Input.bump]

end pegtl

namespace rules

open pegtl

/-- When white space is followed by something that fails, `rws` and that
in a row fail as well. -/
theorem seq_rws_fail (jaxn : jaxn_rules) (q : Parser) (i0 j : Input) (ms : List Node)
    (hstar : pegtl.star (lift jaxn.ws) i0 = .ok ms j) (hq : q j = .fail) :
    seq (rws jaxn) q i0 = .fail := by
  cases h1 : lift jaxn.ws i0 with
  | ok ns k =>
    by_cases hlt : k.rest.length < i0.rest.length
    · have : rws jaxn i0 = .ok ms j := by
        rw [rws, plus_eq_star h1 hlt, hstar]
      simp only [seq, this, hq]
    · simp [pegtl.star, star_loop, h1, hlt] at hstar
  | fail => simp [seq, rws, plus, h1]
  | raise w => simp [pegtl.star, star_loop, h1] at hstar
  | diverge => simp [pegtl.star, star_loop, h1] at hstar
  | undefined => simp [pegtl.star, star_loop, h1] at hstar

/-- What comes before a character that is not white space: the character
itself, or white space. -/
theorem star_ws_head (jaxn : jaxn_rules) (p : Nat) (t : List Char) (j : Input)
    (ms : List Node) (sep : Char) (r : List Char)
    (hstar : pegtl.star (lift jaxn.ws) ⟨p, t⟩ = .ok ms j) (hj : j.rest = sep :: r) :
    ∃ c cs, t = c :: cs ∧ (c = sep ∨ ∃ n, jaxn.ws (c :: cs) = .ok n) := by
  cases t with
  | nil =>
    cases h1 : jaxn.ws [] with
    | ok n => simp [pegtl.star, star_loop, lift, h1, Input.bump] at hstar
    | fail =>
      simp only [pegtl.star, star_loop, lift, h1, Result.ok.injEq] at hstar
      rw [← hstar.2] at hj
      cases hj
    | raise w => simp [pegtl.star, star_loop, lift, h1] at hstar
  | cons c cs =>
    refine ⟨c, cs, rfl, ?_⟩
    cases h1 : jaxn.ws (c :: cs) with
    | ok n => exact Or.inr ⟨n, rfl⟩
    | fail =>
      simp only [pegtl.star, star_loop, lift, h1, Result.ok.injEq] at hstar
      rw [← hstar.2] at hj
      simp only [List.cons.injEq] at hj
      exact Or.inl hj.1
    | raise w => simp [pegtl.star, star_loop, lift, h1] at hstar

theorem name_separator_inv {jaxn : jaxn_rules} {i0 i1 : Input} {ns : List Node}
    (h : name_separator jaxn i0 = .ok ns i1) :
    ns = [] ∧ ∃ j sep r, pegtl.star (lift jaxn.ws) i0 = .ok [] j ∧ j.rest = sep :: r ∧
      (sep = ':' ∨ sep = '=') := by
  obtain ⟨ms, j, ks, h1, h2, rfl⟩ := seq_inv h
  obtain ⟨os, j2, ps, h3, h4, rfl⟩ := seq_inv h2
  have e1 := star_no_nodes h1
  have e2 := one_inv h3
  have e3 := star_no_nodes h4
  subst e1 e2 e3
  refine ⟨rfl, j, ?_⟩
  simp only [one] at h3
  split at h3
  · rename_i c rest hc
    split at h3
    · rename_i hmem
      refine ⟨c, rest, h1, hc, ?_⟩
      simpa using hmem
    · cases h3
  · cases h3

theorem takeWhile_append_stop (cls : Char → Bool) (k : List Char) (c : Char) (cs : List Char)
    (hk : k.all cls = true) (hc : cls c = false) :
    (k ++ c :: cs).takeWhile cls = k ∧ (k ++ c :: cs).dropWhile cls = c :: cs := by
  induction k with
  | nil => simp [List.takeWhile_cons, List.dropWhile_cons, hc]
  | cons a k ih =>
    simp only [List.all_cons, Bool.and_eq_true] at hk
    obtain ⟨h1, h2⟩ := ih hk.2
    simp [List.takeWhile_cons, List.dropWhile_cons, hk.1, h1, h2]

theorem identifier_fail_of_head (i : Input) (c : Char) (cs : List Char) (hi : i.rest = c :: cs)
    (hc : identifier_char c = false) : identifier i = .fail := by
  rw [identifier_eq, hi]
  simp [List.takeWhile_cons, hc]

theorem expression_fail_of_head (jaxn : jaxn_rules) (fwd : forward) (i : Input) (c : Char)
    (cs : List Char) (hi : i.rest = c :: cs) (hc : c ≠ '$') : expression jaxn fwd i = .fail := by
  simp [expression, node, seq, pegtl.string, hi, List.isPrefixOf, Ne.symm hc]

/-- The key path of one identifier. -/
theorem mkey_of_identifier (jaxn : jaxn_rules) (pos : Nat) (k : List Char) (c : Char)
    (cs : List Char) (hk : k.all identifier_char = true) (hne : k ≠ [])
    (hc : identifier_char c = false) (hdot : c ≠ '.') :
    mkey jaxn ⟨pos, k ++ c :: cs⟩ =
      .ok [.mk (some .mkey) pos none [.mk (some .identifier) pos (some (String.mk k)) []]]
        ⟨pos + k.length, c :: cs⟩ := by
  obtain ⟨h1, h2⟩ := takeWhile_append_stop identifier_char k c cs hk hc
  have hid : identifier ⟨pos, k ++ c :: cs⟩ =
      .ok [.mk (some .identifier) pos (some (String.mk k)) []] ⟨pos + k.length, c :: cs⟩ := by
    rw [identifier_eq]
    simp only [h1, h2, if_neg hne]
  have hstar : pegtl.star (seq (one ['.']) (mkey_part jaxn)) ⟨pos + k.length, c :: cs⟩ =
      .ok [] ⟨pos + k.length, c :: cs⟩ := by
    simp [pegtl.star, star_loop, seq, one, hdot]
  have hpart : mkey_part jaxn ⟨pos, k ++ c :: cs⟩ =
      .ok [.mk (some .identifier) pos (some (String.mk k)) []] ⟨pos + k.length, c :: cs⟩ := by
    simp only [mkey_part, sor, hid]
  simp only [mkey, node, list, seq, hpart, hstar, Rule.stores_content]
  simp

end rules

theorem jaxn_model.ws_not_identifier (c : Char) (cs : List Char) (n : Nat)
    (h : jaxn_model.rules.ws (c :: cs) = .ok n) : rules.identifier_char c = false ∧ c ≠ '.' := by
  have hw : jaxn_model.is_ws c = true := by
    by_cases hw : jaxn_model.is_ws c = true
    · exact hw
    · simp [jaxn_model.rules, jaxn_model.ws, hw] at h
  simp only [jaxn_model.is_ws, Bool.or_eq_true, decide_eq_true_eq] at hw
  rcases hw with ((rfl | rfl) | rfl) | rfl <;> exact ⟨by decide, by decide⟩

theorem jaxn_model.string_fails_at_separator (p : Nat) (c : Char) (cs : List Char)
    (h : c = ':' ∨ c = '=') :
    jaxn_model.rules.string ⟨p, c :: cs⟩ = .fail ∧
      jaxn_model.rules.string_fragment (c :: cs) = .fail := by
  have hf : jaxn_model.string_fragment (c :: cs) = .fail := by
    rcases h with rfl | rfl <;> simp [jaxn_model.string_fragment]
  exact ⟨by simp [jaxn_model.rules, pegtl.list_must, pegtl.seq, node, pegtl.lift, hf], hf⟩

/-- C11: keywords are not reserved as keys.  At a statement that starts with
`include` or `delete` with a name separator and a value right after the
keyword, `include_file` and `delete_keys` fail and `statement` falls back to
`member`: it adds one member node whose first child is a key path with the
keyword as its only identifier, and that key path resolves to the one segment
`include` (or `delete`).  Taken for granted of the JAXN rules: white space
starts with neither an identifier character nor a point, and neither a quoted
string nor a string fragment starts with a colon or an equals sign. -/
theorem keywords_are_not_reserved (jaxn : jaxn_rules) (depth : Nat) (kw : String)
    (pos : Nat) (t : List Char) (seps vs : List Node) (i1 i2 : Input)
    (hkw : kw = "include" ∨ kw = "delete")
    (hws : ∀ c cs n, jaxn.ws (c :: cs) = .ok n → rules.identifier_char c = false ∧ c ≠ '.')
    (hstr : ∀ p c cs, c = ':' ∨ c = '=' →
      jaxn.string ⟨p, c :: cs⟩ = .fail ∧ jaxn.string_fragment (c :: cs) = .fail)
    (hsep : rules.name_separator jaxn ⟨pos + kw.length, t⟩ = .ok seps i1)
    (hval : (rules.unfold jaxn (depth + 1)).value i1 = .ok vs i2) :
    rules.statement jaxn (rules.unfold jaxn (depth + 1)) ⟨pos, kw.data ++ t⟩ =
        .ok [.mk (some .member) pos none
          (.mk (some .mkey) pos none [.mk (some .identifier) pos (some kw) []] :: vs)] i2 ∧
      ∀ gs, key gs (.mk (some .mkey) pos none [.mk (some .identifier) pos (some kw) []]) =
        .ok ⟨[kw]⟩ := by
  refine ⟨?_, fun gs => by simp [key, key_loop, pointer.push_back]⟩
  obtain ⟨rfl, j, sep, r, hstar, hj, hsepc⟩ := rules.name_separator_inv hsep
  obtain ⟨c, cs, rfl, hc⟩ := rules.star_ws_head jaxn _ _ _ _ sep r hstar hj
  have hsep_id : rules.identifier_char sep = false := by
    rcases hsepc with rfl | rfl <;> decide
  have hsep_dot : sep ≠ '.' := by
    rcases hsepc with rfl | rfl <;> decide
  have hsep_dollar : sep ≠ '$' := by
    rcases hsepc with rfl | rfl <;> decide
  have hcid : rules.identifier_char c = false ∧ c ≠ '.' := by
    rcases hc with rfl | ⟨n, hn⟩
    · exact ⟨hsep_id, hsep_dot⟩
    · exact hws c cs n hn
  have hkall : kw.data.all rules.identifier_char = true ∧ kw.data ≠ [] := by
    rcases hkw with rfl | rfl <;> exact ⟨by decide, by decide⟩
  have hmkey := rules.mkey_of_identifier jaxn pos kw.data c cs hkall.1 hkall.2 hcid.1 hcid.2
  have hlen : kw.data.length = kw.length := rfl
  have hmk : String.mk kw.data = kw := rfl
  rw [hlen, hmk] at hmkey
  have hmember : rules.member jaxn (rules.unfold jaxn (depth + 1)) ⟨pos, kw.data ++ c :: cs⟩ =
      .ok [.mk (some .member) pos none
        (.mk (some .mkey) pos none [.mk (some .identifier) pos (some kw) []] :: vs)] i2 := by
    simp only [rules.member, node, pegtl.seq, pegtl.must, hmkey, hsep, hval,
      Rule.stores_content]
    simp
  obtain ⟨jp, jr⟩ := j
  simp only at hj
  subst hj
  have hstring : rules.string jaxn (rules.unfold jaxn (depth + 1)) ⟨jp, sep :: r⟩ = .fail := by
    have he := rules.expression_fail_of_head jaxn (rules.unfold jaxn depth) ⟨jp, sep :: r⟩
      sep r rfl hsep_dollar
    simp only [rules.string, node, pegtl.list_must, pegtl.seq, rules.string_fragment, pegtl.sor,
      pegtl.lift, (hstr jp sep r hsepc).2, rules.unfold, he]
  have hmkeyfail : rules.mkey jaxn ⟨jp, sep :: r⟩ = .fail := by
    have hi := rules.identifier_fail_of_head ⟨jp, sep :: r⟩ sep r rfl hsep_id
    simp only [rules.mkey, node, pegtl.list, pegtl.seq, rules.mkey_part, pegtl.sor, hi,
      (hstr jp sep r hsepc).1]
  have hk := pegtl.chars_append kw.data (c :: cs) pos
  rw [hlen] at hk
  have hinc : rules.include_file jaxn (rules.unfold jaxn (depth + 1))
      ⟨pos, kw.data ++ c :: cs⟩ = .fail := by
    rcases hkw with rfl | rfl
    · have hr := rules.seq_rws_fail jaxn _ _ _ _ hstar hstring
      simp only [rules.include_file, node, pegtl.seq, rules.kw_include, hk] at hr ⊢
      rw [hr]
    · have hp : rules.kw_include ⟨pos, "delete".data ++ c :: cs⟩ = .fail := rfl
      simp only [rules.include_file, node, pegtl.seq, hp]
  have hdel : rules.delete_keys jaxn ⟨pos, kw.data ++ c :: cs⟩ = .fail := by
    rcases hkw with rfl | rfl
    · have hp : rules.kw_delete ⟨pos, "include".data ++ c :: cs⟩ = .fail := rfl
      simp only [rules.delete_keys, node, pegtl.seq, hp]
    · have hr := rules.seq_rws_fail jaxn _ _ _ _ hstar hmkeyfail
      simp only [rules.delete_keys, node, pegtl.seq, rules.kw_delete, hk] at hr ⊢
      rw [hr]
  simp only [rules.statement, pegtl.sor, hinc, hdel, hmember]

/-- The statements `include: 1` and `delete = 2` are members with the keys
`include` and `delete`. -/
theorem keywords_are_not_reserved_witness :
    (rules.statement jaxn_model.rules (rules.unfold jaxn_model.rules 1)
          ⟨0, "include".data ++ [':', ' ', '1']⟩ =
        .ok [.mk (some .member) 0 none
          [.mk (some .mkey) 0 none [.mk (some .identifier) 0 (some "include") []],
           .mk (some (.number false)) 9 (some "1") []]] ⟨10, []⟩ ∧
      ∀ gs, key gs (.mk (some .mkey) 0 none [.mk (some .identifier) 0 (some "include") []]) =
        .ok ⟨["include"]⟩) ∧
    (rules.statement jaxn_model.rules (rules.unfold jaxn_model.rules 1)
          ⟨0, "delete".data ++ [' ', '=', ' ', '2']⟩ =
        .ok [.mk (some .member) 0 none
          [.mk (some .mkey) 0 none [.mk (some .identifier) 0 (some "delete") []],
           .mk (some (.number false)) 9 (some "2") []]] ⟨10, []⟩ ∧
      ∀ gs, key gs (.mk (some .mkey) 0 none [.mk (some .identifier) 0 (some "delete") []]) =
        .ok ⟨["delete"]⟩) :=
  ⟨keywords_are_not_reserved jaxn_model.rules 0 "include" 0 [':', ' ', '1'] []
      [.mk (some (.number false)) 9 (some "1") []] ⟨9, ['1']⟩ ⟨10, []⟩ (Or.inl rfl)
      jaxn_model.ws_not_identifier jaxn_model.string_fails_at_separator (by decide) (by decide),
    keywords_are_not_reserved jaxn_model.rules 0 "delete" 0 [' ', '=', ' ', '2'] []
      [.mk (some (.number false)) 9 (some "2") []] ⟨9, ['2']⟩ ⟨10, []⟩ (Or.inr rfl)
      jaxn_model.ws_not_identifier jaxn_model.string_fails_at_separator (by decide) (by decide)⟩

/-! ### the members of an object -/

namespace pegtl

theorem opt_lift_inv {m : Matcher} {i i' : Input} {ns : List Node}
    (h : opt (lift m) i = .ok ns i') : ns = [] := by
  simp only [opt] at h
  cases h1 : lift m i with
  | ok ms j =>
    simp only [h1, Result.ok.injEq] at h
    rw [← h.1]
    exact lift_inv h1
  | fail =>
    simp only [h1, Result.ok.injEq] at h
    exact h.1.symm
  | raise w => simp [h1] at h
  | diverge => simp [h1] at h
  | undefined => simp [h1] at h

end pegtl

namespace rules

open pegtl

theorem members_step {jaxn : jaxn_rules} {fwd : forward} {n : Nat} {i l : Input}
    {ms : List Node} (h : members jaxn fwd (n + 1) i = some (ms, l)) :
    ∃ ms1 j ns, seq (member jaxn fwd) (opt (lift jaxn.value_separator)) i = .ok ms1 j ∧
      members jaxn fwd n j = some (ns, l) ∧ ms = ms1 ++ ns := by
  simp only [members] at h
  cases h1 : seq (member jaxn fwd) (opt (lift jaxn.value_separator)) i with
  | ok ms1 j =>
    simp only [h1] at h
    cases h2 : members jaxn fwd n j with
    | some v =>
      obtain ⟨ns, k⟩ := v
      simp only [h2, Option.some.injEq, Prod.mk.injEq] at h
      obtain ⟨rfl, rfl⟩ := h
      exact ⟨ms1, j, ns, rfl, h2, rfl⟩
    | none => simp [h2] at h
  | fail => simp [h1] at h
  | raise w => simp [h1] at h
  | diverge => simp [h1] at h
  | undefined => simp [h1] at h

/-- The loop of `object_content` goes round as often as there are members. -/
theorem star_loop_members (jaxn : jaxn_rules) (hj : jaxn.well_formed) (fwd : forward)
    (hf : fwd.sound) (n : Nat) :
    ∀ (i l : Input) (ms : List Node) (fuel : Nat),
      members jaxn fwd n i = some (ms, l) → member jaxn fwd l = .fail →
      i.rest.length < fuel →
      star_loop (seq (member jaxn fwd) (opt (lift jaxn.value_separator))) fuel i =
        .ok ms l := by
  induction n with
  | zero =>
    intro i l ms fuel h hstop hfuel
    simp only [members, Option.some.injEq, Prod.mk.injEq] at h
    obtain ⟨rfl, rfl⟩ := h
    obtain ⟨fuel, rfl⟩ : ∃ k, fuel = k + 1 := ⟨fuel - 1, by omega⟩
    simp [star_loop, seq, hstop]
  | succ n ih =>
    intro i l ms fuel h hstop hfuel
    obtain ⟨ms1, j, ns, h1, h2, rfl⟩ := members_step h
    obtain ⟨fuel, rfl⟩ : ∃ k, fuel = k + 1 := ⟨fuel - 1, by omega⟩
    have hstep : Step (true || false) i ms1 j :=
      seq_sound (member_sound hj hf) (opt_sound (lift_sound _)) _ _ _ h1
    have hlt : j.rest.length < i.rest.length := Step.length_lt hstep
    simp only [star_loop, h1, if_pos hlt, ih j l ns fuel h2 hstop (by omega)]

/-- The nodes of the members of an object: one member node for each member,
each with its key path first, at positions that go up. -/
theorem members_nodes (jaxn : jaxn_rules) (hj : jaxn.well_formed) (fwd : forward)
    (hf : fwd.sound) (n : Nat) :
    ∀ (i l : Input) (ms : List Node), members jaxn fwd n i = some (ms, l) →
      ms.length = n ∧ (∀ m ∈ ms, is_member m ∧ i.pos ≤ m.begin_) ∧
        ms.Pairwise (fun a b => a.begin_ < b.begin_) := by
  induction n with
  | zero =>
    intro i l ms h
    simp only [members, Option.some.injEq, Prod.mk.injEq] at h
    obtain ⟨rfl, rfl⟩ := h
    simp
  | succ n ih =>
    intro i l ms h
    obtain ⟨ms1, j, ns, h1, h2, rfl⟩ := members_step h
    obtain ⟨as, j1, bs, h3, h4, rfl⟩ := seq_inv h1
    obtain ⟨front, rest, rfl, hfront⟩ := member_inv h3
    have hb := opt_lift_inv h4
    subst hb
    obtain ⟨hlen, hall, hpw⟩ := ih j l ns h2
    have hpos1 : i.pos < j1.pos := by
      obtain ⟨c, -, e2, -, e4⟩ := member_sound hj hf _ _ _ h3
      have : 0 < c.length := List.length_pos.2 (e4 rfl)
      omega
    have hpos2 : j1.pos ≤ j.pos := by
      obtain ⟨c, -, e2, -, -⟩ := opt_sound (lift_sound jaxn.value_separator) _ _ _ h4
      omega
    refine ⟨by simp [hlen], ?_, ?_⟩
    · intro m hm
      simp only [List.append_nil, List.singleton_append, List.mem_cons] at hm
      rcases hm with rfl | hm
      · exact ⟨⟨_, _, front, rest, rfl, hfront⟩, le_refl _⟩
      · exact ⟨(hall m hm).1, by have := (hall m hm).2; omega⟩
    · simp only [List.append_nil, List.singleton_append, List.pairwise_cons]
      refine ⟨fun m hm => ?_, hpw⟩
      have := (hall m hm).2
      show i.pos < m.begin_
      omega

end rules

/-- C14: an object value of one member list in braces with `n` members: when
the opening brace matches, `n` members match in a row after it, no further
member matches, the closing brace matches and no concatenation sign follows,
then the value is one `object` node without content whose children are exactly
the `n` member nodes in the order they were matched, which is the order of
their positions in the input, each with its key path as first child. -/
theorem object_members_keep_source_order (jaxn : jaxn_rules) (hj : jaxn.well_formed)
    (depth n pos : Nat) (r0 : List Char) (k0 k1 : Nat) (ms : List Node) (i2 : Input)
    (hbegin : jaxn.begin_object ('{' :: r0) = .ok k0)
    (hrun : rules.members jaxn (rules.unfold jaxn (depth + 1)) n
      ((⟨pos, '{' :: r0⟩ : Input).bump k0) = some (ms, i2))
    (hstop : rules.member jaxn (rules.unfold jaxn (depth + 1)) i2 = .fail)
    (hend : jaxn.end_object i2.rest = .ok k1)
    (hcat : jaxn.value_concat (i2.bump k1).rest = .fail) :
    rules.sor_value.match_ jaxn (rules.unfold jaxn (depth + 1)) ⟨pos, '{' :: r0⟩ =
        .ok [.mk (some .object) pos none ms] (i2.bump k1) ∧
      ms.length = n ∧ (∀ m ∈ ms, is_member m) ∧
      ms.Pairwise (fun a b => a.begin_ < b.begin_) := by
  have hf := rules.unfold_sound hj (depth + 1)
  obtain ⟨hlen, hall, hpw⟩ := rules.members_nodes jaxn hj _ hf n _ _ _ hrun
  refine ⟨?_, hlen, fun m hm => (hall m hm).1, hpw⟩
  have hcontent : rules.object_content jaxn (rules.unfold jaxn (depth + 1))
      ((⟨pos, '{' :: r0⟩ : Input).bump k0) = .ok ms i2 :=
    rules.star_loop_members jaxn hj _ hf n _ _ _ _ hrun hstop (Nat.lt_succ_self _)
  have hexp : (rules.unfold jaxn (depth + 1)).expression ⟨pos, '{' :: r0⟩ = .fail :=
    rules.expression_fail_of_head jaxn (rules.unfold jaxn depth) ⟨pos, '{' :: r0⟩ '{' r0 rfl
      (by decide)
  have hvalue : rules.object_value jaxn (rules.unfold jaxn (depth + 1)) ⟨pos, '{' :: r0⟩ =
      .ok ms (i2.bump k1) := by
    simp only [rules.object_value, pegtl.seq, pegtl.lift, hbegin, hcontent, pegtl.must, hend]
    simp
  have htail : pegtl.star (pegtl.seq (pegtl.lift jaxn.value_concat)
      (pegtl.must "object_fragment"
        (rules.object_fragment jaxn (rules.unfold jaxn (depth + 1))))) (i2.bump k1) =
      .ok [] (i2.bump k1) := by
    simp only [pegtl.star, pegtl.star_loop, pegtl.seq, pegtl.lift, hcat]
  have hobject : rules.object jaxn (rules.unfold jaxn (depth + 1)) ⟨pos, '{' :: r0⟩ =
      .ok [.mk (some .object) pos none ms] (i2.bump k1) := by
    have hfrag : rules.object_fragment jaxn (rules.unfold jaxn (depth + 1))
        ⟨pos, '{' :: r0⟩ = .ok ms (i2.bump k1) := by
      simp only [rules.object_fragment, pegtl.sor, hexp, hvalue]
    simp only [rules.object, node, pegtl.list_must, pegtl.seq, hfrag, htail,
      Rule.stores_content]
    simp
  simp only [rules.sor_value.match_, rules.sor_value.match_impl, Input.size, Input.peek_char]
  simp [hobject]

/-- The object of `a:1` and `b:2` has the member of `a` and then the member
of `b` as its children. -/
theorem object_members_keep_source_order_witness :
    rules.sor_value.match_ jaxn_model.rules (rules.unfold jaxn_model.rules 1)
          ⟨0, '{' :: ['a', ':', '1', ',', 'b', ':', '2', '}']⟩ =
        .ok [.mk (some .object) 0 none
          [.mk (some .member) 1 none
            [.mk (some .mkey) 1 none [.mk (some .identifier) 1 (some "a") []],
             .mk (some (.number false)) 3 (some "1") []],
           .mk (some .member) 5 none
            [.mk (some .mkey) 5 none [.mk (some .identifier) 5 (some "b") []],
             .mk (some (.number false)) 7 (some "2") []]]] ⟨9, []⟩ ∧
      [Node.mk (some .member) 1 none
            [.mk (some .mkey) 1 none [.mk (some .identifier) 1 (some "a") []],
             .mk (some (.number false)) 3 (some "1") []],
           .mk (some .member) 5 none
            [.mk (some .mkey) 5 none [.mk (some .identifier) 5 (some "b") []],
             .mk (some (.number false)) 7 (some "2") []]].length = 2 ∧
      (∀ m ∈ [Node.mk (some .member) 1 none
            [.mk (some .mkey) 1 none [.mk (some .identifier) 1 (some "a") []],
             .mk (some (.number false)) 3 (some "1") []],
           .mk (some .member) 5 none
            [.mk (some .mkey) 5 none [.mk (some .identifier) 5 (some "b") []],
             .mk (some (.number false)) 7 (some "2") []]], is_member m) ∧
      [Node.mk (some .member) 1 none
            [.mk (some .mkey) 1 none [.mk (some .identifier) 1 (some "a") []],
             .mk (some (.number false)) 3 (some "1") []],
           .mk (some .member) 5 none
            [.mk (some .mkey) 5 none [.mk (some .identifier) 5 (some "b") []],
             .mk (some (.number false)) 7 (some "2") []]].Pairwise
        (fun a b => a.begin_ < b.begin_) :=
  object_members_keep_source_order jaxn_model.rules jaxn_model.rules_well_formed 0 2 0
    ['a', ':', '1', ',', 'b', ':', '2', '}'] 1 1 _ ⟨8, ['}']⟩ (by decide) (by decide)
    (by decide) (by decide) (by decide)

/-! ### reading inside the input -/

namespace pegtl

end pegtl

namespace rules

open pegtl

section
variable {jaxn : jaxn_rules} {fwd : forward}

end

end rules

theorem Woven.append {jaxn : jaxn_rules} {ns ms : List Node} {c1 c2 rest : List Char}
    (h1 : Woven jaxn ns c1 (c2 ++ rest)) (h2 : Woven jaxn ms c2 rest) :
    Woven jaxn (ns ++ ms) (c1 ++ c2) rest := by
  generalize hr : c2 ++ rest = r at h1
  induction h1 with
  | nil r => subst hr; simpa using h2
  | token g cs r ns ht _ ih =>
    subst hr
    rw [List.append_assoc]
    exact Woven.token g (cs ++ c2) rest (ns ++ ms) (by rw [List.append_assoc]; exact ht) (ih rfl)
  | leaf r b s cs r' ns _ ih =>
    subst hr
    rw [List.append_assoc]
    exact Woven.leaf r b s (cs ++ c2) rest (ns ++ ms) (ih rfl)
  | literal r b g cs r' ns hl _ ih =>
    subst hr
    rw [List.append_assoc]
    exact Woven.literal r b g (cs ++ c2) rest (ns ++ ms) hl (ih rfl)
  | inner r b c kids within cs r' ns hk hw _ _ ih =>
    subst hr
    rw [List.append_assoc]
    exact Woven.inner r b c kids within (cs ++ c2) rest (ns ++ ms) hk
      (by rw [List.append_assoc]; exact hw) (ih rfl)

theorem Woven.of_token {jaxn : jaxn_rules} {g rest : List Char} (h : is_token jaxn g rest) :
    Woven jaxn [] g rest := by
  have := Woven.token g [] rest [] (by simpa using h) (Woven.nil rest)
  simpa using this

namespace pegtl

theorem woven_refl (jaxn : jaxn_rules) (i : Input) : Woven jaxn [] [] i.rest := Woven.nil _

theorem lift_woven (jaxn : jaxn_rules) (m : Matcher) (hm : m ∈ structural jaxn) :
    (lift m).woven jaxn := by
  intro i ns i' h
  simp only [lift] at h
  cases hn : m i.rest with
  | ok n =>
    simp only [hn, Result.ok.injEq] at h
    obtain ⟨rfl, rfl⟩ := h
    exact ⟨i.rest.take n, by simp [Input.bump], Woven.of_token (is_token.rule m i.rest n hm hn)⟩
  | fail => simp [hn] at h
  | raise w => simp [hn] at h

theorem one_woven (jaxn : jaxn_rules) (cs : List Char)
    (hcs : ∀ c ∈ cs, c ∈ [':', '=', '.', ')', '+', '-']) : (one cs).woven jaxn := by
  intro i ns i' h
  simp only [one] at h
  split at h
  · rename_i c rest hc
    split at h
    · rename_i hmem
      simp only [Result.ok.injEq] at h
      obtain ⟨rfl, rfl⟩ := h
      refine ⟨[c], by simp [Input.bump, hc], ?_⟩
      have : (i.bump 1).rest = rest := by simp [Input.bump, hc]
      rw [this]
      exact Woven.of_token (is_token.char c rest (hcs c hmem))
    · cases h
  · cases h

theorem isPrefixOf_split {w cs : List Char} (h : w.isPrefixOf cs = true) :
    cs = w ++ cs.drop w.length := by
  induction w generalizing cs with
  | nil => simp
  | cons a w ih =>
    cases cs with
    | nil => simp [List.isPrefixOf] at h
    | cons c cs =>
      simp only [List.isPrefixOf, Bool.and_eq_true, beq_iff_eq] at h
      obtain ⟨rfl, h2⟩ := h
      simp only [List.length_cons, List.drop_succ_cons, List.cons_append, List.cons.injEq,
        true_and]
      exact ih h2

theorem chars_woven (jaxn : jaxn_rules) (w : List Char)
    (hw : w ∈ [['$', '('], "include".data, "delete".data]) : (pegtl.string w).woven jaxn := by
  intro i ns i' h
  simp only [pegtl.string] at h
  split at h <;> try cases h
  rename_i hp
  refine ⟨w, ?_, ?_⟩
  · simpa [Input.bump] using isPrefixOf_split hp
  · exact Woven.of_token (is_token.word w _ hw)

theorem eof_woven (jaxn : jaxn_rules) : eof.woven jaxn := by
  intro i ns i' h
  simp only [eof] at h
  split at h <;> try cases h
  exact ⟨[], by simp, Woven.nil _⟩

theorem seq_woven {jaxn : jaxn_rules} {p q : Parser} (hp : p.woven jaxn) (hq : q.woven jaxn) :
    (seq p q).woven jaxn := by
  intro i ns i' h
  obtain ⟨ms, j, ks, h1, h2, rfl⟩ := seq_inv h
  obtain ⟨c1, e1, w1⟩ := hp _ _ _ h1
  obtain ⟨c2, e2, w2⟩ := hq _ _ _ h2
  refine ⟨c1 ++ c2, by rw [e1, e2, List.append_assoc], ?_⟩
  rw [e2] at w1
  exact w1.append w2

theorem sor_woven {jaxn : jaxn_rules} {p q : Parser} (hp : p.woven jaxn) (hq : q.woven jaxn) :
    (sor p q).woven jaxn := by
  intro i ns i' h
  rcases sor_inv h with h1 | ⟨-, h2⟩
  · exact hp _ _ _ h1
  · exact hq _ _ _ h2

theorem must_woven {jaxn : jaxn_rules} {p : Parser} (what : String) (hp : p.woven jaxn) :
    (must what p).woven jaxn :=
  fun _ _ _ h => hp _ _ _ (must_inv h)

theorem opt_woven {jaxn : jaxn_rules} {p : Parser} (hp : p.woven jaxn) :
    (opt p).woven jaxn := by
  intro i ns i' h
  simp only [opt] at h
  cases h1 : p i with
  | ok ms j =>
    simp only [h1] at h
    exact hp _ _ _ (h1.trans h)
  | fail =>
    simp only [h1, Result.ok.injEq] at h
    obtain ⟨rfl, rfl⟩ := h
    exact ⟨[], by simp, Woven.nil _⟩
  | raise w => simp [h1] at h
  | diverge => simp [h1] at h
  | undefined => simp [h1] at h

theorem star_loop_woven {jaxn : jaxn_rules} {p : Parser} (hp : p.woven jaxn) (n : Nat) :
    ∀ i ns i', star_loop p n i = .ok ns i' → ∃ consumed, i.rest = consumed ++ i'.rest ∧
      Woven jaxn ns consumed i'.rest := by
  induction n with
  | zero => intro _ _ _ h; simp [star_loop] at h
  | succ n ih =>
    intro i ns i' h
    simp only [star_loop] at h
    cases h1 : p i with
    | ok ms j =>
      simp only [h1] at h
      split_ifs at h with hlt
      cases h2 : star_loop p n j with
      | ok ks j' =>
        simp only [h2, Result.ok.injEq] at h
        obtain ⟨rfl, rfl⟩ := h
        obtain ⟨c1, e1, w1⟩ := hp _ _ _ h1
        obtain ⟨c2, e2, w2⟩ := ih _ _ _ h2
        refine ⟨c1 ++ c2, by rw [e1, e2, List.append_assoc], ?_⟩
        rw [e2] at w1
        exact w1.append w2
      | fail => simp [h2] at h
      | raise w => simp [h2] at h
      | diverge => simp [h2] at h
      | undefined => simp [h2] at h
    | fail =>
      simp only [h1, Result.ok.injEq] at h
      obtain ⟨rfl, rfl⟩ := h
      exact ⟨[], by simp, Woven.nil _⟩
    | raise w => simp [h1] at h
    | diverge => simp [h1] at h
    | undefined => simp [h1] at h

theorem star_woven {jaxn : jaxn_rules} {p : Parser} (hp : p.woven jaxn) :
    (star p).woven jaxn :=
  fun i ns i' h => star_loop_woven hp _ i ns i' h

theorem plus_woven {jaxn : jaxn_rules} {p : Parser} (hp : p.woven jaxn) :
    (plus p).woven jaxn :=
  seq_woven hp (star_woven hp)

theorem list_woven {jaxn : jaxn_rules} {r s : Parser} (hr : r.woven jaxn) (hs : s.woven jaxn) :
    (list r s).woven jaxn :=
  seq_woven hr (star_woven (seq_woven hs hr))

theorem list_must_woven {jaxn : jaxn_rules} {r s : Parser} (what : String)
    (hr : r.woven jaxn) (hs : s.woven jaxn) : (list_must what r s).woven jaxn :=
  seq_woven hr (star_woven (seq_woven hs (must_woven _ hr)))

theorem list_tail_woven {jaxn : jaxn_rules} {r s : Parser} (hr : r.woven jaxn)
    (hs : s.woven jaxn) : (list_tail r s).woven jaxn :=
  seq_woven (list_woven hr hs) (opt_woven hs)

theorem pad_woven {jaxn : jaxn_rules} {r p : Parser} (hr : r.woven jaxn) (hp : p.woven jaxn) :
    (pad r p).woven jaxn :=
  seq_woven (star_woven hp) (seq_woven hr (star_woven hp))

theorem until_loop_woven {jaxn : jaxn_rules} {c r : Parser} (hc : c.woven jaxn)
    (hr : r.woven jaxn) (n : Nat) :
    ∀ i ns i', until_loop c r n i = .ok ns i' → ∃ consumed, i.rest = consumed ++ i'.rest ∧
      Woven jaxn ns consumed i'.rest := by
  induction n with
  | zero => intro _ _ _ h; simp [until_loop] at h
  | succ n ih =>
    intro i ns i' h
    simp only [until_loop] at h
    cases h0 : c i with
    | ok ms j =>
      simp only [h0] at h
      exact hc _ _ _ (h0.trans h)
    | fail =>
      simp only [h0] at h
      cases h1 : r i with
      | ok ms j =>
        simp only [h1] at h
        split_ifs at h with hlt
        cases h2 : until_loop c r n j with
        | ok ks j' =>
          simp only [h2, Result.ok.injEq] at h
          obtain ⟨rfl, rfl⟩ := h
          obtain ⟨c1, e1, w1⟩ := hr _ _ _ h1
          obtain ⟨c2, e2, w2⟩ := ih _ _ _ h2
          refine ⟨c1 ++ c2, by rw [e1, e2, List.append_assoc], ?_⟩
          rw [e2] at w1
          exact w1.append w2
        | fail => simp [h2] at h
        | raise w => simp [h2] at h
        | diverge => simp [h2] at h
        | undefined => simp [h2] at h
      | fail => simp [h1] at h
      | raise w => simp [h1] at h
      | diverge => simp [h1] at h
      | undefined => simp [h1] at h
    | raise w => simp [h0] at h
    | diverge => simp [h0] at h
    | undefined => simp [h0] at h

theorem until_woven {jaxn : jaxn_rules} {c r : Parser} (hc : c.woven jaxn) (hr : r.woven jaxn) :
    (until_ c r).woven jaxn :=
  fun i ns i' h => until_loop_woven hc hr _ i ns i' h

end pegtl

theorem matched_text_of_step {i i' : Input} {c : List Char} (h1 : i.rest = c ++ i'.rest)
    (h2 : i'.pos = i.pos + c.length) : matched_text i i' = String.mk c := by
  simp [matched_text, h1, h2]

theorem node_inner_woven {jaxn : jaxn_rules} {p : Parser} (r : Rule)
    (hr : r.stores_content = false) (hp : p.woven jaxn) : (node r p).woven jaxn := by
  intro i ns i' h
  obtain ⟨cs, hcs, rfl⟩ := node_inv h
  obtain ⟨c, e1, w⟩ := hp _ _ _ hcs
  refine ⟨c, e1, ?_⟩
  have := Woven.inner r i.pos none cs c [] i'.rest [] (fun _ => rfl) (by simpa using w)
    (Woven.nil _)
  simpa [hr] using this

theorem node_leaf_woven {jaxn : jaxn_rules} {a : Bool} {p : Parser} (r : Rule)
    (hr : r.stores_content = true) (hs : p.sound a)
    (hn : ∀ i ns i', p i = .ok ns i' → ns = []) : (node r p).woven jaxn := by
  intro i ns i' h
  obtain ⟨cs, hcs, rfl⟩ := node_inv h
  obtain ⟨c, e1, e2, -, -⟩ := hs _ _ _ hcs
  have hnil := hn _ _ _ hcs
  subst hnil
  refine ⟨c, e1, ?_⟩
  have := @Woven.leaf jaxn r i.pos (String.mk c) [] i'.rest [] (Woven.nil _)
  simpa [hr, matched_text_of_step e1 e2] using this

theorem node_literal_woven {jaxn : jaxn_rules} {a : Bool} {p : Parser} (r : Rule)
    (hl : r.is_literal = true) (hr : r.stores_content = false) (hs : p.sound a)
    (hn : ∀ i ns i', p i = .ok ns i' → ns = []) : (node r p).woven jaxn := by
  intro i ns i' h
  obtain ⟨cs, hcs, rfl⟩ := node_inv h
  obtain ⟨c, e1, -, -, -⟩ := hs _ _ _ hcs
  have hnil := hn _ _ _ hcs
  subst hnil
  refine ⟨c, e1, ?_⟩
  have := @Woven.literal jaxn r i.pos c [] i'.rest [] hl (Woven.nil _)
  simpa [hr] using this

theorem node_stored_woven {jaxn : jaxn_rules} {a : Bool} {p : Parser} (r : Rule)
    (hp : p.woven jaxn) (hs : p.sound a) : (node r p).woven jaxn := by
  intro i ns i' h
  obtain ⟨cs, hcs, rfl⟩ := node_inv h
  obtain ⟨c, e1, w⟩ := hp _ _ _ hcs
  obtain ⟨c', e1', e2, -, -⟩ := hs _ _ _ hcs
  have hc : c' = c := List.append_cancel_right (e1'.symm.trans e1)
  subst hc
  refine ⟨c', e1, ?_⟩
  cases cs with
  | nil =>
    by_cases hr : r.stores_content = true
    · have := @Woven.leaf jaxn r i.pos (String.mk c') [] i'.rest [] (Woven.nil _)
      simpa [hr, matched_text_of_step e1 e2] using this
    · have := Woven.inner r i.pos none [] c' [] i'.rest [] (fun _ => rfl) (by simpa using w)
        (Woven.nil _)
      simpa [hr] using this
  | cons k ks =>
    have := Woven.inner r i.pos
      (if r.stores_content then some (matched_text i i') else none) (k :: ks) c' [] i'.rest []
      (fun hk => by cases hk) (by simpa using w) (Woven.nil _)
    simpa using this

namespace rules

open pegtl

section
variable {jaxn : jaxn_rules} {fwd : forward}

theorem ws_woven : (lift jaxn.ws).woven jaxn := lift_woven jaxn _ (by simp [structural])

theorem value_concat_woven : (lift jaxn.value_concat).woven jaxn :=
  lift_woven jaxn _ (by simp [structural])

theorem padr_woven {r : Parser} (hr : r.woven jaxn) : (padr jaxn r).woven jaxn :=
  seq_woven hr (star_woven ws_woven)

theorem rws_woven : (rws jaxn).woven jaxn := plus_woven ws_woven

theorem identifier_woven : identifier.woven jaxn := by
  intro i ns i' h
  rw [identifier_eq] at h
  split_ifs at h
  simp only [Result.ok.injEq] at h
  obtain ⟨rfl, rfl⟩ := h
  refine ⟨i.rest.takeWhile identifier_char, (List.takeWhile_append_dropWhile _ _).symm, ?_⟩
  have := @Woven.leaf jaxn .identifier i.pos
    (String.mk (i.rest.takeWhile identifier_char)) [] (i.rest.dropWhile identifier_char) []
    (Woven.nil _)
  simpa using this

theorem name_separator_woven : (name_separator jaxn).woven jaxn :=
  pad_woven (one_woven jaxn _ (by decide)) ws_woven

theorem function_param_woven (hf : fwd.woven jaxn) : (function_param jaxn fwd).woven jaxn :=
  node_inner_woven _ rfl (seq_woven identifier_woven
    (seq_woven (must_woven _ name_separator_woven) (must_woven _ hf.value)))

theorem function_woven (hf : fwd.woven jaxn) : (function jaxn fwd).woven jaxn :=
  node_inner_woven _ rfl (seq_woven identifier_woven (seq_woven rws_woven
    (list_woven (function_param_woven hf) (lift_woven jaxn _ (by simp [structural])))))

theorem string_fragment_woven (hf : fwd.woven jaxn) : (string_fragment jaxn fwd).woven jaxn :=
  sor_woven (node_leaf_woven _ rfl (lift_sound _) (fun _ _ _ h => lift_inv h)) hf.expression

theorem string_woven (hf : fwd.woven jaxn) : (string jaxn fwd).woven jaxn :=
  node_inner_woven _ rfl (list_must_woven _ (string_fragment_woven hf) value_concat_woven)

theorem binary_fragment_woven (hf : fwd.woven jaxn) : (binary_fragment jaxn fwd).woven jaxn :=
  sor_woven hf.expression (node_leaf_woven _ rfl (lift_sound _) (fun _ _ _ h => lift_inv h))

theorem binary_woven (hf : fwd.woven jaxn) : (binary jaxn fwd).woven jaxn :=
  node_inner_woven _ rfl (list_must_woven _ (binary_fragment_woven hf) value_concat_woven)

theorem element_woven (hf : fwd.woven jaxn) : (element fwd).woven jaxn :=
  node_inner_woven _ rfl hf.value

theorem array_content_woven (hf : fwd.woven jaxn) : (array_content jaxn fwd).woven jaxn :=
  opt_woven (list_tail_woven (element_woven hf) (lift_woven jaxn _ (by simp [structural])))

theorem array_value_woven (hf : fwd.woven jaxn) : (array_value jaxn fwd).woven jaxn :=
  seq_woven (lift_woven jaxn _ (by simp [structural]))
    (seq_woven (array_content_woven hf) (must_woven _ (lift_woven jaxn _ (by simp [structural]))))

theorem array_fragment_woven (hf : fwd.woven jaxn) : (array_fragment jaxn fwd).woven jaxn :=
  sor_woven hf.expression (array_value_woven hf)

theorem array_woven (hf : fwd.woven jaxn) : (array jaxn fwd).woven jaxn :=
  node_inner_woven _ rfl (list_must_woven _ (array_fragment_woven hf) value_concat_woven)

theorem mkey_part_woven (hj : jaxn.well_formed) (hk : jaxn.keeps_content) :
    (mkey_part jaxn).woven jaxn :=
  sor_woven identifier_woven (node_stored_woven _ hk.string hj.string_sound)

theorem mkey_woven (hj : jaxn.well_formed) (hk : jaxn.keeps_content) : (mkey jaxn).woven jaxn :=
  node_inner_woven _ rfl (list_woven (mkey_part_woven hj hk) (one_woven jaxn _ (by decide)))

theorem member_woven (hj : jaxn.well_formed) (hk : jaxn.keeps_content) (hf : fwd.woven jaxn) :
    (member jaxn fwd).woven jaxn :=
  node_inner_woven _ rfl (seq_woven (mkey_woven hj hk)
    (seq_woven (must_woven _ name_separator_woven) (must_woven _ hf.value)))

theorem object_content_woven (hj : jaxn.well_formed) (hk : jaxn.keeps_content)
    (hf : fwd.woven jaxn) : (object_content jaxn fwd).woven jaxn :=
  star_woven (seq_woven (member_woven hj hk hf)
    (opt_woven (lift_woven jaxn _ (by simp [structural]))))

theorem object_value_woven (hj : jaxn.well_formed) (hk : jaxn.keeps_content)
    (hf : fwd.woven jaxn) : (object_value jaxn fwd).woven jaxn :=
  seq_woven (lift_woven jaxn _ (by simp [structural]))
    (seq_woven (object_content_woven hj hk hf)
      (must_woven _ (lift_woven jaxn _ (by simp [structural]))))

theorem object_fragment_woven (hj : jaxn.well_formed) (hk : jaxn.keeps_content)
    (hf : fwd.woven jaxn) : (object_fragment jaxn fwd).woven jaxn :=
  sor_woven hf.expression (object_value_woven hj hk hf)

theorem object_woven (hj : jaxn.well_formed) (hk : jaxn.keeps_content) (hf : fwd.woven jaxn) :
    (object jaxn fwd).woven jaxn :=
  node_inner_woven _ rfl (list_must_woven _ (object_fragment_woven hj hk hf) value_concat_woven)

theorem rkey_part_woven (hf : fwd.woven jaxn) : (rkey_part jaxn fwd).woven jaxn :=
  sor_woven (string_woven hf) identifier_woven

theorem rkey_woven (hf : fwd.woven jaxn) : (rkey jaxn fwd).woven jaxn :=
  node_inner_woven _ rfl (list_woven (rkey_part_woven hf) (one_woven jaxn _ (by decide)))

theorem expression_woven (hf : fwd.woven jaxn) : (expression jaxn fwd).woven jaxn :=
  node_inner_woven _ rfl (seq_woven (chars_woven jaxn _ (by simp))
    (seq_woven (must_woven _ (sor_woven (function_woven hf) (rkey_woven hf)))
      (must_woven _ (one_woven jaxn _ (by decide)))))

theorem expression_list_woven (hj : jaxn.well_formed) (hk : jaxn.keeps_content)
    (hf : fwd.woven jaxn) : (expression_list jaxn fwd).woven jaxn :=
  seq_woven hf.expression
    (star_woven (seq_woven value_concat_woven
      (sor_woven hf.expression
        (must_woven _ (sor_woven (string_woven hf) (sor_woven (binary_woven hf)
          (sor_woven (object_woven hj hk hf) (array_woven hf))))))))

theorem match_signed_woven (hk : jaxn.keeps_content) (neg : Bool) (i : Input) (c : Char)
    (t : List Char) (hi : i.rest = c :: t) (hc : c = '+' ∨ c = '-') (ns : List Node)
    (i' : Input) (h : sor_value.match_signed jaxn neg i = .ok ns i') :
    ∃ consumed, i.rest = consumed ++ i'.rest ∧ Woven jaxn ns consumed i'.rest := by
  simp only [sor_value.match_signed] at h
  split_ifs at h with he
  have hb : (i.bump 1).rest = t := by simp [Input.bump, hi]
  cases h1 : jaxn.match_number neg (i.bump 1) with
  | ok ms j =>
    simp only [h1, Result.ok.injEq] at h
    obtain ⟨rfl, rfl⟩ := h
    obtain ⟨c2, e2, w2⟩ := hk.match_number neg _ _ _ h1
    rw [hb] at e2
    refine ⟨c :: c2, by rw [hi, e2]; rfl, ?_⟩
    exact Woven.token [c] c2 j.rest ms
      (is_token.char c _ (by rcases hc with rfl | rfl <;> decide)) w2
  | fail => simp [h1] at h
  | raise w => simp [h1] at h
  | diverge => simp [h1] at h
  | undefined => simp [h1] at h

theorem match_impl_woven (hj : jaxn.well_formed) (hk : jaxn.keeps_content)
    (hf : fwd.woven jaxn) : (sor_value.match_impl jaxn fwd).woven jaxn := by
  intro i ns i' h
  simp only [sor_value.match_impl] at h
  split at h
  · cases h
  · rename_i c hpeek
    have hi : ∃ t, i.rest = c :: t := by
      cases hr : i.rest with
      | nil => simp [Input.peek_char, hr] at hpeek
      | cons d t =>
        simp only [Input.peek_char, hr, List.get?_cons_zero, Option.some.injEq] at hpeek
        exact ⟨t, by rw [hpeek]⟩
    obtain ⟨t, hi⟩ := hi
    split_ifs at h with h0 h1 h2 h3 h4 h5 h6 h7 h8
    · exact object_woven hj hk hf _ _ _ h
    · exact array_woven hf _ _ _ h
    · exact node_literal_woven .null rfl rfl (lift_sound _) (fun _ _ _ h => lift_inv h) _ _ _ h
    · exact node_literal_woven .true_ rfl rfl (lift_sound _) (fun _ _ _ h => lift_inv h) _ _ _ h
    · exact node_literal_woven .false_ rfl rfl (lift_sound _) (fun _ _ _ h => lift_inv h) _ _ _ h
    · exact string_woven hf _ _ _ h
    · split at h
      · split_ifs at h
        · exact expression_list_woven hj hk hf _ _ _ h
        · exact binary_woven hf _ _ _ h
      · cases h
    · exact match_signed_woven hk false i c t hi (Or.inl h7) _ _ h
    · exact match_signed_woven hk true i c t hi (Or.inr h8) _ _ h
    · exact hk.match_number false _ _ _ h

theorem match_woven (hj : jaxn.well_formed) (hk : jaxn.keeps_content) (hf : fwd.woven jaxn) :
    (sor_value.match_ jaxn fwd).woven jaxn := by
  intro i ns i' h
  simp only [sor_value.match_] at h
  split_ifs at h
  exact match_impl_woven hj hk hf _ _ _ h

theorem value_woven (hj : jaxn.well_formed) (hk : jaxn.keeps_content) (hf : fwd.woven jaxn) :
    (value jaxn fwd).woven jaxn :=
  padr_woven (match_woven hj hk hf)

theorem unfold_woven (hj : jaxn.well_formed) (hk : jaxn.keeps_content) (depth : Nat) :
    (unfold jaxn depth).woven jaxn := by
  induction depth with
  | zero => exact ⟨fun i ns i' h => by simp [unfold] at h, fun i ns i' h => by simp [unfold] at h⟩
  | succ d ih => exact ⟨value_woven hj hk ih, expression_woven ih⟩

theorem include_file_woven (hf : fwd.woven jaxn) : (include_file jaxn fwd).woven jaxn :=
  node_inner_woven _ rfl (seq_woven (chars_woven jaxn _ (by simp))
    (seq_woven rws_woven (string_woven hf)))

theorem delete_keys_woven (hj : jaxn.well_formed) (hk : jaxn.keeps_content) :
    (delete_keys jaxn).woven jaxn :=
  node_inner_woven _ rfl (seq_woven (chars_woven jaxn _ (by simp))
    (seq_woven rws_woven (mkey_woven hj hk)))

theorem statement_woven (hj : jaxn.well_formed) (hk : jaxn.keeps_content)
    (hf : fwd.woven jaxn) : (statement jaxn fwd).woven jaxn :=
  sor_woven (include_file_woven hf) (sor_woven (delete_keys_woven hj hk) (member_woven hj hk hf))

theorem grammar_woven (hj : jaxn.well_formed) (hk : jaxn.keeps_content) (depth : Nat) :
    (grammar jaxn depth).woven jaxn :=
  until_woven (eof_woven jaxn)
    (sor_woven ws_woven (must_woven _ (statement_woven hj hk (unfold_woven hj hk depth))))

end

end rules

theorem jaxn_model.rules_keep_content : jaxn_model.rules.keeps_content where
  string :=
    pegtl.list_must_woven _
      (node_leaf_woven _ rfl (pegtl.lift_sound _) (fun _ _ _ h => pegtl.lift_inv h))
      (pegtl.lift_woven jaxn_model.rules _ (by simp [structural, jaxn_model.rules]))
  match_number := fun neg =>
    node_leaf_woven (.number neg) rfl (pegtl.lift_sound _) (fun _ _ _ h => pegtl.lift_inv h)

/-- C9 (amended): for every input that parses, the whole input is woven from
the statements of the tree: read from left to right it is made of the stored
contents of the leaves in depth-first order (the texts of identifiers, strings,
numbers and binary values, each exactly as matched), of the texts of the
literals that are kept without content (`null`, `true`, `false`), and of
pieces matched by rules without a node (white space, separators, brackets,
braces, concatenation signs, `:`, `=`, `.`, `$(`, `)`, signs and the keywords
`include` and `delete`), and of nothing else; so the contents of the leaves,
one after the other, are a subsequence of the input. -/
theorem leaves_and_tokens_make_the_input (jaxn : jaxn_rules) (hj : jaxn.well_formed)
    (hk : jaxn.keeps_content) (depth : Nat) (text : String) (root : Node) (i' : Input)
    (h : parse jaxn depth text = .ok [root] i') :
    Woven jaxn root.children text.data [] ∧ (leaf_text root).Sublist text.data := by
  obtain ⟨ns, hg, hroot⟩ := parse_ok h
  simp only [List.cons.injEq, and_true] at hroot
  subst hroot
  have hrest : i'.rest = [] := until_loop_eof_ok _ _ _ _ hg
  constructor
  · obtain ⟨c, e1, w⟩ := rules.grammar_woven hj hk depth _ _ _ hg
    rw [hrest] at w e1
    simp only [List.append_nil] at e1
    have e2 : text.data = c := e1
    rw [e2]
    exact w
  · obtain ⟨c, h1, -, h3, -⟩ := rules.grammar_sound hj depth _ _ _ hg
    rw [leaf_text_root]
    simp only at h1
    rw [h1]
    exact h3.trans (List.sublist_append_left _ _)

/-- The text `a:1` is woven from the member of its tree: the leaf `a`, the
colon, and the leaf `1`. -/
theorem leaves_and_tokens_make_the_input_witness :
    Woven jaxn_model.rules
        (Node.mk none 0 none
          [.mk (some .member) 0 none
            [.mk (some .mkey) 0 none [.mk (some .identifier) 0 (some "a") []],
             .mk (some (.number false)) 2 (some "1") []]]).children "a:1".data [] ∧
      (leaf_text (.mk none 0 none
        [.mk (some .member) 0 none
          [.mk (some .mkey) 0 none [.mk (some .identifier) 0 (some "a") []],
           .mk (some (.number false)) 2 (some "1") []]])).Sublist "a:1".data :=
  leaves_and_tokens_make_the_input jaxn_model.rules jaxn_model.rules_well_formed
    jaxn_model.rules_keep_content 1 "a:1" _ ⟨3, []⟩ (by decide)

end config
